import Mathlib

/-!
# Verification of the patchflow synchronization core

This file gives a shallow embedding in Lean of the parts of the
`sagemathinc/patchflow` TypeScript code base that its design document makes
claims about, and proves or refutes those claims.

Conventions used throughout:

* JavaScript strings are modelled as Lean `String`s and, where character-level
  work is needed, as their `List Char` of code points.  All identifiers and
  document texts appearing in the claims are ASCII, where JS UTF-16 units and
  code points agree.
* JavaScript numbers that the code uses as integral quantities (millisecond
  timestamps, logical clock values, slot indices, record ids) are modelled as
  `Nat`/`Int`.  None of the verified claims exercises fractional values.
* Code that `throw`s is modelled with `Option`: `none` is an exception.  The
  error message strings themselves are not modelled.
* The JS `Map`/`Set` and immutable.js `Map`/`Set`/`List` containers are
  modelled as association lists and duplicate-free lists.  Whenever the source
  iterates a hash container in hash order, it either sorts the result or the
  result is order-insensitive; the embedding uses a canonical order in those
  spots and says so next to the definition.
-/

set_option linter.unusedVariables false

namespace Patchflow

/-! ## Character-list string order

JavaScript compares strings (`a < b`, used by `comparePatchId` in
`patch-id.ts`) lexicographically by UTF-16 code units.  We implement that
order directly on `List Char` so that it evaluates by `decide`/`rfl`; the
built-in `String.lt` of this toolchain does not kernel-reduce. -/

/-- Lexicographic strict order on char lists, mirroring JS string `<`. -/
def ltCharList : List Char → List Char → Bool
  | [], [] => false
  | [], _ :: _ => true
  | _ :: _, [] => false
  | a :: as, b :: bs =>
    if a < b then true
    else if b < a then false
    else ltCharList as bs

/-- JS string `a < b`. -/
def ltStr (a b : String) : Bool := ltCharList a.data b.data

/-- `comparePatchId` from `patch-id.ts`: `0` when equal, else by string order. -/
def comparePatchId (a b : String) : Int :=
  if a = b then 0 else if ltStr a b then -1 else 1

/-! ## PatchId (`src/patch-id.ts`)

`encodePatchId(timeMs, clientId)` produces `time36 + "_" + clientId` where
`time36` is `Math.floor(timeMs).toString(36)` left-padded with `'0'` to width
11.  `decodePatchId` slices the fixed-width prefix back off.  Times are
modelled as `Nat` (the code floors its input and rejects negative or
non-finite values, so the valid domain is the naturals).  `toString(36)` and
`Number.parseInt(·, 36)` are modelled digit by digit; `parseInt`'s tolerance
for leading whitespace is not modelled (no encoded id contains whitespace),
its handling of an optional leading sign is. -/

/-- `TIME36_WIDTH` from `patch-id.ts`. -/
def TIME36_WIDTH : Nat := 11

/-- The base-36 digit character for `d` as produced by JS `Number.toString(36)`:
`0`–`9` then lowercase `a`–`z`. -/
def digit36 (d : Nat) : Char :=
  if d < 10 then Char.ofNat (48 + d) else Char.ofNat (87 + d)

/-- The numeric value `Number.parseInt` assigns to one character in base 36
(digits, lowercase and uppercase letters), `none` for any other character. -/
def val36 (c : Char) : Option Nat :=
  if 48 ≤ c.toNat ∧ c.toNat ≤ 57 then some (c.toNat - 48)
  else if 97 ≤ c.toNat ∧ c.toNat ≤ 122 then some (c.toNat - 87)
  else if 65 ≤ c.toNat ∧ c.toNat ≤ 90 then some (c.toNat - 55)
  else none

/-- Base-36 digits of `n`, least significant first.  The `fuel` argument makes
the recursion structural; `fuel = n` always suffices since the quotient
shrinks strictly. -/
def toDigitsRev36 : Nat → Nat → List Nat
  | 0, n => [n % 36]
  | fuel + 1, n => if n < 36 then [n] else n % 36 :: toDigitsRev36 fuel (n / 36)

/-- JS `n.toString(36)` for a natural number: most-significant digit first. -/
def toBase36 (n : Nat) : List Char :=
  ((toDigitsRev36 n n).reverse).map digit36

/-- JS `String.prototype.padStart(11, "0")`. -/
def padStart11 (l : List Char) : List Char :=
  List.replicate (TIME36_WIDTH - l.length) '0' ++ l

/-- `encodePatchId` from `patch-id.ts`.  `none` models the thrown errors
(empty client id; negative or non-finite times are excluded by the `Nat`
domain). -/
def encodePatchId (timeMs : Nat) (clientId : String) : Option String :=
  if clientId = "" then none
  else some ⟨padStart11 (toBase36 timeMs) ++ '_' :: clientId.data⟩

/-- Accumulating digit parser: JS `parseInt` consumes valid digits and stops
at the first invalid character, returning the value read so far. -/
def parse36Go : List Char → Nat → Nat
  | [], acc => acc
  | c :: cs, acc =>
    match val36 c with
    | some d => parse36Go cs (acc * 36 + d)
    | none => acc

/-- The unsigned part of `parseInt(·, 36)`: `none` (NaN) when the first
character is not a digit. -/
def parse36Head : List Char → Option Nat
  | [] => none
  | c :: cs => (val36 c).map (fun d => parse36Go cs d)

/-- JS `Number.parseInt(s, 36)` on a char list, including the optional
leading sign. -/
def parseIntJS36 (l : List Char) : Option Int :=
  match l with
  | [] => none
  | c :: rest =>
    if c = '-' then (parse36Head rest).map (fun n => -(n : Int))
    else if c = '+' then (parse36Head rest).map (fun n => (n : Int))
    else (parse36Head l).map (fun n => (n : Int))

/-- `decodePatchId` from `patch-id.ts`: fixed-width parse of the first 11
characters, an underscore delimiter, and the remainder as the client id.
`none` models every thrown error (too short, wrong delimiter, empty client
id, NaN or negative time). -/
def decodePatchId (id : String) : Option (Nat × String) :=
  let l := id.data
  if l.length < TIME36_WIDTH + 2 then none
  else
    let time36 := l.take TIME36_WIDTH
    if (l.drop TIME36_WIDTH).take 1 ≠ ['_'] then none
    else
      let clientId := l.drop (TIME36_WIDTH + 1)
      if clientId = [] then none
      else
        match parseIntJS36 time36 with
        | none => none
        | some t => if t < 0 then none else some (t.toNat, ⟨clientId⟩)

/-- `legacyPatchId` from `patch-id.ts`. -/
def legacyPatchId (timeMs : Nat) : Option String :=
  encodePatchId timeMs "legacy"

/-- Value of a least-significant-first digit list. -/
def valRev36 : List Nat → Nat
  | [] => 0
  | d :: ds => d + 36 * valRev36 ds

/-! ## Three-way text merge (`dmp.ts`)

`threeWayMerge({base, local, remote})` starts with three fast paths and then
weaves the two diffs `base→local` and `base→remote` over a segmentation of
`base`.  The diff computation itself (`dmp.diff_main` of the external
`@cocalc/diff-match-patch` package) is out of scope per the design document;
the embedding takes it as a parameter `diffMain` producing the usual
`(op, text)` pairs with `op ∈ {-1, 0, 1}`. -/

/-- One deletion edit produced by `diffToEdits`: a span of `base` plus the
deleted text.  (`end` is a reserved word in Lean, so the field is `stop`.) -/
structure DelEdit where
  start : Nat
  stop : Nat
  text : String
deriving DecidableEq

/-- Lookup in the insertion-position map (JS `Map.get`). -/
def insGet (m : List (Nat × List String)) (k : Nat) : Option (List String) :=
  match m with
  | [] => none
  | (k', v) :: rest => if k' = k then some v else insGet rest k

/-- Update in the insertion-position map (JS `Map.set`): replaces in place,
else appends, preserving insertion order. -/
def insSet (m : List (Nat × List String)) (k : Nat) (v : List String) :
    List (Nat × List String) :=
  match m with
  | [] => [(k, v)]
  | (k', v') :: rest =>
    if k' = k then (k', v) :: rest else (k', v') :: insSet rest k v

/-- `diffToEdits` from `threeWayMerge`: walk the diff, collecting insert
texts keyed by base position and delete spans.  Ops other than `-1`, `0`,
`1` are ignored, as in the source. -/
def diffToEdits (diffs : List (Int × String)) :
    List (Nat × List String) × List DelEdit :=
  let step := fun (acc : Nat × List (Nat × List String) × List DelEdit)
      (d : Int × String) =>
    let (pos, inserts, deletes) := acc
    let (op, text) := d
    let len := text.data.length
    if op = 0 then (pos + len, inserts, deletes)
    else if op = -1 then
      (pos + len, inserts, deletes ++ [⟨pos, pos + len, text⟩])
    else if op = 1 then
      let arr := (insGet inserts pos).getD []
      (pos, insSet inserts pos (arr ++ [text]), deletes)
    else acc
  let (_, inserts, deletes) := diffs.foldl step (0, [], [])
  (inserts, deletes)

/-- Sorted duplicate-free insertion into a `Nat` list (the JS `Set` of
boundaries, read back in sorted order). -/
def insertSortedNat (n : Nat) : List Nat → List Nat
  | [] => [n]
  | m :: rest =>
    if n < m then n :: m :: rest
    else if n = m then m :: rest
    else m :: insertSortedNat n rest

/-- `hasDelete` from `threeWayMerge`. -/
def hasDelete (edits : List DelEdit) (start stop : Nat) : Bool :=
  edits.any fun e => decide (e.start ≤ start) && decide (stop ≤ e.stop)

/-- JS `base.slice(pos, next)` on the character list of `base`. -/
def sliceStr (base : String) (pos next : Nat) : String :=
  ⟨(base.data.drop pos).take (next - pos)⟩

/-- The pieces contributed at one boundary position: local inserts first,
then remote inserts not already emitted by local (de-duplicated by string
equality), or the remote inserts alone. -/
def insertPiecesAt (localIns remoteIns : List (Nat × List String)) (pos : Nat) :
    List String :=
  let li := (insGet localIns pos).getD []
  let ri := (insGet remoteIns pos).getD []
  if li ≠ [] then li ++ ri.filter (fun r => ¬ li.contains r)
  else if ri ≠ [] then ri
  else []

/-- The main weave loop of `threeWayMerge` over the sorted boundary list:
inserts at each boundary, then the base segment up to the next boundary
unless either side deleted that span (local preferred, both drop it). -/
def weavePieces (base : String) (localIns remoteIns : List (Nat × List String))
    (localDel remoteDel : List DelEdit) : List Nat → List String
  | [] => []
  | [pos] => insertPiecesAt localIns remoteIns pos
  | pos :: next :: rest =>
    insertPiecesAt localIns remoteIns pos ++
      (if hasDelete localDel pos next then []
       else if hasDelete remoteDel pos next then []
       else [sliceStr base pos next]) ++
      weavePieces base localIns remoteIns localDel remoteDel (next :: rest)

/-- `threeWayMerge` from `dmp.ts`, parameterized by the external diff
engine.  The three fast paths are checked first; otherwise the two diffs are
woven over the boundary segmentation of `base`. -/
def threeWayMerge (diffMain : String → String → List (Int × String))
    (base local' remote : String) : String :=
  if local' = remote then local'
  else if base = remote then local'
  else if base = local' then remote
  else
    let localEdits := diffToEdits (diffMain base local')
    let remoteEdits := diffToEdits (diffMain base remote)
    let boundaries :=
      ((localEdits.2 ++ remoteEdits.2).foldl
        (fun s e => insertSortedNat e.stop (insertSortedNat e.start s))
        (insertSortedNat base.data.length (insertSortedNat 0 [])))
    let points :=
      ((localEdits.1.map Prod.fst) ++ (remoteEdits.1.map Prod.fst)).foldl
        (fun s p => insertSortedNat p s) boundaries
    String.join (weavePieces base localEdits.1 remoteEdits.1
      localEdits.2 remoteEdits.2 points)

/-! ## Session logical time (`session.ts`)

`Session.nextTime` advances the session's `lastTime`:
`t = clock(); if (t > lastTime) lastTime = t else lastTime += 1`.
`Session.commit` assigns the envelope's `time` from one `nextTime()` call and
its `wall` from a second `clock()` sample.  Clock values are modelled as
arbitrary integers (a user-supplied `clock` may stall or go backwards;
JS `Date.now()` style clocks are integral milliseconds).  The remaining
state `commit` touches (graph, document, `localTimes`, `undoPtr`, the file
queue) neither reads nor writes `lastTime`, and `applyRemote` only ever
raises it (`lastTime = max(lastTime, env.time)`), so the timing behavior is
fully captured by the `lastTime` component modelled here. -/

/-- The timing-relevant component of `Session` state. -/
structure SessionClock where
  lastTime : Int
deriving DecidableEq

/-- `Session.nextTime` from `session.ts`: returns the emitted time and the
updated state. -/
def Session.nextTime (clockVal : Int) (s : SessionClock) : Int × SessionClock :=
  if clockVal > s.lastTime then (clockVal, ⟨clockVal⟩)
  else (s.lastTime + 1, ⟨s.lastTime + 1⟩)

/-- The time-bearing fields of the envelope built by `Session.commit`. -/
structure CommitEnvelope where
  time : Int
  wall : Int
deriving DecidableEq

/-- The timing behavior of `Session.commit`: `time` comes from `nextTime()`
(sampling the clock once), `wall` from a second clock sample. -/
def Session.commitTimes (clockNext clockWall : Int) (s : SessionClock) :
    CommitEnvelope × SessionClock :=
  let (t, s') := Session.nextTime clockNext s
  ({ time := t, wall := clockWall }, s')

/-- `Session.applyRemote`'s effect on `lastTime`. -/
def Session.applyRemoteTime (envTime : Int) (s : SessionClock) : SessionClock :=
  ⟨max s.lastTime envTime⟩

/-! ## PatchGraph (`patch-graph.ts`, string-id era with caches)

The graph state holds the patch map and the four caches (`valueCache`,
`reachabilityCache`, `mergeCache`, `versionsCache`).  Representation choices:

* The immutable.js `Map` keyed by `Patch.time` is modelled as a list of
  patches kept strictly ascending by `time` (canonical form): the source
  never depends on the hash iteration order — every consumer either sorts
  (`getHeads`, `versions`, the value replay) or is order-insensitive.
* The `children` reverse index is written by `add` but never read anywhere in
  this file of the source, so it is not modelled.
* The LRU value cache is modelled as an association list: the bounds
  (100 entries / 10 MB with the `size()`/`count()` heuristic) are never
  reached in any scenario below, where eviction and recency play no role.
* `fileTimeDedupTolerance` is a public field defaulting to 3000 and never
  reassigned in the repository; it is modelled as the constant below.
* Operations that consult or fill caches return the updated graph; `none`
  models a thrown error (unknown `time`, or `decodePatchId` failing during
  the file-load dedup pass). -/

/-- `DEFAULT_DEDUP_TOLERANCE` from `patch-graph.ts`. -/
def DEFAULT_DEDUP_TOLERANCE : Int := 3000

/-- A patch node (`types.ts`, string-id era).  A missing `parents` array and
an empty one behave identically throughout the source (`parents ?? []`), so
`parents` is a plain list; likewise `isSnapshot`/`file` default to `false`. -/
structure Patch (Body : Type) where
  time : String
  wall : Option Int := none
  patch : Option Body := none
  userId : Option Nat := none
  version : Option Nat := none
  parents : List String := []
  isSnapshot : Bool := false
  snapshot : Option String := none
  file : Bool := false
  seqInfo : Option (Int × Int) := none
deriving DecidableEq

/-- The codec interface the graph consumes (`types.ts` `DocCodec`). -/
structure DocCodec (Doc Body : Type) where
  fromString : String → Doc
  toString : Doc → String
  applyPatch : Doc → Body → Doc
  applyPatchBatch : Doc → List Body → Doc

/-- Association-list get (JS `Map.get` keyed by strings). -/
def alGet {α : Type _} (l : List (String × α)) (k : String) : Option α :=
  match l with
  | [] => none
  | (k', v) :: rest => if k' = k then some v else alGet rest k

/-- Association-list set (JS `Map.set`). -/
def alSet {α : Type _} (l : List (String × α)) (k : String) (v : α) :
    List (String × α) :=
  match l with
  | [] => [(k, v)]
  | (k', v') :: rest =>
    if k' = k then (k', v) :: rest else (k', v') :: alSet rest k v

/-- Sorted duplicate-free insertion into a string list (canonical set of
patch ids). -/
def insertSortedStr (s : String) : List String → List String
  | [] => [s]
  | t :: rest =>
    if ltStr s t then s :: t :: rest
    else if s = t then t :: rest
    else t :: insertSortedStr s rest

/-- Canonically sorted duplicate-free copy of a string list (the source's
`sort(comparePatchId)` over a `Set`). -/
def sortStrs (l : List String) : List String :=
  l.foldl (fun acc s => insertSortedStr s acc) []

/-- The graph state: patch map plus the four caches. -/
structure PatchGraph (Doc Body : Type) where
  patches : List (Patch Body) := []
  valueCache : List (String × Doc × Nat) := []
  reachabilityCache : List (String × List String × List String) := []
  mergeCache : List (String × Doc) := []
  versionsCache : Option (List String) := none

/-- The freshly constructed graph (all caches empty). -/
def PatchGraph.empty (Doc Body : Type) : PatchGraph Doc Body := {}

/-- Lookup in the patch map (`this.patches.get(t)`). -/
def patchesGet {Body : Type} (ps : List (Patch Body)) (t : String) :
    Option (Patch Body) :=
  ps.find? (fun p => p.time = t)

/-- The snapshot-attach merge inside `add`: when the arriving record carries
snapshot data and the existing node has none, the data (and `seqInfo`, with
the existing value as fallback) is attached; otherwise the arrival is a
no-op. -/
def mergeSnapshotInto {Body : Type} (existing p : Patch Body) : Patch Body :=
  if p.isSnapshot ∧ p.snapshot.isSome ∧ existing.snapshot = none then
    { existing with
      isSnapshot := true
      snapshot := p.snapshot
      seqInfo := match p.seqInfo with
        | some si => some si
        | none => existing.seqInfo }
  else existing

/-- Insert one patch into the canonical sorted patch map: fresh ids are
inserted in order, an existing id triggers only the snapshot merge. -/
def insertPatchSorted {Body : Type} (p : Patch Body) :
    List (Patch Body) → List (Patch Body)
  | [] => [p]
  | q :: rest =>
    if ltStr p.time q.time then p :: q :: rest
    else if p.time = q.time then mergeSnapshotInto q p :: rest
    else q :: insertPatchSorted p rest

/-- `PatchGraph.add`: empty input returns immediately (no cache clearing);
otherwise every patch is ingested and the reachability, merge and versions
caches are cleared.  The value cache is NOT cleared — see claim C4. -/
def PatchGraph.add {Doc Body : Type} (g : PatchGraph Doc Body)
    (input : List (Patch Body)) : PatchGraph Doc Body :=
  match input with
  | [] => g
  | _ =>
    { g with
      patches := input.foldl (fun ps p => insertPatchSorted p ps) g.patches
      reachabilityCache := []
      mergeCache := []
      versionsCache := none }

/-- All parent references occurring in the graph. -/
def PatchGraph.allParents {Doc Body : Type} (g : PatchGraph Doc Body) :
    List String :=
  g.patches.foldr (fun p acc => p.parents ++ acc) []

/-- `getHeads`: ids that appear as no patch's parent, ascending by
`comparePatchId` (the canonical key order). -/
def PatchGraph.getHeads {Doc Body : Type} (g : PatchGraph Doc Body) :
    List String :=
  (g.patches.map Patch.time).filter (fun t => ¬ (g.allParents).contains t)

/-- One expansion round of the reachability closure: add every present
parent of every seen non-snapshot node with parents. -/
def reachStep {Doc Body : Type} (g : PatchGraph Doc Body)
    (seen : List String) : List String :=
  seen.foldl (fun acc t =>
    match patchesGet g.patches t with
    | none => acc
    | some p =>
      if p.parents ≠ [] ∧ ¬ p.isSnapshot then
        p.parents.foldl (fun acc2 q =>
          if (patchesGet g.patches q).isSome then insertSortedStr q acc2
          else acc2) acc
      else acc) seen

/-- `knownTimes`: the set computed by the source's stack-based DFS — ids
present in the map and reachable from the heads through `parents`, where
snapshot nodes do not propagate to their parents.  The DFS result is exactly
this closure; it is computed here by iterating `reachStep` as many times as
there are patches (the set grows by at least one element per non-fixpoint
round and is bounded by the patch count), and returned canonically sorted. -/
def PatchGraph.knownTimes {Doc Body : Type} (g : PatchGraph Doc Body)
    (heads : List String) : List String :=
  let seed := heads.foldl (fun acc t =>
    if (patchesGet g.patches t).isSome then insertSortedStr t acc else acc) []
  (List.range g.patches.length).foldl (fun s _ => reachStep g s) seed

/-- `latestSnapshot`: among the given ids, the patch flagged `isSnapshot`
with snapshot data attached whose `time` is largest by `comparePatchId`. -/
def PatchGraph.latestSnapshot {Doc Body : Type} (g : PatchGraph Doc Body)
    (times : List String) : Option (Patch Body) :=
  times.foldl (fun best t =>
    match patchesGet g.patches t with
    | some p =>
      if p.isSnapshot ∧ p.snapshot.isSome then
        match best with
        | none => some p
        | some b => if comparePatchId p.time b.time > 0 then some p else some b
      else best
    | none => best) none

/-- Sorted insertion of a patch by `patchCmp` (which in this era compares
only `comparePatchId` on `time`). -/
def insertPatchByTime {Body : Type} (p : Patch Body) :
    List (Patch Body) → List (Patch Body)
  | [] => [p]
  | q :: rest =>
    if ltStr p.time q.time then p :: q :: rest
    else q :: insertPatchByTime p rest

/-- `ordered.sort(patchCmp)` (insertion sort; the inputs the source sorts
have pairwise distinct times, so stability is irrelevant). -/
def sortPatchesByTime {Body : Type} (l : List (Patch Body)) :
    List (Patch Body) :=
  l.foldr insertPatchByTime []

/-- `dedupFileLoads`: drop a `file:true` patch whose predecessor is also
`file:true` with an identical body and a decoded time at most
`DEFAULT_DEDUP_TOLERANCE` ms later.  `none` models `decodePatchId`
throwing.  The `last` argument is the source's `last` variable. -/
def dedupFileLoadsGo {Body : Type} [DecidableEq Body]
    (last : Option (Patch Body)) :
    List (Patch Body) → Option (List (Patch Body))
  | [] => some []
  | p :: rest =>
    if ¬ p.file then (dedupFileLoadsGo (some p) rest).map (p :: ·)
    else
      match last with
      | some l =>
        if l.file ∧ l.patch.isSome ∧ p.patch.isSome then
          match decodePatchId p.time, decodePatchId l.time with
          | some dp, some dl =>
            if (dp.1 : Int) - (dl.1 : Int) ≤ DEFAULT_DEDUP_TOLERANCE ∧
                p.patch = l.patch then
              dedupFileLoadsGo last rest
            else (dedupFileLoadsGo (some p) rest).map (p :: ·)
          | _, _ => none
        else (dedupFileLoadsGo (some p) rest).map (p :: ·)
      | none => (dedupFileLoadsGo (some p) rest).map (p :: ·)

/-- The in-place `dedupFileLoads` pass as a list transformation. -/
def dedupFileLoads {Body : Type} [DecidableEq Body]
    (ordered : List (Patch Body)) : Option (List (Patch Body)) :=
  dedupFileLoadsGo none ordered

/-- The `// If allowed, seed from the most recent cached value` walk:
starting from the end of the ordered list, the first index `i` whose time
has a cache entry with `count == i + 1` supplies the prefix document. -/
def findCachedPrefix {Doc Body : Type} (vc : List (String × Doc × Nat))
    (ordered : List (Patch Body)) : Option (Doc × Nat) :=
  ((List.range ordered.length).reverse).findSome? fun i =>
    match ordered.get? i with
    | some p =>
      match alGet vc p.time with
      | some (d, cnt) => if cnt = i + 1 then some (d, i + 1) else none
      | none => none
    | none => none

/-- The per-patch application loop of `applyAllValue`'s `cacheAll` branch:
apply each body in turn and cache `(doc, i+1)` under the patch's time
(skipped patches without bodies advance the index but cache nothing). -/
def applyLoop {Doc Body : Type} (codec : DocCodec Doc Body)
    (vc : List (String × Doc × Nat)) (doc : Doc) (i : Nat) :
    List (Patch Body) → Doc × List (String × Doc × Nat)
  | [] => (doc, vc)
  | p :: rest =>
    match p.patch with
    | none => applyLoop codec vc doc (i + 1) rest
    | some b =>
      let d' := codec.applyPatch doc b
      applyLoop codec (alSet vc p.time (d', i + 1)) d' (i + 1) rest

/-- The merge-cache key: sorted head ids joined with `","`. -/
def mergeKey (headTimes : List String) : String :=
  String.intercalate "," (sortStrs headTimes)

/-- `applyAllValue` from `patch-graph.ts` (string-id era), faithful to the
source's branches: reachability-cache use/fill for single cached heads,
`without` removal, snapshot floor, ordering, file-load dedup, cached-prefix
reuse, and the three application branches (`!useCache` via
`applyPatchBatch` with no cache writes; `useCache && !cacheAll` via
`applyPatchBatch` caching only the final document under the last ordered
time; `useCache && cacheAll` via per-patch `applyPatch` caching each step),
followed by the optional merge-cache fill. -/
def PatchGraph.applyAllValue {Doc Body : Type} [DecidableEq Body]
    (g : PatchGraph Doc Body) (codec : DocCodec Doc Body)
    (headTimes : List String) (without : List String)
    (useCache : Bool := false) (allowMergeCache : Bool := false)
    (cacheAll : Bool := true) : Option (Doc × PatchGraph Doc Body) :=
  let cachedPath := useCache ∧ headTimes.length = 1 ∧ without = []
  let (reachable0, orderedTimes?, g1) :=
    if cachedPath then
      let head := headTimes.headD ""
      match alGet g.reachabilityCache head with
      | some (r, o) => (r, some o, g)
      | none =>
        let r := g.knownTimes headTimes
        -- `Array.from(reachable).sort(comparePatchId)`: `r` is already the
        -- canonically sorted set
        let o := r
        (r, some o,
          { g with reachabilityCache := alSet g.reachabilityCache head (r, o) })
    else (g.knownTimes headTimes, none, g)
  let reachable := reachable0.filter (fun t => ¬ without.contains t)
  if reachable = [] then some (codec.fromString "", g1)
  else
    let snapshot := g1.latestSnapshot reachable
    let doc0 := match snapshot with
      | some sp => codec.fromString (sp.snapshot.getD "")
      | none => codec.fromString ""
    let floor? := snapshot.map Patch.time
    let orderedIds := (orderedTimes?.getD reachable).filter (fun t =>
      match floor? with
      | some f => comparePatchId t f > 0
      | none => True)
    let orderedPre := sortPatchesByTime (orderedIds.filterMap (patchesGet g1.patches))
    match dedupFileLoads orderedPre with
    | none => none
    | some ordered =>
      let (startDoc, startIndex) :=
        if useCache then (findCachedPrefix g1.valueCache ordered).getD (doc0, 0)
        else (doc0, 0)
      let (doc, g2) :=
        if ¬ useCache then
          let bodies := (ordered.drop startIndex).filterMap Patch.patch
          (if bodies ≠ [] then codec.applyPatchBatch startDoc bodies
           else startDoc, g1)
        else if ¬ cacheAll then
          let bodies := (ordered.drop startIndex).filterMap Patch.patch
          if bodies ≠ [] then
            let d := codec.applyPatchBatch startDoc bodies
            let g2 := match ordered.getLast? with
              | some last =>
                { g1 with valueCache := alSet g1.valueCache last.time (d, ordered.length) }
              | none => g1
            (d, g2)
          else (startDoc, g1)
        else
          let (d, vc') :=
            applyLoop codec g1.valueCache startDoc startIndex
              (ordered.drop startIndex)
          (d, { g1 with valueCache := vc' })
      if allowMergeCache ∧ headTimes.length > 1 ∧ without = [] then
        some (doc, { g2 with mergeCache := alSet g2.mergeCache (mergeKey headTimes) doc })
      else some (doc, g2)

/-- Options accepted by `value` (`PatchGraphValueOptions`): the
`mergeStrategy` field is stored by the constructor but never read by this
era's `value`, so it is not modelled. -/
structure ValueOpts where
  time : Option String := none
  withoutTimes : List String := []

/-- `PatchGraph.value` (string-id era): unknown explicit `time` throws;
empty head set short-circuits to `fromString("")`; a single head with no
exclusions takes the caching fast path (`cacheAll` exactly when an explicit
`time` was given); multiple heads with no exclusions consult and fill the
merge cache; anything else replays uncached. -/
def PatchGraph.value {Doc Body : Type} [DecidableEq Body]
    (g : PatchGraph Doc Body) (codec : DocCodec Doc Body)
    (opts : ValueOpts) : Option (Doc × PatchGraph Doc Body) :=
  let unknown := match opts.time with
    | some t => (patchesGet g.patches t).isNone
    | none => False
  if unknown then none
  else
    let without := opts.withoutTimes
    let headTimes := match opts.time with
      | some t => [t]
      | none => g.getHeads
    if headTimes = [] then some (codec.fromString "", g)
    else if without = [] ∧ headTimes.length = 1 then
      let cacheAll := opts.time.isSome
      g.applyAllValue codec headTimes without true false cacheAll
    else if headTimes.length > 1 ∧ without = [] then
      let key := mergeKey headTimes
      match alGet g.mergeCache key with
      | some d => some (d, g)
      | none =>
        (g.applyAllValue codec headTimes without false true true).map
          (fun r => (r.1, { r.2 with mergeCache := alSet r.2.mergeCache key r.1 }))
    else g.applyAllValue codec headTimes without false false true

/-- `versions`: fills the versions cache on first use, then filters by the
optional inclusive `start`/`end` bounds. -/
def PatchGraph.versions {Doc Body : Type} (g : PatchGraph Doc Body)
    (start? stop? : Option String := none) :
    List String × PatchGraph Doc Body :=
  let (vc, g') := match g.versionsCache with
    | some v => (v, g)
    | none =>
      let v := g.patches.map Patch.time
      (v, { g with versionsCache := some v })
  (vc.filter (fun t =>
    (match start? with
     | some s => decide (¬ (comparePatchId t s < 0))
     | none => true) &&
    (match stop? with
     | some e => decide (¬ (comparePatchId t e > 0))
     | none => true)), g')

/-- A graph built by `add`-ing the given batches, in order, onto a fresh
instance. -/
def buildGraph (Doc : Type) {Body : Type} (gs : List (List (Patch Body))) :
    PatchGraph Doc Body :=
  gs.foldl PatchGraph.add (PatchGraph.empty Doc Body)

/-! ### Concrete graph scenarios

The scenarios below instantiate the codec with plain string concatenation —
the shape of the `FakeDoc` codec the repository's own `patch-graph.test.ts`
uses (`fromString`/`toString` the identity, `applyPatch` appending the body,
`applyPatchBatch` the iterated form). -/

/-- The concatenation codec over `Doc = Body = String`. -/
def appendCodec : DocCodec String String where
  fromString := id
  toString := id
  applyPatch := fun d b => d ++ b
  applyPatchBatch := fun d bs => bs.foldl (fun x y => x ++ y) d

/-- Root patch `"a"` with body `"A"`. -/
def pA : Patch String := { time := "a", patch := some "A" }

/-- Root patch `"b"` with body `"B"`. -/
def pB : Patch String := { time := "b", patch := some "B" }

/-- Root patch `"t"` with body `"T"`, shared by the two branch heads. -/
def pT : Patch String := { time := "t", patch := some "T" }

/-- Branch head `"x"` with parents `"t"` and `"a"`. -/
def pX : Patch String := { time := "x", patch := some "X", parents := ["t", "a"] }

/-- Branch head `"y"` with parents `"t"` and `"b"`. -/
def pY : Patch String := { time := "y", patch := some "Y", parents := ["t", "b"] }

/-- A further patch `"z"` on top of `"y"`. -/
def pZtop : Patch String := { time := "z", patch := some "W", parents := ["y"] }

/-- The five-patch two-branch graph: `x` reaches `{a,t}`, `y` reaches
`{b,t}`, and `t` sits at position 2 of both heads' replay orders. -/
def twoBranchGraph : PatchGraph String String :=
  (PatchGraph.empty String String).add [pA, pB, pT, pX, pY]

/-- `twoBranchGraph` after `value({time:"x"})` has populated the value and
reachability caches. -/
def twoBranchGraphAfterX : PatchGraph String String :=
  ((twoBranchGraph.value appendCodec { time := some "x" }).map (fun r => r.2)).getD
    twoBranchGraph

/-- Replay as claim C6 words it, for comparison with the implementation:
seed from the latest-id snapshot of the head's reachable set via
`fromString(snapshotText)` and apply only reachable patches with id
strictly greater than the snapshot's, in ascending id order. -/
def claimSnapshotReplay {Doc Body : Type} (g : PatchGraph Doc Body)
    (codec : DocCodec Doc Body) (head : String) : Option Doc :=
  let reachable := g.knownTimes [head]
  match g.latestSnapshot reachable with
  | some sp =>
    let after := reachable.filter fun t => ltStr sp.time t
    some ((after.filterMap (patchesGet g.patches)).foldl
      (fun d p =>
        match p.patch with
        | some b => codec.applyPatch d b
        | none => d)
      (codec.fromString (sp.snapshot.getD "")))
  | none => none

/-- Snapshot root `"0"` carrying text `"Z"`. -/
def pSnap : Patch String := { time := "0", isSnapshot := true, snapshot := some "Z" }

/-- `pA` re-rooted on the snapshot. -/
def qA : Patch String := { time := "a", patch := some "A", parents := ["0"] }

/-- `pB` re-rooted on the snapshot. -/
def qB : Patch String := { time := "b", patch := some "B", parents := ["0"] }

/-- `pT` re-rooted on the snapshot. -/
def qT : Patch String := { time := "t", patch := some "T", parents := ["0"] }

/-- The two-branch graph with a shared snapshot floor `"0"`. -/
def snapBranchGraph : PatchGraph String String :=
  (PatchGraph.empty String String).add [pSnap, qA, qB, qT, pX, pY]

/-! ### Determinism of graph construction (claim C1)

When all ids are distinct, `add` never takes the merge branch, and the
canonical sorted patch map makes graphs built from any insertion order
literally equal — so `value` answers identically for every head selection. -/

/-- Strict time order between patches (the sort key of this era's
`patchCmp`). -/
def patchTimeLt {Body : Type} (p q : Patch Body) : Prop :=
  ltStr p.time q.time = true

/-! ## JSON values and the db-util helpers
(`db-document-immutable.ts`, `db-util.ts`)

Record field values are JSON.  To keep every operation executable the JSON
type is a mutual inductive (`Val`/`ValList`/`ObjList`); top-level records
are association lists `List (String × Val)`.

Canonical-form discipline: objects (`ObjList` and records) are kept sorted
by key with no duplicates.  On canonical values, `stableStringify` from
`db-util.ts` is injective, so

* `deepEqual` (`a === b || stableStringify a == stableStringify b`) is
  structural equality, and
* `toKey` (index bucket keys via `stableStringify`) can key buckets by the
  value itself.

JS numbers in records are modelled as `Int` (every number the claims
exercise is integral). -/

mutual
/-- A JSON value. -/
inductive Val where
  | vnull
  | vbool (b : Bool)
  | vnum (n : Int)
  | vstr (s : String)
  | varr (xs : ValList)
  | vobj (fields : ObjList)
  deriving DecidableEq
/-- A JSON array body. -/
inductive ValList where
  | nil
  | cons (v : Val) (tl : ValList)
  deriving DecidableEq
/-- A JSON object body: key/value pairs, canonically sorted by key. -/
inductive ObjList where
  | nil
  | cons (k : String) (v : Val) (tl : ObjList)
  deriving DecidableEq
end

/-- `isArray` from `db-util.ts`. -/
def isArrVal : Val → Bool
  | .varr _ => true
  | _ => false

/-- `isObject` from `db-util.ts`: a non-null non-array object. -/
def isObjVal : Val → Bool
  | .vobj _ => true
  | _ => false

/-- `obj[k]` on a JSON object body. -/
def ObjList.get : ObjList → String → Option Val
  | .nil, _ => none
  | .cons k' v tl, k => if k' = k then some v else tl.get k

/-- `obj.set(k, v)` keeping the canonical key order. -/
def ObjList.set : ObjList → String → Val → ObjList
  | .nil, k, v => .cons k v .nil
  | .cons k' v' tl, k, v =>
    if ltStr k k' then .cons k v (.cons k' v' tl)
    else if k' = k then .cons k' v tl
    else .cons k' v' (ObjList.set tl k v)

/-- `obj.delete(k)`. -/
def ObjList.del : ObjList → String → ObjList
  | .nil, _ => .nil
  | .cons k' v' tl, k => if k' = k then tl else .cons k' v' (tl.del k)

/-- `Object.keys(obj)`. -/
def ObjList.keys : ObjList → List String
  | .nil => []
  | .cons k _ tl => k :: tl.keys

/-- `deepEqual` from `db-util.ts`: on canonical values, stable-stringify
equality is structural equality. -/
def deepEqual (a b : Val) : Bool := a == b

/-- `deepEqual` where either side may be absent (`undefined`):
`stableStringify undefined = ""`, which never collides with the stringify
of a present JSON value. -/
def deepEqualOpt : Option Val → Option Val → Bool
  | none, none => true
  | some a, some b => deepEqual a b
  | _, _ => false

/-- `mapMergePatch` from `db-util.ts`: the shallow merge-patch from `obj1`
to `obj2` — keys whose value changed carry the new value, keys that
disappeared (or became null) carry `null`, new keys carry their value. -/
def mapMergePatch (obj1 obj2 : ObjList) : ObjList :=
  let afterFirst := obj1.keys.foldl (fun change key =>
    let val1 := obj1.get key
    let val2 := obj2.get key
    if deepEqualOpt val1 val2 then change
    else change.set key (match val2 with
      | none => .vnull
      | some .vnull => .vnull
      | some v => v)) ObjList.nil
  obj2.keys.foldl (fun change key =>
    match obj1.get key with
    | some v => if v = .vnull then change.set key ((obj2.get key).getD .vnull) else change
    | none => change.set key ((obj2.get key).getD .vnull)) afterFirst

/-- The entry-by-entry walk of `mergeSet` (the `change.forEach` loop). -/
def mergeSetGo : ObjList → ObjList → ObjList
  | o, .nil => o
  | o, .cons k v tl =>
    if v = .vnull then mergeSetGo (o.del k) tl else mergeSetGo (o.set k v) tl

/-- `mergeSet` from `db-util.ts`: apply a shallow merge-patch — `null`
deletes the key, any other value overwrites it. -/
def mergeSet (obj change : ObjList) : ObjList :=
  mergeSetGo obj change

/-- A top-level record (`ImMap<string, unknown>`), canonically sorted. -/
abbrev DbRecord := List (String × Val)

/-- `record.get(field)`. -/
def rget (r : DbRecord) (k : String) : Option Val := alGet r k

/-- `record.set(field, v)` keeping the canonical key order. -/
def rset : DbRecord → String → Val → DbRecord
  | [], k, v => [(k, v)]
  | (k', v') :: tl, k, v =>
    if ltStr k k' then (k, v) :: (k', v') :: tl
    else if k' = k then (k', v) :: tl
    else (k', v') :: rset tl k v

/-- `record.delete(field)`. -/
def rdel : DbRecord → String → DbRecord
  | [], _ => []
  | (k', v') :: tl, k => if k' = k then tl else (k', v') :: rdel tl k

/-- `nonnullCols` from `db-util.ts`: drop fields whose value is `null`. -/
def nonnullCols (r : DbRecord) : DbRecord :=
  r.filter fun kv => kv.2 ≠ .vnull

/-- `toKey` from `db-util.ts`: the stable JSON encoding of a value.  On
canonical values the encoding is injective, so buckets are keyed by the
value itself. -/
def toKey (v : Val) : Val := v

/-- `len` from `db-util.ts`. -/
def jsLen (r : DbRecord) : Nat := r.length

/-- `copyWithout` from `db-util.ts`. -/
def copyWithout (r : DbRecord) (field : String) : DbRecord := rdel r field

/-! ## DbDocument (`db-document-immutable.ts`)

State: the record slot vector (tombstones are `none`), the set `everything`
of defined slot indices (sorted), and the per-primary-key secondary indexes
mapping a key value to the set of slots carrying it.  The change tracker
(`changes`/`fromDb`) influences only the `changes()` reporting API, none of
the claimed operations, and is not modelled; neither is the `toString`
cache.  `none` results model thrown errors. -/

/-- Lookup in a `Val`-keyed index bucket map. -/
def vlGet (l : List (Val × List Nat)) (k : Val) : Option (List Nat) :=
  match l with
  | [] => none
  | (k', v) :: rest => if k' = k then some v else vlGet rest k

/-- Update in a `Val`-keyed index bucket map. -/
def vlSet (l : List (Val × List Nat)) (k : Val) (v : List Nat) :
    List (Val × List Nat) :=
  match l with
  | [] => [(k, v)]
  | (k', v') :: rest =>
    if k' = k then (k', v) :: rest else (k', v') :: vlSet rest k v

/-- Delete from a `Val`-keyed index bucket map. -/
def vlDel (l : List (Val × List Nat)) (k : Val) : List (Val × List Nat) :=
  match l with
  | [] => []
  | (k', v') :: rest => if k' = k then rest else (k', v') :: vlDel rest k

/-- `ImSet.min()` on a set of slot indices. -/
def natSetMin (l : List Nat) : Option Nat :=
  match l with
  | [] => none
  | x :: xs => some (xs.foldl Nat.min x)

/-- `set.delete(n)` on a sorted slot set. -/
def removeNat (n : Nat) (l : List Nat) : List Nat :=
  l.filter (fun m => m ≠ n)

/-- The secondary indexes: primary-key column → key value → slot set. -/
abbrev DbIndexes := List (String × List (Val × List Nat))

/-- The immutable indexed table document. -/
structure DbDocument where
  primaryKeys : List String
  stringCols : List String
  records : List (Option DbRecord)
  everything : List Nat
  indexes : DbIndexes
deriving DecidableEq

/-- `size` (set in the constructor): the number of defined slots. -/
def DbDocument.size (d : DbDocument) : Nat := d.everything.length

/-- `initEverything`: the defined slot indices, ascending. -/
def initEverything (records : List (Option DbRecord)) : List Nat :=
  (List.range records.length).filter fun n => ((records.get? n).getD none).isSome

/-- `initIndexes`: seed an empty bucket map per primary key, then walk the
records adding each defined slot to the bucket of its value in every
primary-key column it populates. -/
def initIndexes (primaryKeys : List String)
    (records : List (Option DbRecord)) : DbIndexes :=
  let base : DbIndexes := primaryKeys.map fun f => (f, [])
  (List.range records.length).foldl (fun idxs n =>
    match (records.get? n).getD none with
    | none => idxs
    | some record =>
      primaryKeys.foldl (fun idxs2 field =>
        match rget record field with
        | none => idxs2
        | some v =>
          if v = .vnull then idxs2
          else
            let index := (alGet idxs2 field).getD []
            let bucket := (vlGet index (toKey v)).getD []
            alSet idxs2 field (vlSet index (toKey v) (insertSortedNat n bucket)))
        idxs) base

/-- The `new DbDocument(pk, sc, records)` constructor path with the derived
state computed by `initEverything`/`initIndexes` (the "at least one primary
key" config check is outside the claims and not modelled). -/
def mkDbDocument (primaryKeys stringCols : List String)
    (records : List (Option DbRecord)) : DbDocument :=
  { primaryKeys := primaryKeys
    stringCols := stringCols
    records := records
    everything := initEverything records
    indexes := initIndexes primaryKeys records }

/-- Set intersection on slot sets (`ImSet.intersect`), canonical order. -/
def interNat (a b : List Nat) : List Nat := a.filter (fun n => b.contains n)

/-- The field loop of `select`: early return of the empty set when a bucket
is missing, of the single bucket when the `where` has exactly one field,
else the running intersection.  `none` models the
"field must be a primary key" throw. -/
def selectLoop (d : DbDocument) (n : Nat) :
    List (String × Val) → Option (List Nat) → Option (List Nat)
  | [], result => some (result.getD d.everything)
  | (field, value) :: rest, result =>
    match alGet d.indexes field with
    | none => none
    | some index =>
      match vlGet index (toKey value) with
      | none => some []
      | some v =>
        if n = 1 then some v
        else
          selectLoop d n rest (some (match result with
            | some r => interNat r v
            | none => v))

/-- `DbDocument.select`: resolve a `where` object to the set of matching
slots via index intersection; the empty `where` selects everything. -/
def DbDocument.select (d : DbDocument) (w : DbRecord) : Option (List Nat) :=
  selectLoop d (jsLen w) w none

/-- `DbDocument.parse`: split an object into the primary-key fields with
non-null values (`where`) and everything else (`set`).  A primary-key field
with a null value lands in neither. -/
def DbDocument.parse (d : DbDocument) (obj : DbRecord) :
    DbRecord × DbRecord :=
  (obj.filter fun kv => d.primaryKeys.contains kv.1 ∧ kv.2 ≠ .vnull,
   obj.filter fun kv => ¬ d.primaryKeys.contains kv.1)

/-- `primaryKeyCols`: restrict a record to its primary-key columns. -/
def primaryKeyCols (primaryKeys : List String) (r : DbRecord) : DbRecord :=
  r.filter fun kv => primaryKeys.contains kv.1

/-- `primaryKeyPart`: the object holding only the primary-key fields. -/
def primaryKeyPart (primaryKeys : List String) (r : DbRecord) : DbRecord :=
  r.filter fun kv => primaryKeys.contains kv.1

/-- `DbDocument.getOne`: the record at the smallest matching slot.  The
outer `Option` models the possible `select` throw, the inner one "no
match" (and a tombstone slot). -/
def DbDocument.getOne (d : DbDocument) (w : DbRecord) :
    Option (Option DbRecord) :=
  match d.select w with
  | none => none
  | some ms =>
    match natSetMin ms with
    | none => some none
    | some n => some ((d.records.get? n).getD none)

/-- The string-diff service the table codec delegates to for `stringCols`
(the external `diff-match-patch`-backed `makePatch`/`applyPatch` from
`dmp.ts`; out of scope per the design document, taken as a parameter).
`makePatch` produces the compressed patch as a JSON array value;
`applyPatch` returns the patched string and the cleanliness flag and never
throws. -/
structure StrDiff where
  makePatch : String → String → Val
  applyPatch : Val → String → String × Bool

/-- The field loop of `set`'s update branch, walking the `set`-fields:
`null` deletes the field; on a string column an array value is applied as a
string patch against the ORIGINAL record's value (`before.get(field, "")`,
where both a missing field and a null one read as `""`) and a non-string
non-array value throws; otherwise map-valued current and new values merge
shallowly and anything else overwrites.  A non-string value already stored
in a string column feeds the external patcher garbage in JS; that
unspecified corner is modelled as a throw. -/
def applySetFields (sdiff : StrDiff) (stringCols : List String)
    (before : DbRecord) : DbRecord → List (String × Val) → Option DbRecord
  | record, [] => some record
  | record, (field, value) :: rest =>
    if value = .vnull then
      applySetFields sdiff stringCols before (rdel record field) rest
    else if stringCols.contains field then
      if isArrVal value then
        match (match rget before field with
          | some (.vstr s) => some s
          | some .vnull => some ""
          | none => some ""
          | some _ => none) with
        | none => none
        | some baseStr =>
          let next := (sdiff.applyPatch value baseStr).1
          applySetFields sdiff stringCols before
            (rset record field (.vstr next)) rest
      else
        match value with
        | .vstr _ =>
          -- falls through to the generic update (a string is not a map)
          applySetFields sdiff stringCols before (rset record field value) rest
        | _ => none
    else
      match rget record field, value with
      | some (.vobj curM), .vobj chM =>
        applySetFields sdiff stringCols before
          (rset record field (.vobj (mergeSet curM chM))) rest
      | _, _ =>
        applySetFields sdiff stringCols before (rset record field value) rest

/-- `DbDocument.set` on a single object payload: parse into
`where`/`set`-fields, select; with a match, update ONLY the slot at
`matches.min()` (returning `this` unchanged when no field changed);
with no match, insert — string-column patch-arrays are dropped, null
fields stripped, and the new slot is indexed under every populated
primary-key column. -/
def dbSetObj (sdiff : StrDiff) (d : DbDocument) (obj : DbRecord) :
    Option DbDocument :=
  let ws := d.parse obj
  match d.select ws.1 with
  | none => none
  | some ms =>
    match natSetMin ms with
    | some firstMatch =>
      match (d.records.get? firstMatch).getD none with
      | none => none
      | some record0 =>
        match applySetFields sdiff d.stringCols record0 record0 ws.2 with
        | none => none
        | some record =>
          if record0 = record then some d
          else some { d with records := d.records.set firstMatch (some record) }
    | none =>
      let insertObj := d.stringCols.foldl (fun o field =>
        match rget o field with
        | some v => if isArrVal v then copyWithout o field else o
        | none => o) obj
      let record := nonnullCols insertObj
      let records := d.records ++ [some record]
      let n := records.length - 1
      let everything := insertSortedNat n d.everything
      let indexes := d.primaryKeys.foldl (fun idxs field =>
        match rget insertObj field with
        | none => idxs
        | some v =>
          if v = .vnull then idxs
          else
            let index := (alGet idxs field).getD []
            let bucket := (vlGet index (toKey v)).getD []
            alSet idxs field (vlSet index (toKey v) (insertSortedNat n bucket)))
        d.indexes
      some ⟨d.primaryKeys, d.stringCols, records, everything, indexes⟩

/-- `DbDocument.set` on an array payload: reduce `set` over the elements. -/
def dbSetList (sdiff : StrDiff) (d : DbDocument) :
    List DbRecord → Option DbDocument
  | [] => some d
  | o :: rest =>
    match dbSetObj sdiff d o with
    | none => none
    | some d' => dbSetList sdiff d' rest

/-- `DbDocument.delete` on a single (possibly missing) `where` object: an
empty document returns unchanged; selecting every defined slot resets to a
fresh empty document; otherwise each selected slot is removed from the
indexes (skipping missing buckets, deleting emptied ones), tombstoned, and
dropped from `everything`. -/
def dbDeleteWhere (d : DbDocument) (wOpt : Option DbRecord) :
    Option DbDocument :=
  if d.everything = [] then some d
  else
    let w := wOpt.getD []
    match d.select w with
    | none => none
    | some remove =>
      if remove.length = d.everything.length then
        some (mkDbDocument d.primaryKeys d.stringCols [])
      else
        let indexes := d.primaryKeys.foldl (fun idxs field =>
          match alGet idxs field with
          | none => idxs
          | some index =>
            let indexNew := remove.foldl (fun ix n =>
              match (d.records.get? n).getD none with
              | none => ix
              | some record =>
                match rget record field with
                | none => ix
                | some v =>
                  if v = .vnull then ix
                  else
                    match vlGet ix (toKey v) with
                    | none => ix
                    | some bucket =>
                      let bucketNew := removeNat n bucket
                      if bucketNew = [] then vlDel ix (toKey v)
                      else vlSet ix (toKey v) bucketNew) index
            alSet idxs field indexNew) d.indexes
        let records := remove.foldl (fun rs n =>
          match (rs.get? n).getD none with
          | none => rs
          | some _ => rs.set n none) d.records
        let everything := d.everything.filter fun n => ¬ remove.contains n
        some ⟨d.primaryKeys, d.stringCols, records, everything, indexes⟩

/-- `DbDocument.delete` on an array payload. -/
def dbDeleteList (d : DbDocument) : List DbRecord → Option DbDocument
  | [] => some d
  | w :: rest =>
    match dbDeleteWhere d (some w) with
    | none => none
    | some d' => dbDeleteList d' rest

/-- One element of the compact table patch: an op marker (`-1`/`1`) or a
payload array of objects. -/
inductive DbElem where
  | op (n : Int)
  | objs (l : List DbRecord)
deriving DecidableEq

/-- The alternating `(op, payload)` table patch (`DbPatch`). -/
abbrev DbPatch := List DbElem

/-- The even-index scan of `DbDocument.applyPatch`'s `reduce`: element `2i`
is read as the op and `2i+1` as its payload; ops other than `-1`/`1` (and
anything at an odd index) are skipped.  A trailing `-1` with no payload is
`delete(undefined)` — delete-all; a trailing `1` with no payload throws; a
numeric payload where an array is expected throws inside
`delete`/`set`. -/
def applyElems (sdiff : StrDiff) (d : DbDocument) :
    List DbElem → Option DbDocument
  | [] => some d
  | [e] =>
    match e with
    | .op n =>
      if n = -1 then dbDeleteWhere d none
      else if n = 1 then none
      else some d
    | .objs _ => some d
  | e :: pl :: rest =>
    match e with
    | .op n =>
      if n = -1 then
        match pl with
        | .objs ws =>
          match dbDeleteList d ws with
          | none => none
          | some d' => applyElems sdiff d' rest
        | .op _ => none
      else if n = 1 then
        match pl with
        | .objs os =>
          match dbSetList sdiff d os with
          | none => none
          | some d' => applyElems sdiff d' rest
        | .op _ => none
      else applyElems sdiff d rest
    | .objs _ => applyElems sdiff d rest

/-- `DbDocument.applyPatch` (a non-array patch throws; the type already
restricts to arrays). -/
def DbDocument.applyPatch (sdiff : StrDiff) (d : DbDocument)
    (patch : DbPatch) : Option DbDocument :=
  applyElems sdiff d patch

/-- `DbDocument.applyPatchBatch` (also the codec's batch path): iterated
`applyPatch`. -/
def DbDocument.applyPatchBatch (sdiff : StrDiff) (d : DbDocument) :
    List DbPatch → Option DbDocument
  | [] => some d
  | p :: rest =>
    match DbDocument.applyPatch sdiff d p with
    | none => none
    | some d' => DbDocument.applyPatchBatch sdiff d' rest

/-- Set equality of two lists viewed as sets. -/
def listSetEq {α : Type _} [DecidableEq α] (l1 l2 : List α) : Bool :=
  l1.all (fun x => l2.contains x) && l2.all (fun x => l1.contains x)

/-- `DbDocument.isEqual`: reference-equal record vectors short-circuit to
`true` (structural equality soundly models this — unequal references fall
through to the same set comparison); differing sizes are unequal; else the
record multisets are compared as sets with a tombstone adjoined to both. -/
def DbDocument.isEqual (a b : DbDocument) : Bool :=
  if a.records = b.records then true
  else if a.size ≠ b.size then false
  else listSetEq (none :: a.records) (none :: b.records)

/-- Duplicate-free view of a list keeping first occurrences (`ImSet`
iteration order follows insertion). -/
def dedupKeepFirstGo {α : Type _} [DecidableEq α] (seen : List α) :
    List α → List α
  | [] => []
  | x :: xs =>
    if seen.contains x then dedupKeepFirstGo seen xs
    else x :: dedupKeepFirstGo (seen ++ [x]) xs

/-- `ImSet(l)` as a duplicate-free list. -/
def dedupKeepFirst {α : Type _} [DecidableEq α] (l : List α) : List α :=
  dedupKeepFirstGo [] l

/-- The `inserts.forEach` loop of `makePatch`: look each inserted key up in
`other` and push the full record (skipping null lookups). -/
def pushInsertRecords (b : DbDocument) :
    List DbRecord → List DbRecord → Option (List DbRecord)
  | [], acc => some acc
  | k :: rest, acc =>
    match b.getOne k with
    | none => none
    | some none => pushInsertRecords b rest acc
    | some (some x) => pushInsertRecords b rest (acc ++ [x])

/-- The body of `makePatch`'s `changed.forEach` loop for one common key
`k`: start from `k`, null out fields that disappeared, then per changed
field emit a string patch (string column, both values strings — other
string-column shapes emit nothing), a shallow merge-patch (both maps), or
the new value.  Returns `some none` when either record lookup comes back
null (the loop's early `return`). -/
def changedPatchObj (sdiff : StrDiff) (a b : DbDocument) (k : DbRecord) :
    Option (Option DbRecord) :=
  let pk := primaryKeyPart a.primaryKeys k
  match a.getOne pk, b.getOne pk with
  | none, _ => none
  | _, none => none
  | some none, _ => some none
  | _, some none => some none
  | some (some fromR), some (some toR) =>
    let obj1 := fromR.foldl (fun obj kv =>
      match rget toR kv.1 with
      | none => rset obj kv.1 .vnull
      | some .vnull => rset obj kv.1 .vnull
      | some _ => obj) k
    let obj2 := toR.foldl (fun obj kv =>
      let key := kv.1
      let v := kv.2
      if deepEqualOpt (rget fromR key) (some v) then obj
      else
        let fromV := rget fromR key
        if a.stringCols.contains key &&
            (match fromV with
             | some fv => decide (fv ≠ .vnull)
             | none => false) &&
            decide (v ≠ .vnull) then
          match fromV, v with
          | some (.vstr s0), .vstr s1 => rset obj key (sdiff.makePatch s0 s1)
          | _, _ => obj
        else
          match fromV, v with
          | some (.vobj m0), .vobj m1 =>
            rset obj key (.vobj (mapMergePatch m0 m1))
          | _, _ => rset obj key v) obj1
    some (some obj2)

/-- The `changed.forEach` loop over all common keys, appending each emitted
update object. -/
def changedLoop (sdiff : StrDiff) (a b : DbDocument) :
    List DbRecord → List DbRecord → Option (List DbRecord)
  | [], acc => some acc
  | k :: rest, acc =>
    match changedPatchObj sdiff a b k with
    | none => none
    | some none => changedLoop sdiff a b rest acc
    | some (some obj) => changedLoop sdiff a b rest (acc ++ [obj])

/-- `DbDocument.makePatch` from `this` (= `a`) to `other`: an empty target
is the delete-everything patch `[-1, [{}]]`; otherwise the distinct records
of each side minus the shared ones drive pure-insert and pure-delete fast
paths, and in general deletions (keys only in `a`), insertions (full
records only in `other`) and per-field diffs for common keys are assembled
as a delete payload followed by an add payload. -/
def DbDocument.makePatch (sdiff : StrDiff) (a other : DbDocument) :
    Option DbPatch :=
  if other.size = 0 then some [.op (-1), .objs [[]]]
  else
    let s0 := dedupKeepFirst a.records
    let s1 := dedupKeepFirst other.records
    let t0 := (s0.filter fun r => ¬ (s1.contains r ∨ r = none)).filterMap id
    let t1 := (s1.filter fun r => ¬ (s0.contains r ∨ r = none)).filterMap id
    if t0 = [] then some [.op 1, .objs t1]
    else if t1 = [] then
      some [.op (-1), .objs (t0.map (primaryKeyPart a.primaryKeys))]
    else
      let k0 := dedupKeepFirst (t0.map (primaryKeyCols a.primaryKeys))
      let k1 := dedupKeepFirst (t1.map (primaryKeyCols other.primaryKeys))
      let deletes := k0.filter fun k => ¬ k1.contains k
      let inserts := k1.filter fun k => ¬ k0.contains k
      let changed := k1.filter fun k => k0.contains k
      match pushInsertRecords other inserts [] with
      | none => none
      | some addIns =>
        match changedLoop sdiff a other changed addIns with
        | none => none
        | some add =>
          let delPart : DbPatch :=
            if deletes ≠ [] then [.op (-1), .objs deletes] else []
          let addPart : DbPatch :=
            if add ≠ [] then [.op 1, .objs add] else []
          some (delPart ++ addPart)

/-! ### Concrete table scenarios

`trivDiff` is a trivial but round-tripping string-diff service: the patch
from `s0` to `s1` is the one-element array `[s1]`, applied by replacement.
The update-only-first and round-trip counterexamples do not touch string
columns at all. -/

/-- A replacement-based string-diff service (satisfies the round-trip
contract of the external engine). -/
def trivDiff : StrDiff where
  makePatch := fun _ s1 => .varr (.cons (.vstr s1) .nil)
  applyPatch := fun p _ =>
    match p with
    | .varr (.cons (.vstr s1) .nil) => (s1, true)
    | _ => ("", false)

/-- The empty table document with primary key `id`. -/
def emptyDbDoc : DbDocument := mkDbDocument ["id"] [] []

/-- A document whose two slots share the primary key `id = 1` (as
`fromString` produces for duplicated lines). -/
def dupPkDoc : DbDocument :=
  mkDbDocument ["id"] []
    [some [("id", .vnum 1), ("x", .vnum 1)],
     some [("id", .vnum 1), ("x", .vnum 2)]]

/-- A document holding the single record `{id: 1, x: null}` (a null-valued
field, as `fromString '{"id":1,"x":null}'` produces). -/
def nullFieldDoc : DbDocument :=
  mkDbDocument ["id"] [] [some [("id", .vnum 1), ("x", .vnull)]]

/-- A clean one-record document `{id: 1, x: 2}`. -/
def xDoc2 : DbDocument :=
  mkDbDocument ["id"] [] [some [("id", .vnum 1), ("x", .vnum 2)]]

/-- A clean one-record document `{id: 1, x: 3}`: same key as `xDoc2`, a
different non-key value. -/
def xDoc3 : DbDocument :=
  mkDbDocument ["id"] [] [some [("id", .vnum 1), ("x", .vnum 3)]]

/-! ### Canonical-map lemmas

Records and nested object bodies are kept in canonical form: keys strictly
ascending in `ltStr`, hence duplicate-free.  The lemmas below characterize
`rget`/`rset`/`rdel` (and their `ObjList` counterparts) on canonical maps
and give extensionality. -/

/-- Strictly ascending key list. -/
def StrSorted (l : List String) : Prop :=
  List.Pairwise (fun a b => ltStr a b = true) l

/-- Canonical record: strictly ascending keys. -/
def RecCanon (r : DbRecord) : Prop := StrSorted (r.map Prod.fst)

/-! ### Object bodies as canonical association lists

`ObjList` is structurally the association list `List (String × Val)`;
`ObjList.toList` realizes the correspondence, letting every record-level
lemma transfer to object bodies. -/

/-- The underlying association list of an object body. -/
def ObjList.toList : ObjList → List (String × Val)
  | .nil => []
  | .cons k v tl => (k, v) :: tl.toList

/-- Canonical object body: strictly ascending keys. -/
def ObjCanon (o : ObjList) : Prop := RecCanon o.toList

/-- No top-level null field values. -/
def ObjNullFree (o : ObjList) : Prop :=
  ∀ k v, o.get k = some v → v ≠ .vnull

/-! ### `mapMergePatch` / `mergeSet` on canonical null-free maps -/

/-- The value recorded by `mapMergePatch`'s first loop for a changed key
(the inner `match` of the loop body). -/
def mmpVal2 (obj2 : ObjList) (key : String) : Val :=
  match obj2.get key with
  | none => .vnull
  | some .vnull => .vnull
  | some v => v

/-- The first loop body of `mapMergePatch` (over `obj1`'s keys). -/
def mmpStep1 (obj1 obj2 : ObjList) (change : ObjList) (key : String) :
    ObjList :=
  if deepEqualOpt (obj1.get key) (obj2.get key) then change
  else change.set key (mmpVal2 obj2 key)

/-- The second loop body of `mapMergePatch` (over `obj2`'s keys). -/
def mmpStep2 (obj1 obj2 : ObjList) (change : ObjList) (key : String) :
    ObjList :=
  match obj1.get key with
  | some v =>
    if v = .vnull then change.set key ((obj2.get key).getD .vnull)
    else change
  | none => change.set key ((obj2.get key).getD .vnull)

/-- Duplicate-free bucket-map keys. -/
def VlKeysNodup (l : List (Val × List Nat)) : Prop := (l.map Prod.fst).Nodup

/-- The defined records of a table document, in slot order. -/
def recsOf (d : DbDocument) : List DbRecord := d.records.filterMap id

/-! ### Clean table states

The round-trip theorem holds on *clean* documents: canonical records with
no null field values (at the record level and at the top level of
map-valued fields), every primary-key column present and non-null, string
columns holding strings, pairwise distinct primary-key projections, and
index/everything state consistent with the records. -/

/-- An admissible stored field value. -/
def CleanVal (stringCols : List String) (f : String) (v : Val) : Prop :=
  v ≠ .vnull ∧
  (stringCols.contains f = true → ∃ s, v = .vstr s) ∧
  ∀ m, v = .vobj m → ObjCanon m ∧ ObjNullFree m

/-- A clean stored record. -/
structure CleanRec (primaryKeys stringCols : List String) (r : DbRecord) :
    Prop where
  canon : RecCanon r
  vals : ∀ f v, rget r f = some v → CleanVal stringCols f v
  pks : ∀ f ∈ primaryKeys, ∃ v, rget r f = some v

/-- A clean table document. -/
structure Clean (d : DbDocument) : Prop where
  pk_ne : d.primaryKeys ≠ []
  pk_nodup : d.primaryKeys.Nodup
  recs_clean : ∀ r, some r ∈ d.records →
    CleanRec d.primaryKeys d.stringCols r
  pk_distinct : ∀ m n rm rn, d.records.get? m = some (some rm) →
    d.records.get? n = some (some rn) →
    primaryKeyCols d.primaryKeys rm = primaryKeyCols d.primaryKeys rn →
    m = n
  ev : d.everything = initEverything d.records
  idx : ∀ f ∈ d.primaryKeys, ∃ index, alGet d.indexes f = some index ∧
    VlKeysNodup index ∧
    ∀ v : Val, v ≠ .vnull →
      List.Pairwise (· < ·) ((vlGet index (toKey v)).getD []) ∧
      ∀ n : Nat, n ∈ (vlGet index (toKey v)).getD [] ↔
        ∃ r, d.records.get? n = some (some r) ∧ rget r f = some v

/-- Slot `m` carries a defined record matching every `where` field. -/
def rowMatches (d : DbDocument) (w : List (String × Val)) (m : Nat) : Prop :=
  ∀ kv ∈ w, ∃ r, d.records.get? m = some (some r) ∧ rget r kv.1 = some kv.2

/-! ### `applySetFields` acts field-wise -/

/-- The outcome of one `set`-field walk step as a function of the assigned
value and the original record's value at that field: `none` models the
throw, `some none` a deleted field, `some (some v)` the new value. -/
def setFieldOutcome (sdiff : StrDiff) (stringCols : List String)
    (r₀ : DbRecord) (f : String) (value : Val) : Option (Option Val) :=
  if value = .vnull then some none
  else if stringCols.contains f then
    if isArrVal value then
      match rget r₀ f with
      | some (.vstr s) => some (some (.vstr (sdiff.applyPatch value s).1))
      | some .vnull => some (some (.vstr (sdiff.applyPatch value "").1))
      | none => some (some (.vstr (sdiff.applyPatch value "").1))
      | some _ => none
    else
      match value with
      | .vstr _ => some (some value)
      | _ => none
  else
    match rget r₀ f, value with
    | some (.vobj curM), .vobj chM => some (some (.vobj (mergeSet curM chM)))
    | _, _ => some (some value)

/-! ### The update object emitted by `makePatch` for a changed key -/

/-- The first fold body of `changedPatchObj` (over `fromR`'s fields):
null out fields that disappeared or became null. -/
def cpoStep1 (toR : DbRecord) (obj : DbRecord) (kv : String × Val) :
    DbRecord :=
  match rget toR kv.1 with
  | none => rset obj kv.1 .vnull
  | some .vnull => rset obj kv.1 .vnull
  | some _ => obj

/-- The second fold body of `changedPatchObj` (over `toR`'s fields). -/
def cpoStep2 (sdiff : StrDiff) (stringCols : List String)
    (fromR : DbRecord) (obj : DbRecord) (kv : String × Val) : DbRecord :=
  let key := kv.1
  let v := kv.2
  if deepEqualOpt (rget fromR key) (some v) then obj
  else
    let fromV := rget fromR key
    if stringCols.contains key &&
        (match fromV with
         | some fv => decide (fv ≠ .vnull)
         | none => false) &&
        decide (v ≠ .vnull) then
      match fromV, v with
      | some (.vstr s0), .vstr s1 => rset obj key (sdiff.makePatch s0 s1)
      | _, _ => obj
    else
      match fromV, v with
      | some (.vobj m0), .vobj m1 =>
        rset obj key (.vobj (mapMergePatch m0 m1))
      | _, _ => rset obj key v

/-- What the second fold writes for one `toR` field, as a function of the
field, its new value and the old record. -/
def cpoOutcome (sdiff : StrDiff) (stringCols : List String)
    (fromR : DbRecord) (key : String) (v : Val) : Option Val :=
  if deepEqualOpt (rget fromR key) (some v) then none
  else if stringCols.contains key &&
      (match rget fromR key with
       | some fv => decide (fv ≠ .vnull)
       | none => false) &&
      decide (v ≠ .vnull) then
    match rget fromR key, v with
    | some (.vstr s0), .vstr s1 => some (sdiff.makePatch s0 s1)
    | _, _ => none
  else
    match rget fromR key, v with
    | some (.vobj m0), .vobj m1 => some (.vobj (mapMergePatch m0 m1))
    | _, _ => some v

/-- The per-field index update for one record at slot `n` (the shared loop
body of `initIndexes` and the insert branch of `set`). -/
def idxAddStep (r : DbRecord) (n : Nat) (idxs2 : DbIndexes)
    (field : String) : DbIndexes :=
  match rget r field with
  | none => idxs2
  | some v =>
    if v = .vnull then idxs2
    else
      let index := (alGet idxs2 field).getD []
      let bucket := (vlGet index (toKey v)).getD []
      alSet idxs2 field (vlSet index (toKey v) (insertSortedNat n bucket))

/-- Index consistency of a bucket map with a record-slot vector. -/
def IdxOK (pks : List String) (rs : List (Option DbRecord))
    (idxs : DbIndexes) : Prop :=
  ∀ f ∈ pks, ∃ index, alGet idxs f = some index ∧
    VlKeysNodup index ∧
    ∀ v : Val, v ≠ .vnull →
      List.Pairwise (· < ·) ((vlGet index (toKey v)).getD []) ∧
      ∀ n : Nat, n ∈ (vlGet index (toKey v)).getD [] ↔
        ∃ r, rs.get? n = some (some r) ∧ rget r f = some v

/-! ### The update object round-trips each changed field -/

/-- `RoundTrips sdiff`: the external string-diff engine patches cleanly
and produces array-shaped patches (the contract of `dmp.ts`). -/
def RoundTrips (sdiff : StrDiff) : Prop :=
  ∀ s0 s1, sdiff.applyPatch (sdiff.makePatch s0 s1) s0 = (s1, true) ∧
    isArrVal (sdiff.makePatch s0 s1) = true

/-! ### Index maintenance under deletion -/

/-- The per-field index update of `delete`'s slot-removal loop. -/
def idxDelStep (rs : List (Option DbRecord)) (remove : List Nat)
    (idxs : DbIndexes) (field : String) : DbIndexes :=
  match alGet idxs field with
  | none => idxs
  | some index =>
    let indexNew := remove.foldl (fun ix n =>
      match (rs.get? n).getD none with
      | none => ix
      | some record =>
        match rget record field with
        | none => ix
        | some v =>
          if v = .vnull then ix
          else
            match vlGet ix (toKey v) with
            | none => ix
            | some bucket =>
              let bucketNew := removeNat n bucket
              if bucketNew = [] then vlDel ix (toKey v)
              else vlSet ix (toKey v) bucketNew) index
    alSet idxs field indexNew

/-! ### The record-set algebra of `makePatch` -/

/-- The `t0` set of `makePatch`: distinct records of `a` absent from
`other`, with the tombstone dropped. -/
def mpT0 (a b : DbDocument) : List DbRecord :=
  ((dedupKeepFirst a.records).filter fun r =>
    ¬ ((dedupKeepFirst b.records).contains r ∨ r = none)).filterMap id

/-- The `t1` set of `makePatch`: distinct records of `other` absent from
`a`. -/
def mpT1 (a b : DbDocument) : List DbRecord :=
  ((dedupKeepFirst b.records).filter fun r =>
    ¬ ((dedupKeepFirst a.records).contains r ∨ r = none)).filterMap id

/-- The distinct primary-key projections of `t0` (`k0`). -/
def mpK0 (a b : DbDocument) : List DbRecord :=
  dedupKeepFirst ((mpT0 a b).map (primaryKeyCols a.primaryKeys))

/-- The distinct primary-key projections of `t1` (`k1`). -/
def mpK1 (a b : DbDocument) : List DbRecord :=
  dedupKeepFirst ((mpT1 a b).map (primaryKeyCols b.primaryKeys))

/-- Keys to delete: in `k0` but not `k1`. -/
def mpDeletes (a b : DbDocument) : List DbRecord :=
  (mpK0 a b).filter fun k => ¬ (mpK1 a b).contains k

/-- Keys to insert: in `k1` but not `k0`. -/
def mpInserts (a b : DbDocument) : List DbRecord :=
  (mpK1 a b).filter fun k => ¬ (mpK0 a b).contains k

/-- Common keys with differing records: in both `k1` and `k0`. -/
def mpChanged (a b : DbDocument) : List DbRecord :=
  (mpK1 a b).filter fun k => (mpK0 a b).contains k

theorem ltCharList_irrefl (l : List Char) : ltCharList l l = false := by
  induction l with
  | nil => rfl
  | cons a as ih => simp [ltCharList, ih]

theorem ltCharList_trans {a b c : List Char}
    (hab : ltCharList a b = true) (hbc : ltCharList b c = true) :
    ltCharList a c = true := by
  induction a generalizing b c with
  | nil =>
    cases b with
    | nil => simp [ltCharList] at hab
    | cons y ys =>
      cases c with
      | nil => simp [ltCharList] at hbc
      | cons z zs => simp [ltCharList]
  | cons x xs ih =>
    cases b with
    | nil => simp [ltCharList] at hab
    | cons y ys =>
      cases c with
      | nil => simp [ltCharList] at hbc
      | cons z zs =>
        simp only [ltCharList] at hab hbc ⊢
        rcases lt_trichotomy x y with hxy | hxy | hxy
        · rcases lt_trichotomy y z with hyz | hyz | hyz
          · simp [lt_trans hxy hyz]
          · subst hyz; simp [hxy]
          · simp [hyz, lt_asymm hyz] at hbc
        · subst hxy
          rcases lt_trichotomy x z with hyz | hyz | hyz
          · simp [hyz]
          · subst hyz
            simp [lt_irrefl] at hab hbc ⊢
            exact ih hab hbc
          · simp [hyz, lt_asymm hyz] at hbc
        · simp [hxy, lt_asymm hxy] at hab

theorem ltCharList_total {a b : List Char} (hne : a ≠ b) :
    ltCharList a b = true ∨ ltCharList b a = true := by
  induction a generalizing b with
  | nil =>
    cases b with
    | nil => exact absurd rfl hne
    | cons y ys => left; rfl
  | cons x xs ih =>
    cases b with
    | nil => right; rfl
    | cons y ys =>
      simp only [ltCharList]
      rcases lt_trichotomy x y with h | h | h
      · left; simp [h]
      · subst h
        have hne' : xs ≠ ys := fun hh => hne (by rw [hh])
        rcases ih hne' with h' | h'
        · left; simp [lt_irrefl, h']
        · right; simp [lt_irrefl, h']
      · right; simp [h, lt_asymm h]

theorem ltStr_irrefl (s : String) : ltStr s s = false := ltCharList_irrefl s.data

theorem ltStr_trans {a b c : String} (hab : ltStr a b = true)
    (hbc : ltStr b c = true) : ltStr a c = true :=
  ltCharList_trans hab hbc

theorem ltStr_total {a b : String} (hne : a ≠ b) :
    ltStr a b = true ∨ ltStr b a = true := by
  refine ltCharList_total fun hd => hne ?_
  cases a; cases b; exact congrArg String.mk hd

theorem ltStr_asymm {a b : String} (hab : ltStr a b = true) :
    ltStr b a = false := by
  by_contra hc
  have hba : ltStr b a = true := by
    cases hv : ltStr b a with
    | false => exact absurd hv hc
    | true => rfl
  have := ltStr_trans hab hba
  rw [ltStr_irrefl] at this
  exact Bool.false_ne_true this

theorem ltStr_ne {a b : String} (hab : ltStr a b = true) : a ≠ b := by
  intro h; subst h; rw [ltStr_irrefl] at hab; exact Bool.false_ne_true hab

theorem val36_digit36 : ∀ d, d < 36 → val36 (digit36 d) = some d := by decide

theorem digit36_isDigit : ∀ d, d < 36 → (val36 (digit36 d)).isSome = true := by
  intro d hd; rw [val36_digit36 d hd]; rfl

theorem val36_ne_dash {c : Char} (h : (val36 c).isSome = true) :
    c ≠ '-' ∧ c ≠ '+' := by
  constructor <;> rintro rfl <;> simp [val36] at h

theorem toDigitsRev36_val : ∀ fuel n, n ≤ fuel →
    valRev36 (toDigitsRev36 fuel n) = n := by
  intro fuel
  induction fuel with
  | zero =>
    intro n hn
    interval_cases n
    rfl
  | succ fuel ih =>
    intro n hn
    rw [toDigitsRev36]
    by_cases h36 : n < 36
    · simp [h36, valRev36]
    · have hdiv : n / 36 ≤ fuel := by
        have h1 : n / 36 < n := Nat.div_lt_self (by omega) (by omega)
        omega
      simp only [h36, if_false, valRev36, ih _ hdiv]
      omega

theorem toDigitsRev36_lt : ∀ fuel n d, d ∈ toDigitsRev36 fuel n → d < 36 := by
  intro fuel
  induction fuel with
  | zero =>
    intro n d hd
    simp only [toDigitsRev36, List.mem_singleton] at hd
    subst hd
    exact Nat.mod_lt _ (by omega)
  | succ fuel ih =>
    intro n d hd
    rw [toDigitsRev36] at hd
    by_cases h36 : n < 36
    · simp [h36] at hd; omega
    · simp only [h36, if_false, List.mem_cons] at hd
      rcases hd with rfl | hd
      · exact Nat.mod_lt _ (by omega)
      · exact ih _ _ hd

theorem toDigitsRev36_length : ∀ fuel n k, n < 36 ^ k → 1 ≤ k →
    (toDigitsRev36 fuel n).length ≤ k := by
  intro fuel
  induction fuel with
  | zero => intro n k _ hk; simpa [toDigitsRev36] using hk
  | succ fuel ih =>
    intro n k hn hk
    rw [toDigitsRev36]
    by_cases h36 : n < 36
    · simp only [h36, if_true]
      simpa using hk
    · simp only [h36, if_false, List.length_cons]
      have hk2 : 2 ≤ k := by
        by_contra hlt
        have : k = 1 := by omega
        subst this
        simp [pow_one] at hn
        omega
      have hless : n / 36 < 36 ^ (k - 1) := by
        rw [Nat.div_lt_iff_lt_mul (by omega)]
        calc n < 36 ^ k := hn
        _ = 36 ^ (k - 1) * 36 := by
              rw [← pow_succ]
              congr 1
              omega
      have := ih (n / 36) (k - 1) hless (by omega)
      omega

theorem parse36Go_digits : ∀ ds acc, (∀ d ∈ ds, d < 36) →
    parse36Go (ds.map digit36) acc =
      List.foldl (fun a d => a * 36 + d) acc ds := by
  intro ds
  induction ds with
  | nil => intro acc _; rfl
  | cons d ds ih =>
    intro acc hall
    have hd : d < 36 := hall d (List.mem_cons_self d ds)
    simp only [List.map_cons, parse36Go, val36_digit36 d hd, List.foldl_cons]
    exact ih _ fun x hx => hall x (List.mem_cons_of_mem d hx)

theorem foldr_valRev36 : ∀ ds acc,
    List.foldr (fun d a => a * 36 + d) acc ds =
      acc * 36 ^ ds.length + valRev36 ds := by
  intro ds
  induction ds with
  | nil => intro acc; simp [valRev36]
  | cons d ds ih =>
    intro acc
    simp only [List.foldr_cons, ih, valRev36, List.length_cons]
    ring

theorem foldl_zeros : ∀ k, List.foldl (fun a d => a * 36 + d) 0
    (List.replicate k (0 : Nat)) = 0 := by
  intro k
  induction k with
  | zero => rfl
  | succ k ih => simpa [List.replicate_succ, List.foldl_cons] using ih

theorem parse36Go_pad (t : Nat) (k : Nat) (ht : t ≤ t) :
    parse36Head (List.replicate k '0' ++ (toDigitsRev36 t t).reverse.map digit36) =
      some t := by
  have hlt : ∀ d ∈ (toDigitsRev36 t t).reverse, d < 36 := by
    intro d hd
    exact toDigitsRev36_lt _ _ _ (List.mem_reverse.mp hd)
  have hrepl : List.replicate k '0' = (List.replicate k (0 : Nat)).map digit36 := by
    rw [List.map_replicate]; rfl
  have hmain : List.replicate k '0' ++ (toDigitsRev36 t t).reverse.map digit36 =
      ((List.replicate k (0 : Nat)) ++ (toDigitsRev36 t t).reverse).map digit36 := by
    rw [List.map_append, hrepl]
  have hallv : ∀ d ∈ (List.replicate k (0 : Nat)) ++ (toDigitsRev36 t t).reverse, d < 36 := by
    intro d hd
    rcases List.mem_append.mp hd with hz | hr
    · have := List.eq_of_mem_replicate hz; omega
    · exact hlt d hr
  rw [hmain]
  have hfold :
      List.foldl (fun a d => a * 36 + d) 0
        ((List.replicate k (0 : Nat)) ++ (toDigitsRev36 t t).reverse) = t := by
    rw [List.foldl_append, foldl_zeros, List.foldl_reverse]
    have : (fun (x : Nat) (y : Nat) => (fun a d => a * 36 + d) y x) =
        fun d a => a * 36 + d := rfl
    rw [this, foldr_valRev36]
    simp [toDigitsRev36_val t t le_rfl]
  -- the mapped list is nonempty, so `parse36Head` reads its first digit
  cases hcase : (List.replicate k (0 : Nat)) ++ (toDigitsRev36 t t).reverse with
  | nil =>
    exfalso
    have : (toDigitsRev36 t t).reverse = [] := by
      rcases List.append_eq_nil.mp hcase with ⟨_, h2⟩
      exact h2
    have hne : toDigitsRev36 t t ≠ [] := by
      cases t with
      | zero => simp [toDigitsRev36]
      | succ m =>
        rw [toDigitsRev36]
        by_cases h : m + 1 < 36 <;> simp [h]
    exact hne (by simpa using this)
  | cons d rest =>
    have hd36 : d < 36 := hallv d (by rw [hcase]; exact List.mem_cons_self d rest)
    have hrest : ∀ x ∈ rest, x < 36 := by
      intro x hx
      exact hallv x (by rw [hcase]; exact List.mem_cons_of_mem d hx)
    simp only [List.map_cons, parse36Head, val36_digit36 d hd36, Option.map]
    rw [parse36Go_digits rest d hrest]
    rw [hcase] at hfold
    simp only [List.foldl_cons] at hfold
    rw [Nat.zero_mul, Nat.zero_add] at hfold
    rw [hfold]

theorem string_data_ne_nil {c : String} (hc : c ≠ "") : c.data ≠ [] := by
  intro h
  apply hc
  cases c with
  | mk d =>
    have hd : d = [] := h
    rw [hd]

theorem padStart11_spec (t : Nat) (ht : t < 36 ^ 11) :
    (padStart11 (toBase36 t)).length = 11 ∧
      parse36Head (padStart11 (toBase36 t)) = some t ∧
      ∃ c0 rest, padStart11 (toBase36 t) = c0 :: rest ∧ (val36 c0).isSome = true := by
  have hlen : (toBase36 t).length ≤ 11 := by
    have := toDigitsRev36_length t t 11 ht (by norm_num)
    simpa [toBase36] using this
  refine ⟨?_, ?_, ?_⟩
  · simp only [padStart11, List.length_append, List.length_replicate, TIME36_WIDTH]
    omega
  · exact parse36Go_pad t _ le_rfl
  · -- the padded list is nonempty: its head is `'0'` or a produced digit
    cases hk : TIME36_WIDTH - (toBase36 t).length with
    | zero =>
      have hne : toDigitsRev36 t t ≠ [] := by
        cases t with
        | zero => simp [toDigitsRev36]
        | succ m =>
          rw [toDigitsRev36]
          by_cases h : m + 1 < 36 <;> simp [h]
      have : ∃ d ds, (toDigitsRev36 t t).reverse = d :: ds := by
        cases hrev : (toDigitsRev36 t t).reverse with
        | nil => exact absurd (by simpa using hrev) hne
        | cons d ds => exact ⟨d, ds, rfl⟩
      obtain ⟨d, ds, hd⟩ := this
      refine ⟨digit36 d, ds.map digit36, ?_, ?_⟩
      · have hlist : toBase36 t = digit36 d :: ds.map digit36 := by
          rw [toBase36, hd, List.map_cons]
        rw [padStart11, hlist]
        have hzero : TIME36_WIDTH - (digit36 d :: ds.map digit36).length = 0 := by
          rw [← hlist]; exact hk
        rw [hzero]
        rfl
      · have hd36 : d < 36 := toDigitsRev36_lt _ _ _ (List.mem_reverse.mp (by rw [hd]; exact List.mem_cons_self d ds))
        exact digit36_isDigit d hd36
    | succ k =>
      refine ⟨'0', List.replicate k '0' ++ toBase36 t, ?_, ?_⟩
      · simp [padStart11, hk, List.replicate_succ]
      · decide

/-- Claim C9: for every finite `timeMs` with `0 ≤ floor(timeMs) < 36^11` and
every non-empty `clientId` — including client ids containing underscores —
`decodePatchId (encodePatchId timeMs clientId)` returns exactly
`{ timeMs: floor(timeMs), clientId }`.  Times are modelled as the natural
number `floor(timeMs)`. -/
theorem patchId_roundtrip_C9 (t : Nat) (c : String) (ht : t < 36 ^ 11)
    (hc : c ≠ "") :
    (encodePatchId t c).bind decodePatchId = some (t, c) := by
  obtain ⟨hlen, hparse, c0, rest, hsplit, hdig⟩ := padStart11_spec t ht
  set pad := padStart11 (toBase36 t) with hpad
  have hcd : c.data ≠ [] := string_data_ne_nil hc
  have henc : encodePatchId t c = some ⟨pad ++ '_' :: c.data⟩ := by
    simp [encodePatchId, hc]
  rw [henc, Option.some_bind]
  have hdata : (String.mk (pad ++ '_' :: c.data)).data = pad ++ '_' :: c.data := rfl
  have hlength : (pad ++ '_' :: c.data).length = 12 + c.data.length := by
    simp [hlen]
    omega
  have hnotshort : ¬ (pad ++ '_' :: c.data).length < TIME36_WIDTH + 2 := by
    rw [hlength]
    have h1 : 1 ≤ c.data.length := by
      cases hcc : c.data with
      | nil => exact absurd hcc hcd
      | cons x xs => simp
    show ¬ (12 + c.data.length < 11 + 2)
    omega
  have htake : (pad ++ '_' :: c.data).take TIME36_WIDTH = pad :=
    List.take_left' hlen
  have hdrop : (pad ++ '_' :: c.data).drop TIME36_WIDTH = '_' :: c.data :=
    List.drop_left' hlen
  have hdrop12 : (pad ++ '_' :: c.data).drop (TIME36_WIDTH + 1) = c.data := by
    have hassoc : pad ++ '_' :: c.data = (pad ++ ['_']) ++ c.data := by simp
    rw [hassoc]
    exact List.drop_left' (by simp [hlen, TIME36_WIDTH])
  have hparseInt : parseIntJS36 pad = some (t : Int) := by
    rw [hsplit]
    rw [hsplit] at hparse
    obtain ⟨hne1, hne2⟩ := val36_ne_dash hdig
    simp only [parseIntJS36, hne1, hne2, if_false]
    rw [hparse]
    rfl
  simp only [decodePatchId, hdata, hnotshort, if_false, htake, hdrop, hdrop12]
  have hdelim : ¬ (('_' :: c.data).take 1 ≠ ['_']) := by simp
  simp only [hdelim, if_false, hcd, if_false, hparseInt]
  have hnonneg : ¬ ((t : Int) < 0) := by omega
  simp only [hnonneg, if_false, Int.toNat_natCast]

/-- Witness for C9: the round-trip at `timeMs = 1234567890` and the
underscore-containing client id `"ab_cd"`. -/
theorem patchId_roundtrip_C9_witness :
    (encodePatchId 1234567890 "ab_cd").bind decodePatchId =
      some (1234567890, "ab_cd") :=
  patchId_roundtrip_C9 1234567890 "ab_cd" (by norm_num) (by decide)

/-- Claim C7: for all strings `base`, `local`, `remote` (and any behavior of
the external diff engine), `threeWayMerge` satisfies the three identities:
if `local == remote` it returns `local`; if `base == remote` it returns
`local`; if `base == local` it returns `remote`. -/
theorem threeWayMerge_identities_C7
    (diffMain : String → String → List (Int × String))
    (base local' remote : String) :
    (local' = remote → threeWayMerge diffMain base local' remote = local') ∧
    (base = remote → threeWayMerge diffMain base local' remote = local') ∧
    (base = local' → threeWayMerge diffMain base local' remote = remote) := by
  refine ⟨?_, ?_, ?_⟩
  · intro h
    simp [threeWayMerge, h]
  · intro h
    by_cases hlr : local' = remote
    · simp [threeWayMerge, hlr]
    · simp [threeWayMerge, hlr, h]
  · intro h
    by_cases hlr : local' = remote
    · rw [← hlr, ← h]
      simp [threeWayMerge]
    · have hbr : base ≠ remote := fun hh => hlr (h ▸ hh)
      simp [threeWayMerge, hlr, hbr, ← h]

/-- Witness for C7: all three identities discharged at concrete strings
(`base = local = remote = "a"`, with a trivial diff engine). -/
theorem threeWayMerge_identities_C7_witness :
    threeWayMerge (fun _ _ => []) "a" "a" "a" = "a" ∧
    threeWayMerge (fun _ _ => []) "a" "a" "a" = "a" ∧
    threeWayMerge (fun _ _ => []) "a" "a" "a" = "a" :=
  ⟨(threeWayMerge_identities_C7 (fun _ _ => []) "a" "a" "a").1 rfl,
   (threeWayMerge_identities_C7 (fun _ _ => []) "a" "a" "a").2.1 rfl,
   (threeWayMerge_identities_C7 (fun _ _ => []) "a" "a" "a").2.2 rfl⟩

theorem nextTime_formula (c : Int) (s : SessionClock) :
    (Session.nextTime c s).1 = max (s.lastTime + 1) c := by
  rw [Session.nextTime]
  by_cases h : c > s.lastTime
  · simp only [h, if_true]
    omega
  · simp only [h, if_false]
    omega

theorem nextTime_state (c : Int) (s : SessionClock) :
    ((Session.nextTime c s).2).lastTime = (Session.nextTime c s).1 := by
  rw [Session.nextTime]
  by_cases h : c > s.lastTime <;> simp [h]

theorem applyRemoteTime_mono (t : Int) (s : SessionClock) :
    s.lastTime ≤ (Session.applyRemoteTime t s).lastTime :=
  le_max_left _ _

/-- Claim C8: for every session state and every clock behavior — stalled or
backwards clocks included — successive `commit()` calls emit strictly
increasing `time` values, each equal to `max(lastTime + 1, clock())`. -/
theorem session_commit_times_C8 (c1 w1 c2 w2 : Int) (s : SessionClock) :
    (Session.commitTimes c1 w1 s).1.time = max (s.lastTime + 1) c1 ∧
    (Session.commitTimes c2 w2 (Session.commitTimes c1 w1 s).2).1.time =
      max ((Session.commitTimes c1 w1 s).1.time + 1) c2 ∧
    (Session.commitTimes c1 w1 s).1.time <
      (Session.commitTimes c2 w2 (Session.commitTimes c1 w1 s).2).1.time := by
  have h1 : (Session.commitTimes c1 w1 s).1.time = (Session.nextTime c1 s).1 := rfl
  have h1s : (Session.commitTimes c1 w1 s).2 = (Session.nextTime c1 s).2 := rfl
  have h2 : (Session.commitTimes c2 w2 (Session.commitTimes c1 w1 s).2).1.time =
      (Session.nextTime c2 (Session.nextTime c1 s).2).1 := by rw [h1s]; rfl
  refine ⟨?_, ?_, ?_⟩
  · rw [h1, nextTime_formula]
  · rw [h2, h1, nextTime_formula, nextTime_state]
  · rw [h2, h1]
    rw [nextTime_formula c2, nextTime_state, nextTime_formula c1]
    exact lt_of_lt_of_le (lt_add_one _) (le_max_left _ _)

/-- Claim C2 (code bug): on `twoBranchGraph`, computing `value({time:"x"})`
caches `("t" ↦ ("AT", 2))`; the subsequent `value({time:"y"})` walk finds
`count = 2` at index 1 of `y`'s replay order `[b, t, y]` and reuses the
cached `"AT"` — a prefix from the other branch — returning `"ATY"`, while
the same request on a fresh graph holding the same patches returns `"BTY"`.
The cache changes the result, against the source's own comment that a
cached prefix is reused only "if reachability unchanged". -/
theorem value_cache_changes_result_C2 :
    (((twoBranchGraph.value appendCodec { time := some "x" }).bind fun r =>
        r.2.value appendCodec { time := some "y" }).map fun r => r.1) =
      some "ATY" ∧
    ((twoBranchGraph.value appendCodec { time := some "y" }).map fun r => r.1) =
      some "BTY" ∧
    ("ATY" : String) ≠ "BTY" := by
  refine ⟨by rfl, by rfl, by decide⟩

/-- Claim C6 (code bug): with the snapshot floor `"0"` (text `"Z"`) below
both branches, `value({time:"x"})` caches `("t" ↦ ("ZAT", 2))`; the
subsequent `value({time:"y"})` reuses that foreign prefix and returns
`"ZATY"`, whereas the computation claim C6 describes — seed
`fromString("Z")` and apply the reachable patches above the floor in
ascending id order — yields `"ZBTY"`.  The divergence comes from the same
unsound value-cache prefix reuse as C2. -/
theorem snapshot_seeding_violated_C6 :
    (((snapBranchGraph.value appendCodec { time := some "x" }).bind fun r =>
        r.2.value appendCodec { time := some "y" }).map fun r => r.1) =
      some "ZATY" ∧
    claimSnapshotReplay snapBranchGraph appendCodec "y" = some "ZBTY" ∧
    ("ZATY" : String) ≠ "ZBTY" := by
  refine ⟨by rfl, by rfl, by decide⟩

/-- Counterexample to claim C4 as stated: after `value({time:"x"})` the
value cache of `twoBranchGraphAfterX` holds three entries; `add`-ing the
genuinely new patch `"z"` — a graph mutation — leaves the value cache
exactly as it was (and non-empty), so not all four caches are invalidated. -/
theorem add_keeps_valueCache_C4_counterexample :
    (twoBranchGraphAfterX.add [pZtop]).valueCache =
        twoBranchGraphAfterX.valueCache ∧
    twoBranchGraphAfterX.valueCache ≠ [] ∧
    patchesGet twoBranchGraphAfterX.patches pZtop.time = none := by
  refine ⟨by rfl, by decide, by rfl⟩

/-- Claim C4 as amended: every non-empty `add()` — in particular every
mutating one — clears the reachability, merge and versions caches, and
leaves the value cache untouched. -/
theorem add_invalidates_three_caches_C4 {Doc Body : Type}
    (g : PatchGraph Doc Body) (input : List (Patch Body)) (h : input ≠ []) :
    (g.add input).reachabilityCache = [] ∧
    (g.add input).mergeCache = [] ∧
    (g.add input).versionsCache = none ∧
    (g.add input).valueCache = g.valueCache := by
  cases input with
  | nil => exact absurd rfl h
  | cons p rest => exact ⟨rfl, rfl, rfl, rfl⟩

/-- Witness for the amended C4 at the concrete cache-bearing graph. -/
theorem add_invalidates_three_caches_C4_witness :
    (twoBranchGraphAfterX.add [pZtop]).reachabilityCache = [] ∧
    (twoBranchGraphAfterX.add [pZtop]).mergeCache = [] ∧
    (twoBranchGraphAfterX.add [pZtop]).versionsCache = none ∧
    (twoBranchGraphAfterX.add [pZtop]).valueCache =
      twoBranchGraphAfterX.valueCache :=
  add_invalidates_three_caches_C4 twoBranchGraphAfterX [pZtop] (by decide)

theorem patchTimeLt_asymm {Body : Type} {p q : Patch Body}
    (h : patchTimeLt p q) : ¬ patchTimeLt q p :=
  fun h2 => Bool.false_ne_true ((ltStr_asymm h).symm.trans h2)

theorem insertPatchSorted_perm {Body : Type} (p : Patch Body)
    (ps : List (Patch Body)) (hfresh : p.time ∉ ps.map Patch.time) :
    (insertPatchSorted p ps).Perm (p :: ps) := by
  induction ps with
  | nil => exact List.Perm.refl _
  | cons q rest ih =>
    simp only [List.map_cons, List.mem_cons, not_or] at hfresh
    obtain ⟨hne, hnotin⟩ := hfresh
    rw [insertPatchSorted]
    by_cases hlt : ltStr p.time q.time = true
    · rw [if_pos hlt]
    · rw [if_neg hlt, if_neg hne]
      exact ((ih hnotin).cons q).trans (List.Perm.swap p q rest)

theorem insertPatchSorted_sorted {Body : Type} (p : Patch Body)
    (ps : List (Patch Body)) (hfresh : p.time ∉ ps.map Patch.time)
    (hs : List.Pairwise patchTimeLt ps) :
    List.Pairwise patchTimeLt (insertPatchSorted p ps) := by
  induction ps with
  | nil => exact List.Pairwise.cons (by simp) List.Pairwise.nil
  | cons q rest ih =>
    simp only [List.map_cons, List.mem_cons, not_or] at hfresh
    obtain ⟨hne, hnotin⟩ := hfresh
    rw [List.pairwise_cons] at hs
    obtain ⟨hq, hrest⟩ := hs
    rw [insertPatchSorted]
    by_cases hlt : ltStr p.time q.time = true
    · rw [if_pos hlt]
      rw [List.pairwise_cons]
      refine ⟨?_, List.pairwise_cons.mpr ⟨hq, hrest⟩⟩
      intro x hx
      rcases List.mem_cons.mp hx with rfl | hx'
      · exact hlt
      · exact ltStr_trans hlt (hq x hx')
    · rw [if_neg hlt, if_neg hne]
      rw [List.pairwise_cons]
      refine ⟨?_, ih hnotin hrest⟩
      intro x hx
      have hmem := (insertPatchSorted_perm p rest hnotin).mem_iff.mp hx
      rcases List.mem_cons.mp hmem with rfl | hx'
      · rcases ltStr_total hne with h' | h'
        · exact absurd h' hlt
        · exact h'
      · exact hq x hx'

theorem foldl_insert_perm_sorted {Body : Type} :
    ∀ (l ps : List (Patch Body)),
    List.Pairwise patchTimeLt ps → (l.map Patch.time).Nodup →
    (∀ p ∈ l, p.time ∉ ps.map Patch.time) →
    (l.foldl (fun acc p => insertPatchSorted p acc) ps).Perm (l ++ ps) ∧
    List.Pairwise patchTimeLt
      (l.foldl (fun acc p => insertPatchSorted p acc) ps) := by
  intro l
  induction l with
  | nil => intro ps hs _ _; exact ⟨List.Perm.refl _, hs⟩
  | cons p l' ih =>
    intro ps hs hnodup hdisj
    have hfresh : p.time ∉ ps.map Patch.time := hdisj p (List.mem_cons_self p l')
    have hins_perm := insertPatchSorted_perm p ps hfresh
    have hins_sorted := insertPatchSorted_sorted p ps hfresh hs
    simp only [List.map_cons, List.nodup_cons] at hnodup
    obtain ⟨hphead, hnodup'⟩ := hnodup
    have hdisj' : ∀ q ∈ l', q.time ∉ (insertPatchSorted p ps).map Patch.time := by
      intro q hq hmem
      have hmem' := ((hins_perm.map Patch.time).mem_iff).mp hmem
      rcases List.mem_cons.mp hmem' with heq | hmem''
      · exact hphead (heq ▸ List.mem_map_of_mem Patch.time hq)
      · exact hdisj q (List.mem_cons_of_mem p hq) hmem''
    obtain ⟨hperm', hsorted'⟩ := ih (insertPatchSorted p ps) hins_sorted hnodup' hdisj'
    refine ⟨?_, by simpa using hsorted'⟩
    simp only [List.foldl_cons]
    exact hperm'.trans ((List.Perm.append_left l' hins_perm).trans List.perm_middle)

theorem buildGraph_from (Doc : Type) {Body : Type} :
    ∀ (gs : List (List (Patch Body))) (g : PatchGraph Doc Body),
    g.valueCache = [] → g.reachabilityCache = [] → g.mergeCache = [] →
    g.versionsCache = none →
    gs.foldl PatchGraph.add g =
      { patches := gs.join.foldl (fun acc p => insertPatchSorted p acc) g.patches } := by
  intro gs
  induction gs with
  | nil =>
    intro g h1 h2 h3 h4
    cases g
    simp only [List.foldl_nil, List.join_nil]
    simp_all
  | cons batch rest ih =>
    intro g h1 h2 h3 h4
    simp only [List.foldl_cons, List.join_cons, List.foldl_append]
    cases batch with
    | nil =>
      have hadd : g.add [] = g := rfl
      rw [hadd]
      simpa using ih g h1 h2 h3 h4
    | cons p ps =>
      have hadd : g.add (p :: ps) =
          { g with
            patches := (p :: ps).foldl (fun acc q => insertPatchSorted q acc) g.patches
            reachabilityCache := []
            mergeCache := []
            versionsCache := none } := rfl
      rw [hadd]
      exact ih _ h1 rfl rfl rfl

/-- Claim C1: two `PatchGraph` instances built by `add`-ing the same patches
— all ids distinct — in any order and any grouping into batches answer
every `value()` request (any head selection, any exclusions) with documents
whose `toString` is identical; in fact, the graph states are equal. -/
theorem patchGraph_determinism_C1 {Doc Body : Type} [DecidableEq Body]
    (codec : DocCodec Doc Body) (gs1 gs2 : List (List (Patch Body)))
    (hperm : gs1.join.Perm gs2.join)
    (hnodup : (gs1.join.map Patch.time).Nodup) (opts : ValueOpts) :
    (((buildGraph Doc gs1).value codec opts).map fun r => codec.toString r.1) =
    (((buildGraph Doc gs2).value codec opts).map fun r => codec.toString r.1) := by
  have hnodup2 : (gs2.join.map Patch.time).Nodup :=
    ((hperm.map Patch.time).nodup_iff).mp hnodup
  have h1 := buildGraph_from Doc gs1 (PatchGraph.empty Doc Body) rfl rfl rfl rfl
  have h2 := buildGraph_from Doc gs2 (PatchGraph.empty Doc Body) rfl rfl rfl rfl
  obtain ⟨hperm1, hsorted1⟩ :=
    foldl_insert_perm_sorted gs1.join [] List.Pairwise.nil hnodup (by simp)
  obtain ⟨hperm2, hsorted2⟩ :=
    foldl_insert_perm_sorted gs2.join [] List.Pairwise.nil hnodup2 (by simp)
  have hpatches :
      gs1.join.foldl (fun acc p => insertPatchSorted p acc) [] =
      gs2.join.foldl (fun acc p => insertPatchSorted p acc) [] := by
    haveI : IsAntisymm (Patch Body) patchTimeLt :=
      ⟨fun a b hab hba => absurd hba (patchTimeLt_asymm hab)⟩
    refine List.eq_of_perm_of_sorted ?_ hsorted1 hsorted2
    rw [List.append_nil] at hperm1
    rw [List.append_nil] at hperm2
    exact (hperm1.trans hperm).trans hperm2.symm
  have hgraphs : buildGraph Doc gs1 = buildGraph Doc gs2 := by
    have he : (PatchGraph.empty Doc Body).patches = ([] : List (Patch Body)) := rfl
    rw [buildGraph, buildGraph, h1, h2, he, hpatches]
  rw [hgraphs]

/-- Witness for C1: the five two-branch patches added in two different
orders and groupings produce graphs whose default `value()` strings agree. -/
theorem patchGraph_determinism_C1_witness :
    (((buildGraph String [[pA, pB], [pT, pX, pY]]).value appendCodec {}).map
      fun r => appendCodec.toString r.1) =
    (((buildGraph String [[pY], [pX, pT], [], [pB, pA]]).value appendCodec {}).map
      fun r => appendCodec.toString r.1) :=
  patchGraph_determinism_C1 appendCodec [[pA, pB], [pT, pX, pY]]
    [[pY], [pX, pT], [], [pB, pA]] (by decide) (by decide) {}

/-- Counterexample to claim C3 as stated: on `dupPkDoc` the upsert payload
`{id: 1, y: 5}` selects both slots `[0, 1]`, but only slot 0 receives the
set-field `y`; slot 1 keeps its original record untouched. -/
theorem set_updates_every_slot_C3_counterexample :
    dupPkDoc.select
        (dupPkDoc.parse [("id", .vnum 1), ("y", .vnum 5)]).1 = some [0, 1] ∧
    (dbSetObj trivDiff dupPkDoc [("id", .vnum 1), ("y", .vnum 5)]).map
        (fun d => d.records) =
      some [some [("id", .vnum 1), ("x", .vnum 1), ("y", .vnum 5)],
            some [("id", .vnum 1), ("x", .vnum 2)]] := by
  exact ⟨by rfl, by rfl⟩

/-- Claim C3 as amended: when the upsert payload's primary-key fields
select at least one existing slot, only the slot with the smallest index is
updated with the payload's set-fields; every other slot's record is left
unchanged. -/
theorem set_updates_only_first_slot_C3 (sdiff : StrDiff) (d : DbDocument)
    (obj : DbRecord) (ms : List Nat) (n : Nat) (d' : DbDocument) (m : Nat)
    (hsel : d.select (d.parse obj).1 = some ms)
    (hmin : natSetMin ms = some n)
    (hset : dbSetObj sdiff d obj = some d')
    (hm : m ≠ n) :
    d'.records.get? m = d.records.get? m := by
  rw [dbSetObj] at hset
  simp only [hsel, hmin] at hset
  split at hset
  · exact absurd hset (by simp)
  · split at hset
    · exact absurd hset (by simp)
    · split at hset
      · cases hset
        rfl
      · cases hset
        exact List.get?_set_ne _ _ (Ne.symm hm)

/-- Witness for the amended C3 at the duplicate-key document: slot 1 is
selected but left unchanged. -/
theorem set_updates_only_first_slot_C3_witness :
    ((dbSetObj trivDiff dupPkDoc [("id", .vnum 1), ("y", .vnum 5)]).getD
        emptyDbDoc).records.get? 1 = dupPkDoc.records.get? 1 :=
  set_updates_only_first_slot_C3 trivDiff dupPkDoc
    [("id", .vnum 1), ("y", .vnum 5)] [0, 1] 0
    ((dbSetObj trivDiff dupPkDoc [("id", .vnum 1), ("y", .vnum 5)]).getD
      emptyDbDoc) 1
    (by rfl) (by rfl) (by rfl) (by decide)

/-- Claim C10: `makePatch(a, b)` returns the delete-everything patch
`[-1, [{}]]` whenever `b` has zero records, whatever `a` is. -/
theorem makePatch_empty_target_C10 (sdiff : StrDiff) (a b : DbDocument)
    (hb : b.size = 0) :
    DbDocument.makePatch sdiff a b = some [.op (-1), .objs [[]]] := by
  rw [DbDocument.makePatch, if_pos hb]

/-- Witness for C10 at two empty documents: even `makePatch(∅, ∅)` is the
non-empty delete-all patch, not `[]`. -/
theorem makePatch_empty_target_C10_witness :
    DbDocument.makePatch trivDiff emptyDbDoc emptyDbDoc =
      some [.op (-1), .objs [[]]] :=
  makePatch_empty_target_C10 trivDiff emptyDbDoc emptyDbDoc (by rfl)

theorem rget_rset_self (r : DbRecord) (k : String) (v : Val) :
    rget (rset r k v) k = some v := by
  induction r with
  | nil => simp [rset, rget, alGet]
  | cons kv tl ih =>
    obtain ⟨k', v'⟩ := kv
    rw [rset]
    by_cases hlt : ltStr k k' = true
    · rw [if_pos hlt]
      simp [rget, alGet]
    · rw [if_neg hlt]
      by_cases heq : k' = k
      · rw [if_pos heq]
        simp [rget, alGet, heq]
      · rw [if_neg heq]
        simp only [rget, alGet, heq, if_false] at ih ⊢
        exact ih

theorem rget_rset_ne (r : DbRecord) (k k' : String) (v : Val)
    (h : k' ≠ k) : rget (rset r k v) k' = rget r k' := by
  induction r with
  | nil =>
    simp only [rset, rget, alGet]
    rw [if_neg fun hh => h hh.symm]
  | cons kv tl ih =>
    obtain ⟨k0, v0⟩ := kv
    rw [rset]
    by_cases hlt : ltStr k k0 = true
    · rw [if_pos hlt]
      simp only [rget, alGet]
      rw [if_neg fun hh => h hh.symm]
    · rw [if_neg hlt]
      by_cases heq : k0 = k
      · rw [if_pos heq]
        simp only [rget, alGet]
        have hne : ¬ k0 = k' := fun hh => h (hh.symm.trans heq)
        rw [if_neg hne, if_neg hne]
      · rw [if_neg heq]
        simp only [rget, alGet]
        by_cases h0 : k0 = k'
        · rw [if_pos h0, if_pos h0]
        · rw [if_neg h0, if_neg h0]
          exact ih

theorem rget_rdel_ne (r : DbRecord) (k k' : String) (h : k' ≠ k) :
    rget (rdel r k) k' = rget r k' := by
  induction r with
  | nil => simp [rdel]
  | cons kv tl ih =>
    obtain ⟨k0, v0⟩ := kv
    rw [rdel]
    by_cases heq : k0 = k
    · rw [if_pos heq]
      simp only [rget, alGet]
      rw [if_neg fun hh => h (hh.symm.trans heq)]
    · rw [if_neg heq]
      simp only [rget, alGet]
      by_cases h0 : k0 = k'
      · rw [if_pos h0, if_pos h0]
      · rw [if_neg h0, if_neg h0]
        exact ih

theorem rget_none_of_not_mem (r : DbRecord) (k : String)
    (h : k ∉ r.map Prod.fst) : rget r k = none := by
  induction r with
  | nil => rfl
  | cons kv tl ih =>
    obtain ⟨k0, v0⟩ := kv
    simp only [List.map_cons, List.mem_cons, not_or] at h
    simp only [rget, alGet]
    rw [if_neg fun hh => h.1 hh.symm]
    exact ih h.2

theorem mem_of_rget_some {r : DbRecord} {k : String} {v : Val}
    (h : rget r k = some v) : k ∈ r.map Prod.fst := by
  by_contra hnm
  rw [rget_none_of_not_mem r k hnm] at h
  exact Option.noConfusion h

theorem rget_rdel_self (r : DbRecord) (k : String) (hc : RecCanon r) :
    rget (rdel r k) k = none := by
  induction r with
  | nil => rfl
  | cons kv tl ih =>
    obtain ⟨k0, v0⟩ := kv
    rw [RecCanon, List.map_cons, StrSorted, List.pairwise_cons] at hc
    obtain ⟨hhead, htl⟩ := hc
    rw [rdel]
    by_cases heq : k0 = k
    · rw [if_pos heq]
      subst heq
      apply rget_none_of_not_mem
      intro hmem
      have := hhead k0 hmem
      rw [ltStr_irrefl] at this
      exact Bool.false_ne_true this
    · rw [if_neg heq]
      simp only [rget, alGet]
      rw [if_neg heq]
      exact ih htl

theorem keys_rset_subset (k a : String) (v : Val) :
    ∀ r : DbRecord, ∀ x ∈ (rset r k v).map Prod.fst,
      x = k ∨ x ∈ r.map Prod.fst := by
  intro r
  induction r with
  | nil =>
    intro x hx
    simp only [rset, List.map_cons, List.map_nil, List.mem_singleton] at hx
    exact Or.inl hx
  | cons kv tl ih =>
    obtain ⟨k0, v0⟩ := kv
    intro x hx
    rw [rset] at hx
    by_cases hlt : ltStr k k0 = true
    · rw [if_pos hlt] at hx
      simp only [List.map_cons, List.mem_cons] at hx
      rcases hx with rfl | rfl | hx
      · exact Or.inl rfl
      · exact Or.inr (List.mem_cons_self _ _)
      · exact Or.inr (List.mem_cons_of_mem _ hx)
    · rw [if_neg hlt] at hx
      by_cases heq : k0 = k
      · rw [if_pos heq] at hx
        simp only [List.map_cons, List.mem_cons] at hx
        rcases hx with rfl | hx
        · exact Or.inr (List.mem_cons_self _ _)
        · exact Or.inr (List.mem_cons_of_mem _ hx)
      · rw [if_neg heq] at hx
        simp only [List.map_cons, List.mem_cons] at hx
        rcases hx with rfl | hx
        · exact Or.inr (List.mem_cons_self _ _)
        · rcases ih x hx with h1 | h1
          · exact Or.inl h1
          · exact Or.inr (List.mem_cons_of_mem _ h1)

theorem RecCanon_rset (r : DbRecord) (k : String) (v : Val)
    (hc : RecCanon r) : RecCanon (rset r k v) := by
  induction r with
  | nil => exact List.Pairwise.cons (by simp) List.Pairwise.nil
  | cons kv tl ih =>
    obtain ⟨k0, v0⟩ := kv
    rw [RecCanon, List.map_cons, StrSorted, List.pairwise_cons] at hc
    obtain ⟨hhead, htl⟩ := hc
    rw [rset]
    by_cases hlt : ltStr k k0 = true
    · rw [if_pos hlt]
      rw [RecCanon, List.map_cons, StrSorted, List.pairwise_cons]
      refine ⟨?_, ?_⟩
      · intro x hx
        simp only [List.map_cons, List.mem_cons] at hx
        rcases hx with rfl | hx
        · exact hlt
        · exact ltStr_trans hlt (hhead x hx)
      · rw [List.map_cons]
        exact List.Pairwise.cons hhead htl
    · rw [if_neg hlt]
      by_cases heq : k0 = k
      · rw [if_pos heq]
        rw [RecCanon, List.map_cons, StrSorted, List.pairwise_cons]
        exact ⟨hhead, htl⟩
      · rw [if_neg heq]
        rw [RecCanon, List.map_cons, StrSorted, List.pairwise_cons]
        refine ⟨?_, ih htl⟩
        have hk0k : ltStr k0 k = true := by
          rcases ltStr_total (fun hh => heq hh.symm) with h' | h'
          · exact absurd h' hlt
          · exact h'
        intro x hx
        rcases keys_rset_subset k k0 v tl x hx with rfl | h1
        · exact hk0k
        · exact hhead x h1

theorem keys_rdel_subset (k : String) :
    ∀ r : DbRecord, ∀ x ∈ (rdel r k).map Prod.fst, x ∈ r.map Prod.fst := by
  intro r
  induction r with
  | nil => intro x hx; exact hx
  | cons kv tl ih =>
    obtain ⟨k0, v0⟩ := kv
    intro x hx
    rw [rdel] at hx
    by_cases heq : k0 = k
    · rw [if_pos heq] at hx
      exact List.mem_cons_of_mem _ hx
    · rw [if_neg heq] at hx
      simp only [List.map_cons, List.mem_cons] at hx
      rcases hx with rfl | hx
      · exact List.mem_cons_self _ _
      · exact List.mem_cons_of_mem _ (ih x hx)

theorem RecCanon_rdel (r : DbRecord) (k : String) (hc : RecCanon r) :
    RecCanon (rdel r k) := by
  induction r with
  | nil => exact List.Pairwise.nil
  | cons kv tl ih =>
    obtain ⟨k0, v0⟩ := kv
    rw [RecCanon, List.map_cons, StrSorted, List.pairwise_cons] at hc
    obtain ⟨hhead, htl⟩ := hc
    rw [rdel]
    by_cases heq : k0 = k
    · rw [if_pos heq]; exact htl
    · rw [if_neg heq]
      rw [RecCanon, List.map_cons, StrSorted, List.pairwise_cons]
      refine ⟨?_, ih htl⟩
      intro x hx
      exact hhead x (keys_rdel_subset k tl x hx)

theorem rec_ext (r r' : DbRecord) (hc : RecCanon r) (hc' : RecCanon r')
    (h : ∀ k, rget r k = rget r' k) : r = r' := by
  induction r generalizing r' with
  | nil =>
    cases r' with
    | nil => rfl
    | cons kv tl =>
      obtain ⟨k0, v0⟩ := kv
      have := h k0
      simp [rget, alGet] at this
  | cons kv tl ih =>
    obtain ⟨k0, v0⟩ := kv
    cases r' with
    | nil =>
      have := h k0
      simp [rget, alGet] at this
    | cons kv' tl' =>
      obtain ⟨k0', v0'⟩ := kv'
      rw [RecCanon, List.map_cons, StrSorted, List.pairwise_cons] at hc hc'
      obtain ⟨hhead, htl⟩ := hc
      obtain ⟨hhead', htl'⟩ := hc'
      have hkeys : k0 = k0' := by
        by_contra hne
        have hL : rget ((k0, v0) :: tl) k0 = some v0 := by simp [rget, alGet]
        have hL' : rget ((k0', v0') :: tl') k0' = some v0' := by
          simp [rget, alGet]
        rcases ltStr_total hne with hlt | hlt
        · have h2 : rget ((k0', v0') :: tl') k0 = some v0 :=
            (h k0).symm.trans hL
          have h2' : rget tl' k0 = some v0 := by
            simp only [rget, alGet] at h2
            rwa [if_neg fun hh : k0' = k0 => ltStr_ne hlt hh.symm] at h2
          have hgt : ltStr k0' k0 = true := hhead' k0 (mem_of_rget_some h2')
          exact Bool.false_ne_true ((ltStr_asymm hlt).symm.trans hgt)
        · have h2 : rget ((k0, v0) :: tl) k0' = some v0' :=
            (h k0').trans hL'
          have h2' : rget tl k0' = some v0' := by
            simp only [rget, alGet] at h2
            rwa [if_neg fun hh : k0 = k0' => ltStr_ne hlt hh.symm] at h2
          have hgt : ltStr k0 k0' = true := hhead k0' (mem_of_rget_some h2')
          exact Bool.false_ne_true ((ltStr_asymm hlt).symm.trans hgt)
      subst hkeys
      have hvals : v0 = v0' := by
        have hL : rget ((k0, v0) :: tl) k0 = some v0 := by simp [rget, alGet]
        have hL' : rget ((k0, v0') :: tl') k0 = some v0' := by
          simp [rget, alGet]
        exact Option.some.inj ((hL.symm.trans (h k0)).trans hL')
      subst hvals
      have htls : tl = tl' := by
        refine ih tl' htl htl' ?_
        intro k
        by_cases hk : k0 = k
        · subst hk
          have hn : rget tl k0 = none := by
            apply rget_none_of_not_mem
            intro hmem
            have hx : ltStr k0 k0 = true := hhead k0 hmem
            rw [ltStr_irrefl] at hx
            exact Bool.false_ne_true hx
          have hn' : rget tl' k0 = none := by
            apply rget_none_of_not_mem
            intro hmem
            have hx : ltStr k0 k0 = true := hhead' k0 hmem
            rw [ltStr_irrefl] at hx
            exact Bool.false_ne_true hx
          rw [hn, hn']
        · have h1 := h k
          simp only [rget, alGet] at h1
          rw [if_neg hk, if_neg hk] at h1
          exact h1
      rw [htls]

/-- Counterexample to claim C5 as stated: for `a` empty and `b` holding
`{id: 1, x: null}` (a legitimate table state produced by `fromString`),
`makePatch(a, b)` is a plain insert of the record, but `applyPatch` strips
the null field on insert (`nonnullCols`), so the round trip produces
`{id: 1}` and `isEqual` rejects it. -/
theorem table_roundtrip_C5_counterexample :
    DbDocument.makePatch trivDiff emptyDbDoc nullFieldDoc =
      some [.op 1, .objs [[("id", .vnum 1), ("x", .vnull)]]] ∧
    ((DbDocument.makePatch trivDiff emptyDbDoc nullFieldDoc).bind
        (DbDocument.applyPatch trivDiff emptyDbDoc)).map
      (fun d => d.isEqual nullFieldDoc) = some false := by
  exact ⟨by rfl, by rfl⟩

theorem toList_get : ∀ (o : ObjList) (k : String),
    o.get k = rget o.toList k
  | .nil, _ => rfl
  | .cons k0 v0 tl, k => by
    simp only [ObjList.get, ObjList.toList, rget, alGet]
    by_cases h : k0 = k
    · rw [if_pos h, if_pos h]
    · rw [if_neg h, if_neg h]
      exact toList_get tl k

theorem toList_set : ∀ (o : ObjList) (k : String) (v : Val),
    (o.set k v).toList = rset o.toList k v
  | .nil, _, _ => rfl
  | .cons k0 v0 tl, k, v => by
    simp only [ObjList.set, ObjList.toList, rset]
    by_cases hlt : ltStr k k0 = true
    · rw [if_pos hlt, if_pos hlt]
      rfl
    · rw [if_neg hlt, if_neg hlt]
      by_cases heq : k0 = k
      · rw [if_pos heq, if_pos heq]
        rfl
      · rw [if_neg heq, if_neg heq]
        simp only [ObjList.toList]
        rw [toList_set tl k v]

theorem toList_del : ∀ (o : ObjList) (k : String),
    (o.del k).toList = rdel o.toList k
  | .nil, _ => rfl
  | .cons k0 v0 tl, k => by
    simp only [ObjList.del, ObjList.toList, rdel]
    by_cases heq : k0 = k
    · rw [if_pos heq, if_pos heq]
    · rw [if_neg heq, if_neg heq]
      simp only [ObjList.toList]
      rw [toList_del tl k]

theorem toList_inj : ∀ (o o' : ObjList), o.toList = o'.toList → o = o'
  | .nil, .nil, _ => rfl
  | .nil, .cons k v tl, h => List.noConfusion h
  | .cons k v tl, .nil, h => List.noConfusion h
  | .cons k0 v0 tl, .cons k v tl', h => by
    simp only [ObjList.toList, List.cons.injEq, Prod.mk.injEq] at h
    obtain ⟨⟨h1, h2⟩, h3⟩ := h
    rw [h1, h2, toList_inj tl tl' h3]

theorem keys_toList : ∀ (o : ObjList), o.keys = o.toList.map Prod.fst
  | .nil => rfl
  | .cons k0 v0 tl => by
    simp only [ObjList.keys, ObjList.toList, List.map_cons]
    rw [keys_toList tl]

theorem obj_get_set_self (o : ObjList) (k : String) (v : Val) :
    (o.set k v).get k = some v := by
  rw [toList_get, toList_set]
  exact rget_rset_self o.toList k v

theorem obj_get_set_ne (o : ObjList) (k k' : String) (v : Val)
    (h : k' ≠ k) : (o.set k v).get k' = o.get k' := by
  rw [toList_get, toList_set, toList_get]
  exact rget_rset_ne o.toList k k' v h

theorem obj_get_del_self (o : ObjList) (k : String) (hc : ObjCanon o) :
    (o.del k).get k = none := by
  rw [toList_get, toList_del]
  exact rget_rdel_self o.toList k hc

theorem obj_get_del_ne (o : ObjList) (k k' : String) (h : k' ≠ k) :
    (o.del k).get k' = o.get k' := by
  rw [toList_get, toList_del, toList_get]
  exact rget_rdel_ne o.toList k k' h

theorem ObjCanon_set (o : ObjList) (k : String) (v : Val)
    (hc : ObjCanon o) : ObjCanon (o.set k v) := by
  rw [ObjCanon, toList_set]
  exact RecCanon_rset o.toList k v hc

theorem ObjCanon_del (o : ObjList) (k : String) (hc : ObjCanon o) :
    ObjCanon (o.del k) := by
  rw [ObjCanon, toList_del]
  exact RecCanon_rdel o.toList k hc

theorem obj_ext (o o' : ObjList) (hc : ObjCanon o) (hc' : ObjCanon o')
    (h : ∀ k, o.get k = o'.get k) : o = o' := by
  apply toList_inj o o'
  apply rec_ext o.toList o'.toList hc hc'
  intro k
  rw [← toList_get, ← toList_get]
  exact h k

theorem obj_get_none_of_not_mem (o : ObjList) (k : String)
    (h : k ∉ o.keys) : o.get k = none := by
  rw [toList_get]
  apply rget_none_of_not_mem
  rw [← keys_toList]
  exact h

theorem obj_mem_of_get_some {o : ObjList} {k : String} {v : Val}
    (h : o.get k = some v) : k ∈ o.keys := by
  rw [keys_toList]
  rw [toList_get] at h
  exact mem_of_rget_some h

theorem mapMergePatch_eq (m m' : ObjList) :
    mapMergePatch m m' =
      m'.keys.foldl (mmpStep2 m m') (m.keys.foldl (mmpStep1 m m') .nil) :=
  rfl

theorem deepEqual_iff (a b : Val) : deepEqual a b = true ↔ a = b := by
  simp [deepEqual]

theorem deepEqualOpt_iff (x y : Option Val) :
    deepEqualOpt x y = true ↔ x = y := by
  cases x with
  | none =>
    cases y with
    | none => simp [deepEqualOpt]
    | some b => simp [deepEqualOpt]
  | some a =>
    cases y with
    | none => simp [deepEqualOpt]
    | some b => simp [deepEqualOpt, deepEqual_iff]

theorem rget_isSome_of_mem (r : DbRecord) (k : String)
    (h : k ∈ r.map Prod.fst) : ∃ v, rget r k = some v := by
  induction r with
  | nil => simp at h
  | cons kv tl ih =>
    obtain ⟨k0, v0⟩ := kv
    simp only [List.map_cons, List.mem_cons] at h
    simp only [rget, alGet]
    by_cases h0 : k0 = k
    · rw [if_pos h0]
      exact ⟨v0, rfl⟩
    · rw [if_neg h0]
      rcases h with rfl | h
      · exact absurd rfl h0
      · exact ih h

theorem obj_get_isSome_of_mem (o : ObjList) (k : String)
    (h : k ∈ o.keys) : ∃ v, o.get k = some v := by
  rw [toList_get]
  rw [keys_toList] at h
  exact rget_isSome_of_mem o.toList k h

theorem mmpLoop1_spec (m m' : ObjList) :
    ∀ (L : List String) (c : ObjList), ObjCanon c →
      ObjCanon (L.foldl (mmpStep1 m m') c) ∧
      ∀ k, (L.foldl (mmpStep1 m m') c).get k =
        if k ∈ L ∧ ¬ deepEqualOpt (m.get k) (m'.get k) = true then
          some (mmpVal2 m' k)
        else c.get k := by
  intro L
  induction L with
  | nil =>
    intro c hc
    refine ⟨hc, fun k => ?_⟩
    rw [if_neg]
    · rfl
    · rintro ⟨hk, _⟩
      simp at hk
  | cons key L' ih =>
    intro c hc
    rw [List.foldl_cons]
    have hc' : ObjCanon (mmpStep1 m m' c key) := by
      rw [mmpStep1]
      by_cases hd : deepEqualOpt (m.get key) (m'.get key) = true
      · rw [if_pos hd]; exact hc
      · rw [if_neg hd]; exact ObjCanon_set c key _ hc
    obtain ⟨hcan, hget⟩ := ih (mmpStep1 m m' c key) hc'
    refine ⟨hcan, fun k => ?_⟩
    rw [hget k]
    by_cases hmem : k ∈ L' ∧ ¬ deepEqualOpt (m.get k) (m'.get k) = true
    · rw [if_pos hmem, if_pos ⟨List.mem_cons_of_mem _ hmem.1, hmem.2⟩]
    · rw [if_neg hmem]
      by_cases hk : k = key
      · subst hk
        by_cases hd : deepEqualOpt (m.get k) (m'.get k) = true
        · rw [mmpStep1, if_pos hd, if_neg]
          rintro ⟨_, hnd⟩
          exact hnd hd
        · rw [mmpStep1, if_neg hd, obj_get_set_self, if_pos ⟨List.mem_cons_self _ _, hd⟩]
      · have hstep : (mmpStep1 m m' c key).get k = c.get k := by
          rw [mmpStep1]
          by_cases hd : deepEqualOpt (m.get key) (m'.get key) = true
          · rw [if_pos hd]
          · rw [if_neg hd]
            exact obj_get_set_ne c key k _ hk
        rw [hstep, if_neg]
        rintro ⟨hin, hnd⟩
        rcases List.mem_cons.mp hin with rfl | hin'
        · exact hk rfl
        · exact hmem ⟨hin', hnd⟩

theorem mmpLoop2_spec (m m' : ObjList) :
    ∀ (L : List String) (c : ObjList), ObjCanon c →
      ObjCanon (L.foldl (mmpStep2 m m') c) ∧
      ∀ k, (L.foldl (mmpStep2 m m') c).get k =
        if k ∈ L ∧ (m.get k = none ∨ m.get k = some .vnull) then
          some ((m'.get k).getD .vnull)
        else c.get k := by
  intro L
  induction L with
  | nil =>
    intro c hc
    refine ⟨hc, fun k => ?_⟩
    rw [if_neg]
    · rfl
    · rintro ⟨hk, _⟩
      simp at hk
  | cons key L' ih =>
    intro c hc
    rw [List.foldl_cons]
    have hset : ∀ (c' : ObjList), mmpStep2 m m' c' key = c' ∨
        mmpStep2 m m' c' key = c'.set key ((m'.get key).getD .vnull) := by
      intro c'
      cases hv : m.get key with
      | none => exact Or.inr (by simp only [mmpStep2, hv])
      | some v =>
        by_cases hn : v = .vnull
        · exact Or.inr (by simp only [mmpStep2, hv, if_pos hn])
        · exact Or.inl (by simp only [mmpStep2, hv, if_neg hn])
    have hc' : ObjCanon (mmpStep2 m m' c key) := by
      rcases hset c with h | h
      · rw [h]; exact hc
      · rw [h]; exact ObjCanon_set c key _ hc
    obtain ⟨hcan, hget⟩ := ih (mmpStep2 m m' c key) hc'
    refine ⟨hcan, fun k => ?_⟩
    rw [hget k]
    by_cases hmem : k ∈ L' ∧ (m.get k = none ∨ m.get k = some .vnull)
    · rw [if_pos hmem, if_pos ⟨List.mem_cons_of_mem _ hmem.1, hmem.2⟩]
    · rw [if_neg hmem]
      by_cases hk : k = key
      · subst hk
        by_cases hnul : m.get k = none ∨ m.get k = some .vnull
        · have hx : mmpStep2 m m' c k = c.set k ((m'.get k).getD .vnull) := by
            rcases hnul with h | h
            · simp only [mmpStep2, h]
            · simp [mmpStep2, h]
          rw [hx, obj_get_set_self, if_pos ⟨List.mem_cons_self _ _, hnul⟩]
        · have hx : mmpStep2 m m' c k = c := by
            cases hv : m.get k with
            | none => exact absurd (Or.inl hv) hnul
            | some v =>
              by_cases hn : v = .vnull
              · subst hn; exact absurd (Or.inr hv) hnul
              · simp only [mmpStep2, hv, if_neg hn]
          rw [hx, if_neg]
          rintro ⟨_, hd⟩
          exact hnul hd
      · have hstep : (mmpStep2 m m' c key).get k = c.get k := by
          rcases hset c with h | h
          · rw [h]
          · rw [h]
            exact obj_get_set_ne c key k _ hk
        rw [hstep, if_neg]
        rintro ⟨hin, hd⟩
        rcases List.mem_cons.mp hin with rfl | hin'
        · exact hk rfl
        · exact hmem ⟨hin', hd⟩

theorem mapMergePatch_spec (m m' : ObjList) :
    ObjCanon (mapMergePatch m m') ∧
    ∀ k, (mapMergePatch m m').get k =
      if k ∈ m'.keys ∧ (m.get k = none ∨ m.get k = some .vnull) then
        some ((m'.get k).getD .vnull)
      else if k ∈ m.keys ∧ ¬ deepEqualOpt (m.get k) (m'.get k) = true then
        some (mmpVal2 m' k)
      else none := by
  have hnil : ObjCanon ObjList.nil := List.Pairwise.nil
  obtain ⟨hc1, hg1⟩ := mmpLoop1_spec m m' m.keys .nil hnil
  obtain ⟨hc2, hg2⟩ := mmpLoop2_spec m m' m'.keys
    (m.keys.foldl (mmpStep1 m m') .nil) hc1
  rw [mapMergePatch_eq]
  refine ⟨hc2, fun k => ?_⟩
  rw [hg2 k, hg1 k]
  rfl

theorem mergeSetGo_spec :
    ∀ (change o : ObjList), ObjCanon o → ObjCanon change →
      ObjCanon (mergeSetGo o change) ∧
      ∀ k, (mergeSetGo o change).get k =
        match change.get k with
        | some .vnull => none
        | some v => some v
        | none => o.get k
  | .nil, o, hco, _ => by
    refine ⟨hco, fun k => ?_⟩
    rfl
  | .cons k0 v0 tl, o, hco, hcc => by
    have hcc' : ObjCanon tl := by
      rw [ObjCanon, ObjList.toList, RecCanon, List.map_cons, StrSorted,
        List.pairwise_cons] at hcc
      exact hcc.2
    have hk0 : k0 ∉ tl.keys := by
      rw [ObjCanon, ObjList.toList, RecCanon, List.map_cons, StrSorted,
        List.pairwise_cons] at hcc
      intro hmem
      rw [keys_toList] at hmem
      have := hcc.1 k0 hmem
      rw [ltStr_irrefl] at this
      exact Bool.false_ne_true this
    have htl0 : tl.get k0 = none := obj_get_none_of_not_mem tl k0 hk0
    by_cases hn : v0 = Val.vnull
    · subst hn
      have hrec := mergeSetGo_spec tl (o.del k0) (ObjCanon_del o k0 hco) hcc'
      have hstep : mergeSetGo o (.cons k0 .vnull tl) = mergeSetGo (o.del k0) tl := by
        rw [mergeSetGo, if_pos rfl]
      rw [hstep]
      refine ⟨hrec.1, fun k => ?_⟩
      rw [hrec.2 k]
      by_cases hk : k0 = k
      · subst hk
        rw [htl0]
        simp only [ObjList.get, if_pos rfl]
        exact obj_get_del_self o k0 hco
      · simp only [ObjList.get, if_neg hk]
        cases htg : tl.get k with
        | none => exact obj_get_del_ne o k0 k fun hh => hk hh.symm
        | some v => cases v <;> rfl
    · have hrec := mergeSetGo_spec tl (o.set k0 v0) (ObjCanon_set o k0 v0 hco) hcc'
      have hstep : mergeSetGo o (.cons k0 v0 tl) = mergeSetGo (o.set k0 v0) tl := by
        rw [mergeSetGo, if_neg hn]
      rw [hstep]
      refine ⟨hrec.1, fun k => ?_⟩
      rw [hrec.2 k]
      by_cases hk : k0 = k
      · subst hk
        rw [htl0]
        simp only [ObjList.get, if_pos rfl]
        rw [obj_get_set_self]
        cases v0 with
        | vnull => exact absurd rfl hn
        | vbool b => rfl
        | vnum n => rfl
        | vstr s => rfl
        | varr xs => rfl
        | vobj fs => rfl
      · simp only [ObjList.get, if_neg hk]
        cases htg : tl.get k with
        | none => exact obj_get_set_ne o k0 k v0 fun hh => hk hh.symm
        | some v => cases v <;> rfl

/-- On canonical, top-level-null-free maps, applying the shallow
merge-patch from `m` to `m'` onto `m` recovers `m'` exactly. -/
theorem mergeSet_mapMergePatch (m m' : ObjList)
    (hm : ObjCanon m) (hm' : ObjCanon m')
    (hnf : ObjNullFree m) (hnf' : ObjNullFree m') :
    mergeSet m (mapMergePatch m m') = m' := by
  obtain ⟨hchgc, hchgget⟩ := mapMergePatch_spec m m'
  obtain ⟨hmc, hmget⟩ := mergeSetGo_spec (mapMergePatch m m') m hm hchgc
  apply obj_ext _ _ hmc hm'
  intro k
  show (mergeSetGo m (mapMergePatch m m')).get k = m'.get k
  rw [hmget k, hchgget k]
  by_cases h1 : k ∈ m'.keys ∧ (m.get k = none ∨ m.get k = some .vnull)
  · rw [if_pos h1]
    obtain ⟨v', hv'⟩ := obj_get_isSome_of_mem m' k h1.1
    rw [hv']
    simp only [Option.getD_some]
    cases v' with
    | vnull => exact absurd hv' fun hh => hnf' k .vnull hh rfl
    | vbool b => rfl
    | vnum n => rfl
    | vstr s => rfl
    | varr xs => rfl
    | vobj fs => rfl
  · rw [if_neg h1]
    by_cases h2 : k ∈ m.keys ∧ ¬ deepEqualOpt (m.get k) (m'.get k) = true
    · rw [if_pos h2]
      rw [mmpVal2]
      cases hv' : m'.get k with
      | none => rfl
      | some v' =>
        cases v' with
        | vnull => exact absurd hv' fun hh => hnf' k .vnull hh rfl
        | vbool b => rfl
        | vnum n => rfl
        | vstr s => rfl
        | varr xs => rfl
        | vobj fs => rfl
    · rw [if_neg h2]
      show m.get k = m'.get k
      by_cases hmk : k ∈ m.keys
      · have hd : deepEqualOpt (m.get k) (m'.get k) = true := by
          by_contra hnd
          exact h2 ⟨hmk, hnd⟩
        exact (deepEqualOpt_iff _ _).mp hd
      · have hmn : m.get k = none := obj_get_none_of_not_mem m k hmk
        have hm'n : m'.get k = none := by
          apply obj_get_none_of_not_mem
          intro hmem
          exact h1 ⟨hmem, Or.inl hmn⟩
        rw [hmn, hm'n]

/-! ### Assoc-list, bucket and slot-set utility lemmas -/

theorem alGet_alSet_self {α : Type _} (l : List (String × α)) (k : String)
    (v : α) : alGet (alSet l k v) k = some v := by
  induction l with
  | nil => simp [alSet, alGet]
  | cons kv tl ih =>
    obtain ⟨k0, v0⟩ := kv
    rw [alSet]
    by_cases h : k0 = k
    · rw [if_pos h]
      simp only [alGet, if_pos h]
    · rw [if_neg h]
      simp only [alGet, if_neg h]
      exact ih

theorem alGet_alSet_ne {α : Type _} (l : List (String × α)) (k k' : String)
    (v : α) (h : k' ≠ k) : alGet (alSet l k v) k' = alGet l k' := by
  induction l with
  | nil =>
    simp only [alSet, alGet]
    rw [if_neg fun hh => h hh.symm]
  | cons kv tl ih =>
    obtain ⟨k0, v0⟩ := kv
    rw [alSet]
    by_cases h0 : k0 = k
    · rw [if_pos h0]
      simp only [alGet]
      rw [if_neg fun hh => h (hh.symm.trans h0), if_neg fun hh => h (hh.symm.trans h0)]
    · rw [if_neg h0]
      simp only [alGet]
      by_cases h1 : k0 = k'
      · rw [if_pos h1, if_pos h1]
      · rw [if_neg h1, if_neg h1]
        exact ih

theorem vlGet_vlSet_self (l : List (Val × List Nat)) (k : Val)
    (v : List Nat) : vlGet (vlSet l k v) k = some v := by
  induction l with
  | nil => simp [vlSet, vlGet]
  | cons kv tl ih =>
    obtain ⟨k0, v0⟩ := kv
    rw [vlSet]
    by_cases h : k0 = k
    · rw [if_pos h]
      simp only [vlGet, if_pos h]
    · rw [if_neg h]
      simp only [vlGet, if_neg h]
      exact ih

theorem vlGet_vlSet_ne (l : List (Val × List Nat)) (k k' : Val)
    (v : List Nat) (h : k' ≠ k) : vlGet (vlSet l k v) k' = vlGet l k' := by
  induction l with
  | nil =>
    simp only [vlSet, vlGet]
    rw [if_neg fun hh => h hh.symm]
  | cons kv tl ih =>
    obtain ⟨k0, v0⟩ := kv
    rw [vlSet]
    by_cases h0 : k0 = k
    · rw [if_pos h0]
      simp only [vlGet]
      by_cases h1 : k0 = k'
      · exact absurd (h1.symm.trans h0) h
      · rw [if_neg h1, if_neg h1]
    · rw [if_neg h0]
      simp only [vlGet]
      by_cases h1 : k0 = k'
      · rw [if_pos h1, if_pos h1]
      · rw [if_neg h1, if_neg h1]
        exact ih

theorem vlGet_none_of_not_mem (l : List (Val × List Nat)) (k : Val)
    (h : k ∉ l.map Prod.fst) : vlGet l k = none := by
  induction l with
  | nil => rfl
  | cons kv tl ih =>
    obtain ⟨k0, v0⟩ := kv
    simp only [List.map_cons, List.mem_cons, not_or] at h
    simp only [vlGet]
    rw [if_neg fun hh => h.1 hh.symm]
    exact ih h.2

theorem vlGet_vlDel_self (l : List (Val × List Nat)) (k : Val)
    (h : VlKeysNodup l) : vlGet (vlDel l k) k = none := by
  induction l with
  | nil => rfl
  | cons kv tl ih =>
    obtain ⟨k0, v0⟩ := kv
    rw [VlKeysNodup, List.map_cons, List.nodup_cons] at h
    rw [vlDel]
    by_cases h0 : k0 = k
    · rw [if_pos h0]
      apply vlGet_none_of_not_mem
      rw [← h0]
      exact h.1
    · rw [if_neg h0]
      simp only [vlGet, if_neg h0]
      exact ih h.2

theorem vlGet_vlDel_ne (l : List (Val × List Nat)) (k k' : Val)
    (h : k' ≠ k) : vlGet (vlDel l k) k' = vlGet l k' := by
  induction l with
  | nil => rfl
  | cons kv tl ih =>
    obtain ⟨k0, v0⟩ := kv
    rw [vlDel]
    by_cases h0 : k0 = k
    · rw [if_pos h0]
      simp only [vlGet]
      rw [if_neg fun hh => h (hh.symm.trans h0)]
    · rw [if_neg h0]
      simp only [vlGet]
      by_cases h1 : k0 = k'
      · rw [if_pos h1, if_pos h1]
      · rw [if_neg h1, if_neg h1]
        exact ih

theorem vlSet_keys_subset (l : List (Val × List Nat)) (k : Val)
    (v : List Nat) :
    ∀ x ∈ (vlSet l k v).map Prod.fst, x = k ∨ x ∈ l.map Prod.fst := by
  induction l with
  | nil =>
    intro x hx
    simp only [vlSet, List.map_cons, List.map_nil, List.mem_singleton] at hx
    exact Or.inl hx
  | cons kv tl ih =>
    obtain ⟨k0, v0⟩ := kv
    intro x hx
    rw [vlSet] at hx
    by_cases h0 : k0 = k
    · rw [if_pos h0] at hx
      simp only [List.map_cons, List.mem_cons] at hx
      rcases hx with rfl | hx
      · exact Or.inr (List.mem_cons_self _ _)
      · exact Or.inr (List.mem_cons_of_mem _ hx)
    · rw [if_neg h0] at hx
      simp only [List.map_cons, List.mem_cons] at hx
      rcases hx with rfl | hx
      · exact Or.inr (List.mem_cons_self _ _)
      · rcases ih x hx with h1 | h1
        · exact Or.inl h1
        · exact Or.inr (List.mem_cons_of_mem _ h1)

theorem VlKeysNodup_vlSet (l : List (Val × List Nat)) (k : Val)
    (v : List Nat) (h : VlKeysNodup l) : VlKeysNodup (vlSet l k v) := by
  induction l with
  | nil => simp [vlSet, VlKeysNodup]
  | cons kv tl ih =>
    obtain ⟨k0, v0⟩ := kv
    rw [VlKeysNodup, List.map_cons, List.nodup_cons] at h
    rw [VlKeysNodup, vlSet]
    by_cases h0 : k0 = k
    · rw [if_pos h0]
      rw [List.map_cons, List.nodup_cons]
      exact h
    · rw [if_neg h0]
      rw [List.map_cons, List.nodup_cons]
      refine ⟨?_, ih h.2⟩
      intro hmem
      rcases vlSet_keys_subset tl k v k0 hmem with rfl | h1
      · exact h0 rfl
      · exact h.1 h1

theorem vlDel_keys_subset (k : Val) :
    ∀ (l : List (Val × List Nat)), ∀ x ∈ (vlDel l k).map Prod.fst,
      x ∈ l.map Prod.fst := by
  intro l
  induction l with
  | nil => intro x hx; exact hx
  | cons kv tl ih =>
    obtain ⟨k0, v0⟩ := kv
    intro x hx
    rw [vlDel] at hx
    by_cases h0 : k0 = k
    · rw [if_pos h0] at hx
      exact List.mem_cons_of_mem _ hx
    · rw [if_neg h0] at hx
      simp only [List.map_cons, List.mem_cons] at hx ⊢
      rcases hx with rfl | hx
      · exact Or.inl rfl
      · exact Or.inr (ih x hx)

theorem VlKeysNodup_vlDel (l : List (Val × List Nat)) (k : Val)
    (h : VlKeysNodup l) : VlKeysNodup (vlDel l k) := by
  induction l with
  | nil => exact h
  | cons kv tl ih =>
    obtain ⟨k0, v0⟩ := kv
    rw [VlKeysNodup, List.map_cons, List.nodup_cons] at h
    rw [VlKeysNodup, vlDel]
    by_cases h0 : k0 = k
    · rw [if_pos h0]
      exact h.2
    · rw [if_neg h0]
      rw [List.map_cons, List.nodup_cons]
      refine ⟨?_, ih h.2⟩
      intro hmem
      exact h.1 (vlDel_keys_subset k tl k0 hmem)

theorem mem_insertSortedNat (n : Nat) :
    ∀ (l : List Nat) (m : Nat), m ∈ insertSortedNat n l ↔ m = n ∨ m ∈ l := by
  intro l
  induction l with
  | nil => intro m; simp [insertSortedNat]
  | cons x xs ih =>
    intro m
    rw [insertSortedNat]
    by_cases h1 : n < x
    · rw [if_pos h1]
      exact List.mem_cons
    · rw [if_neg h1]
      by_cases h2 : n = x
      · rw [if_pos h2]
        simp only [List.mem_cons]
        subst h2
        tauto
      · rw [if_neg h2]
        simp only [List.mem_cons, ih]
        tauto

theorem insertSortedNat_pairwise (n : Nat) :
    ∀ (l : List Nat), List.Pairwise (· < ·) l →
      List.Pairwise (· < ·) (insertSortedNat n l) := by
  intro l
  induction l with
  | nil => intro _; simp [insertSortedNat]
  | cons x xs ih =>
    intro h
    rw [List.pairwise_cons] at h
    rw [insertSortedNat]
    by_cases h1 : n < x
    · rw [if_pos h1]
      rw [List.pairwise_cons]
      refine ⟨?_, List.pairwise_cons.mpr h⟩
      intro y hy
      rcases List.mem_cons.mp hy with rfl | hy'
      · exact h1
      · exact Nat.lt_trans h1 (h.1 y hy')
    · rw [if_neg h1]
      by_cases h2 : n = x
      · rw [if_pos h2]
        exact List.pairwise_cons.mpr h
      · rw [if_neg h2]
        rw [List.pairwise_cons]
        refine ⟨?_, ih h.2⟩
        intro y hy
        rcases (mem_insertSortedNat n xs y).mp hy with rfl | hy'
        · omega
        · exact h.1 y hy'

theorem insertSortedNat_append (n : Nat) :
    ∀ (l : List Nat), (∀ m ∈ l, m < n) → insertSortedNat n l = l ++ [n] := by
  intro l
  induction l with
  | nil => intro _; rfl
  | cons x xs ih =>
    intro h
    have hx : x < n := h x (List.mem_cons_self _ _)
    rw [insertSortedNat, if_neg (by omega), if_neg (by omega)]
    rw [ih fun m hm => h m (List.mem_cons_of_mem _ hm)]
    rfl

theorem mem_removeNat (n m : Nat) (l : List Nat) :
    m ∈ removeNat n l ↔ m ∈ l ∧ m ≠ n := by
  simp [removeNat]

theorem removeNat_pairwise (n : Nat) (l : List Nat)
    (h : List.Pairwise (· < ·) l) :
    List.Pairwise (· < ·) (removeNat n l) :=
  List.Pairwise.filter _ h

theorem mem_interNat (a b : List Nat) (m : Nat) :
    m ∈ interNat a b ↔ m ∈ a ∧ m ∈ b := by
  simp [interNat]

theorem interNat_nodup (a b : List Nat) (h : a.Nodup) :
    (interNat a b).Nodup :=
  List.Nodup.filter _ h

theorem natSetMin_singleton (n : Nat) : natSetMin [n] = some n := rfl

theorem nodup_singleton_of_mem_iff {α : Type _} (l : List α) (a : α)
    (hn : l.Nodup) (hm : ∀ x, x ∈ l ↔ x = a) : l = [a] := by
  cases l with
  | nil =>
    exact absurd ((hm a).mpr rfl) (List.not_mem_nil a)
  | cons x xs =>
    have hx : x = a := (hm x).mp (List.mem_cons_self _ _)
    subst hx
    rw [List.nodup_cons] at hn
    cases xs with
    | nil => rfl
    | cons y ys =>
      have hy : y = x := (hm y).mp (List.mem_cons_of_mem _ (List.mem_cons_self _ _))
      subst hy
      exact absurd (List.mem_cons_self _ _) hn.1

theorem mem_dedupKeepFirstGo {α : Type _} [DecidableEq α] :
    ∀ (l seen : List α) (x : α),
      x ∈ dedupKeepFirstGo seen l ↔ x ∈ l ∧ x ∉ seen := by
  intro l
  induction l with
  | nil => intro seen x; simp [dedupKeepFirstGo]
  | cons y ys ih =>
    intro seen x
    rw [dedupKeepFirstGo]
    by_cases hy : seen.contains y = true
    · rw [if_pos hy]
      have hymem : y ∈ seen := List.elem_iff.mp hy
      rw [ih]
      constructor
      · rintro ⟨h1, h2⟩
        exact ⟨List.mem_cons_of_mem _ h1, h2⟩
      · rintro ⟨h1, h2⟩
        rcases List.mem_cons.mp h1 with rfl | h1
        · exact absurd hymem h2
        · exact ⟨h1, h2⟩
    · rw [if_neg hy]
      have hynmem : y ∉ seen := fun hc => hy (List.elem_iff.mpr hc)
      constructor
      · intro hmem
        rcases List.mem_cons.mp hmem with rfl | hmem
        · exact ⟨List.mem_cons_self _ _, hynmem⟩
        · rw [ih] at hmem
          obtain ⟨h1, h2⟩ := hmem
          exact ⟨List.mem_cons_of_mem _ h1,
            fun hc => h2 (List.mem_append.mpr (Or.inl hc))⟩
      · rintro ⟨h1, h2⟩
        rcases List.mem_cons.mp h1 with rfl | h1
        · exact List.mem_cons_self _ _
        · by_cases hxy : x = y
          · subst hxy
            exact List.mem_cons_self _ _
          · apply List.mem_cons_of_mem
            rw [ih]
            refine ⟨h1, fun hc => ?_⟩
            rcases List.mem_append.mp hc with hc | hc
            · exact h2 hc
            · exact hxy (List.mem_singleton.mp hc)

theorem dedupKeepFirstGo_nodup {α : Type _} [DecidableEq α] :
    ∀ (l seen : List α), (dedupKeepFirstGo seen l).Nodup := by
  intro l
  induction l with
  | nil => intro seen; exact List.nodup_nil
  | cons y ys ih =>
    intro seen
    rw [dedupKeepFirstGo]
    by_cases hy : seen.contains y
    · rw [if_pos hy]
      exact ih seen
    · rw [if_neg hy]
      rw [List.nodup_cons]
      refine ⟨?_, ih _⟩
      intro hmem
      rw [mem_dedupKeepFirstGo] at hmem
      exact hmem.2 (List.mem_append.mpr (Or.inr (List.mem_singleton.mpr rfl)))

theorem mem_dedupKeepFirst {α : Type _} [DecidableEq α] (l : List α)
    (x : α) : x ∈ dedupKeepFirst l ↔ x ∈ l := by
  rw [dedupKeepFirst, mem_dedupKeepFirstGo]
  simp

theorem dedupKeepFirst_nodup {α : Type _} [DecidableEq α] (l : List α) :
    (dedupKeepFirst l).Nodup :=
  dedupKeepFirstGo_nodup l []

theorem listSetEq_iff {α : Type _} [DecidableEq α] (l1 l2 : List α) :
    listSetEq l1 l2 = true ↔ (∀ x ∈ l1, x ∈ l2) ∧ ∀ x ∈ l2, x ∈ l1 := by
  simp [listSetEq, List.all_eq_true, List.elem_iff]

theorem mem_initEverything (rs : List (Option DbRecord)) (n : Nat) :
    n ∈ initEverything rs ↔ ((rs.get? n).getD none).isSome = true := by
  rw [initEverything, List.mem_filter, List.mem_range]
  constructor
  · rintro ⟨_, h⟩
    exact h
  · intro h
    refine ⟨?_, h⟩
    by_contra hlen
    rw [List.get?_eq_none.mpr (by omega)] at h
    simp at h

theorem initEverything_pairwise (rs : List (Option DbRecord)) :
    List.Pairwise (· < ·) (initEverything rs) :=
  List.Pairwise.filter _ (List.pairwise_lt_range _)

theorem initEverything_nodup (rs : List (Option DbRecord)) :
    (initEverything rs).Nodup :=
  (initEverything_pairwise rs).imp Nat.ne_of_lt

theorem initEverything_snoc (rs : List (Option DbRecord))
    (x : Option DbRecord) :
    initEverything (rs ++ [x]) =
      initEverything rs ++ (if x.isSome then [rs.length] else []) := by
  rw [initEverything, initEverything, List.length_append, List.length_singleton,
    List.range_succ, List.filter_append]
  congr 1
  · apply List.filter_congr
    intro n hn
    rw [List.mem_range] at hn
    rw [List.get?_append hn]
  · simp only [List.filter_cons, List.filter_nil]
    rw [List.get?_append_right (Nat.le_refl _), Nat.sub_self]
    cases x with
    | none => simp
    | some r => simp

theorem initEverything_set_some (rs : List (Option DbRecord)) (n : Nat)
    (r : DbRecord) (h : ((rs.get? n).getD none).isSome = true) :
    initEverything (rs.set n (some r)) = initEverything rs := by
  rw [initEverything, initEverything, List.length_set]
  apply List.filter_congr
  intro m hm
  rw [List.mem_range] at hm
  by_cases hmn : m = n
  · subst hmn
    cases hg : rs.get? m with
    | none => rw [hg] at h; simp at h
    | some x =>
      rw [List.get?_set_eq, hg]
      cases x with
      | none => rw [hg] at h; simp at h
      | some y => simp
  · rw [List.get?_set_ne _ _ fun hh => hmn hh.symm]

theorem initEverything_set_none (rs : List (Option DbRecord)) (n : Nat)
    (hn : n < rs.length) :
    initEverything (rs.set n none) =
      (initEverything rs).filter fun m => m ≠ n := by
  rw [initEverything, initEverything, List.length_set, List.filter_filter]
  apply List.filter_congr
  intro m hm
  rw [List.mem_range] at hm
  by_cases hmn : m = n
  · subst hmn
    rw [List.get?_set_eq]
    cases hg : rs.get? m <;> simp
  · rw [List.get?_set_ne _ _ fun hh => hmn hh.symm]
    simp [hmn]

theorem mem_recsOf (d : DbDocument) (r : DbRecord) :
    r ∈ recsOf d ↔ some r ∈ d.records := by
  rw [recsOf, List.mem_filterMap]
  constructor
  · rintro ⟨x, hx, hid⟩
    cases x with
    | none => exact Option.noConfusion hid
    | some y => rw [Option.some.inj hid] at hx; exact hx
  · intro h
    exact ⟨some r, h, rfl⟩

theorem initEverything_length (rs : List (Option DbRecord)) :
    (initEverything rs).length = (rs.filterMap id).length := by
  induction rs using List.reverseRecOn with
  | nil => rfl
  | append_singleton rs x ih =>
    rw [initEverything_snoc, List.length_append, List.filterMap_append, List.length_append, ih]
    cases x with
    | none => simp
    | some r => simp

theorem RecCanon_filter (r : DbRecord) (P : String × Val → Bool)
    (hc : RecCanon r) : RecCanon (r.filter P) :=
  List.Pairwise.sublist (List.Sublist.map _ (List.filter_sublist r)) hc

theorem keys_filter_subset (P : String × Val → Bool) (r : DbRecord) :
    ∀ x ∈ (r.filter P).map Prod.fst, x ∈ r.map Prod.fst := by
  intro x hx
  rw [List.mem_map] at hx ⊢
  obtain ⟨kv, hkv, hfst⟩ := hx
  exact ⟨kv, (List.mem_filter.mp hkv).1, hfst⟩

theorem rget_filter (P : String × Val → Bool) :
    ∀ (r : DbRecord), RecCanon r → ∀ (f : String),
      rget (r.filter P) f =
        (rget r f).bind fun v => if P (f, v) then some v else none := by
  intro r
  induction r with
  | nil => intro _ f; rfl
  | cons kv tl ih =>
    obtain ⟨k0, v0⟩ := kv
    intro hc f
    rw [RecCanon, List.map_cons, StrSorted, List.pairwise_cons] at hc
    rw [List.filter_cons]
    by_cases hP : P (k0, v0) = true
    · rw [if_pos hP]
      simp only [rget, alGet]
      by_cases hf : k0 = f
      · subst hf
        rw [if_pos rfl, if_pos rfl]
        simp only [Option.some_bind]
        rw [if_pos hP]
      · rw [if_neg hf, if_neg hf]
        exact ih hc.2 f
    · rw [if_neg hP]
      by_cases hf : k0 = f
      · subst hf
        have hnone : rget (tl.filter P) k0 = none := by
          apply rget_none_of_not_mem
          intro hmem
          have hsub : k0 ∈ tl.map Prod.fst := keys_filter_subset P tl k0 hmem
          have := hc.1 k0 hsub
          rw [ltStr_irrefl] at this
          exact Bool.false_ne_true this
        have hhead : rget ((k0, v0) :: tl) k0 = some v0 := by
          simp [rget, alGet]
        rw [hnone, hhead]
        simp only [Option.some_bind]
        rw [if_neg hP]
      · simp only [rget, alGet, if_neg hf]
        exact ih hc.2 f

theorem rget_of_mem_canon :
    ∀ (r : DbRecord), RecCanon r → ∀ (k : String) (v : Val),
      (k, v) ∈ r → rget r k = some v := by
  intro r
  induction r with
  | nil => intro _ k v h; exact absurd h (List.not_mem_nil _)
  | cons kv tl ih =>
    obtain ⟨k0, v0⟩ := kv
    intro hc k v h
    rw [RecCanon, List.map_cons, StrSorted, List.pairwise_cons] at hc
    rcases List.mem_cons.mp h with heq | h
    · have h1 : k = k0 := congrArg Prod.fst heq
      have h2 : v = v0 := congrArg Prod.snd heq
      simp only [rget, alGet]
      rw [if_pos h1.symm, h2]
    · have hk : k0 ≠ k := by
        intro hk
        subst hk
        have hmem : k0 ∈ tl.map Prod.fst :=
          List.mem_map.mpr ⟨(k0, v), h, rfl⟩
        have := hc.1 k0 hmem
        rw [ltStr_irrefl] at this
        exact Bool.false_ne_true this
      simp only [rget, alGet]
      rw [if_neg hk]
      exact ih hc.2 k v h

theorem mem_of_rget :
    ∀ (r : DbRecord) (k : String) (v : Val), rget r k = some v →
      (k, v) ∈ r := by
  intro r
  induction r with
  | nil => intro k v h; exact Option.noConfusion h
  | cons kv tl ih =>
    obtain ⟨k0, v0⟩ := kv
    intro k v h
    simp only [rget, alGet] at h
    by_cases hk : k0 = k
    · rw [if_pos hk] at h
      subst hk
      rw [Option.some.inj h]
      exact List.mem_cons_self _ _
    · rw [if_neg hk] at h
      exact List.mem_cons_of_mem _ (ih k v h)

theorem rget_primaryKeyCols (pks : List String) (r : DbRecord)
    (hc : RecCanon r) (f : String) :
    rget (primaryKeyCols pks r) f =
      (rget r f).bind fun v =>
        if pks.contains f = true then some v else none := by
  rw [primaryKeyCols, rget_filter _ r hc f]

theorem RecCanon_primaryKeyCols (pks : List String) (r : DbRecord)
    (hc : RecCanon r) : RecCanon (primaryKeyCols pks r) :=
  RecCanon_filter r _ hc

theorem pkcols_eq_iff (pks : List String) (ra rb : DbRecord)
    (hca : RecCanon ra) (hcb : RecCanon rb) :
    primaryKeyCols pks ra = primaryKeyCols pks rb ↔
      ∀ f ∈ pks, rget ra f = rget rb f := by
  constructor
  · intro h f hf
    have h1 := rget_primaryKeyCols pks ra hca f
    have h2 := rget_primaryKeyCols pks rb hcb f
    rw [h] at h1
    rw [h1] at h2
    have hcont : pks.contains f = true := List.elem_iff.mpr hf
    cases hga : rget ra f with
    | none =>
      cases hgb : rget rb f with
      | none => rfl
      | some vb =>
        rw [hga, hgb] at h2
        simp only [Option.some_bind, Option.none_bind] at h2
        rw [if_pos hcont] at h2
        exact Option.noConfusion h2
    | some va =>
      cases hgb : rget rb f with
      | none =>
        rw [hga, hgb] at h2
        simp only [Option.some_bind, Option.none_bind] at h2
        rw [if_pos hcont] at h2
        exact Option.noConfusion h2.symm
      | some vb =>
        rw [hga, hgb] at h2
        simp only [Option.some_bind] at h2
        rw [if_pos hcont, if_pos hcont] at h2
        rw [h2]
  · intro h
    apply rec_ext _ _ (RecCanon_primaryKeyCols pks ra hca)
      (RecCanon_primaryKeyCols pks rb hcb)
    intro f
    rw [rget_primaryKeyCols pks ra hca f, rget_primaryKeyCols pks rb hcb f]
    by_cases hcont : pks.contains f = true
    · rw [h f (List.elem_iff.mp hcont)]
    · cases hga : rget ra f with
      | none =>
        cases hgb : rget rb f with
        | none => rfl
        | some vb =>
          simp only [Option.some_bind, Option.none_bind]
          rw [if_neg hcont]
      | some va =>
        cases hgb : rget rb f with
        | none =>
          simp only [Option.some_bind, Option.none_bind]
          rw [if_neg hcont]
        | some vb =>
          simp only [Option.some_bind]
          rw [if_neg hcont, if_neg hcont]

theorem parse_clean (d : DbDocument) (r : DbRecord)
    (hc : RecCanon r) (hnn : ∀ f v, rget r f = some v → v ≠ .vnull) :
    d.parse r = (primaryKeyCols d.primaryKeys r,
      r.filter fun kv => ¬ d.primaryKeys.contains kv.1) := by
  rw [DbDocument.parse, primaryKeyCols]
  congr 1
  apply List.filter_congr
  intro kv hkv
  obtain ⟨k, v⟩ := kv
  have hv : v ≠ .vnull := hnn k v (rget_of_mem_canon r hc k v hkv)
  by_cases hcont : d.primaryKeys.contains k = true
  · simp [hcont, hv]
  · rw [Bool.not_eq_true] at hcont
    have hk : ¬ k ∈ d.primaryKeys := fun hh => by
      have hx : d.primaryKeys.contains k = true := List.elem_iff.mpr hh
      rw [hcont] at hx
      exact Bool.false_ne_true hx
    simp [hcont, hk]

theorem mem_everything_iff (d : DbDocument) (hC : Clean d) (m : Nat) :
    m ∈ d.everything ↔ ∃ r, d.records.get? m = some (some r) := by
  rw [hC.ev, mem_initEverything]
  cases hg : d.records.get? m with
  | none =>
    simp only [Option.getD_none, Option.isSome_none]
    constructor
    · intro h; exact Bool.noConfusion h
    · rintro ⟨r, hr⟩; exact Option.noConfusion hr
  | some x =>
    cases x with
    | none =>
      simp only [Option.getD_some, Option.isSome_none]
      constructor
      · intro h; exact Bool.noConfusion h
      · rintro ⟨r, hr⟩; exact Option.noConfusion (Option.some.inj hr)
    | some r =>
      simp only [Option.getD_some, Option.isSome_some, Option.some.injEq,
        true_iff]
      exact ⟨r, rfl⟩

theorem everything_nodup (d : DbDocument) (hC : Clean d) :
    d.everything.Nodup := by
  rw [hC.ev]
  exact initEverything_nodup d.records

theorem selectLoop_go_spec (d : DbDocument) (hC : Clean d) (nn : Nat)
    (hnn : nn ≠ 1) :
    ∀ (w : List (String × Val)) (racc : List Nat),
      (∀ kv ∈ w, kv.1 ∈ d.primaryKeys ∧ kv.2 ≠ Val.vnull) →
      racc.Nodup →
      ∃ ms, selectLoop d nn w (some racc) = some ms ∧ ms.Nodup ∧
        ∀ m, m ∈ ms ↔ m ∈ racc ∧ rowMatches d w m := by
  intro w
  induction w with
  | nil =>
    intro racc _ hnd
    have hstep : selectLoop d nn [] (some racc) = some racc := rfl
    refine ⟨racc, hstep, hnd, fun m => ?_⟩
    simp [rowMatches]
  | cons kv rest ih =>
    obtain ⟨f, v⟩ := kv
    intro racc hw hnd
    obtain ⟨hfpk, hvnn⟩ := hw (f, v) (List.mem_cons_self _ _)
    obtain ⟨index, hidx, hknd, hbuck⟩ := hC.idx f hfpk
    obtain ⟨hbnd, hbmem⟩ := hbuck v hvnn
    cases hvl : vlGet index (toKey v) with
    | none =>
      have hstep : selectLoop d nn ((f, v) :: rest) (some racc) = some [] := by
        simp only [selectLoop, hidx, hvl]
      refine ⟨[], hstep, List.nodup_nil, fun m => ?_⟩
      simp only [List.not_mem_nil, false_iff]
      rintro ⟨_, hmat⟩
      obtain ⟨r, hr, hrg⟩ := hmat (f, v) (List.mem_cons_self _ _)
      have : m ∈ (vlGet index (toKey v)).getD [] := (hbmem m).mpr ⟨r, hr, hrg⟩
      rw [hvl] at this
      exact absurd this (List.not_mem_nil m)
    | some b =>
      have hstep : selectLoop d nn ((f, v) :: rest) (some racc) =
          selectLoop d nn rest (some (interNat racc b)) := by
        simp only [selectLoop, hidx, hvl, if_neg hnn]
      obtain ⟨ms, hms, hmsnd, hmsm⟩ := ih (interNat racc b)
        (fun kv2 h2 => hw kv2 (List.mem_cons_of_mem _ h2))
        (interNat_nodup racc b hnd)
      refine ⟨ms, hstep.trans hms, hmsnd, fun m => ?_⟩
      rw [hmsm m, mem_interNat]
      have hmb : m ∈ b ↔ ∃ r, d.records.get? m = some (some r) ∧
          rget r f = some v := by
        rw [← hbmem m, hvl]
        rfl
      constructor
      · rintro ⟨⟨h1, h2⟩, h3⟩
        refine ⟨h1, fun kv2 hkv2 => ?_⟩
        rcases List.mem_cons.mp hkv2 with rfl | hkv2
        · exact hmb.mp h2
        · exact h3 kv2 hkv2
      · rintro ⟨h1, h2⟩
        refine ⟨⟨h1, hmb.mpr (h2 (f, v) (List.mem_cons_self _ _))⟩,
          fun kv2 hkv2 => h2 kv2 (List.mem_cons_of_mem _ hkv2)⟩

theorem select_spec (d : DbDocument) (hC : Clean d) (w : DbRecord)
    (hw : ∀ kv ∈ w, kv.1 ∈ d.primaryKeys ∧ kv.2 ≠ Val.vnull) :
    ∃ ms, d.select w = some ms ∧ ms.Nodup ∧
      ∀ m, m ∈ ms ↔ (∃ r, d.records.get? m = some (some r)) ∧
        rowMatches d w m := by
  rw [DbDocument.select]
  match w, hw with
  | [], _ =>
    have hstep : selectLoop d (jsLen ([] : DbRecord)) [] none =
        some d.everything := rfl
    refine ⟨d.everything, hstep, everything_nodup d hC, fun m => ?_⟩
    rw [mem_everything_iff d hC m]
    simp [rowMatches]
  | [(f, v)], hw =>
    obtain ⟨hfpk, hvnn⟩ := hw (f, v) (List.mem_cons_self _ _)
    obtain ⟨index, hidx, hknd, hbuck⟩ := hC.idx f hfpk
    obtain ⟨hbnd, hbmem⟩ := hbuck v hvnn
    have hlen : jsLen [(f, v)] = 1 := rfl
    cases hvl : vlGet index (toKey v) with
    | none =>
      have hstep : selectLoop d (jsLen [(f, v)]) [(f, v)] none = some [] := by
        simp only [selectLoop, hidx, hvl]
      refine ⟨[], hstep, List.nodup_nil, fun m => ?_⟩
      simp only [List.not_mem_nil, false_iff]
      rintro ⟨_, hmat⟩
      obtain ⟨r, hr, hrg⟩ := hmat (f, v) (List.mem_cons_self _ _)
      have : m ∈ (vlGet index (toKey v)).getD [] := (hbmem m).mpr ⟨r, hr, hrg⟩
      rw [hvl] at this
      exact absurd this (List.not_mem_nil m)
    | some b =>
      have hstep : selectLoop d (jsLen [(f, v)]) [(f, v)] none = some b := by
        simp only [selectLoop, hidx, hvl, if_pos hlen]
      have hmb : ∀ m, m ∈ b ↔ ∃ r, d.records.get? m = some (some r) ∧
          rget r f = some v := by
        intro m
        rw [← hbmem m, hvl]
        rfl
      refine ⟨b, hstep, ?_, fun m => ?_⟩
      · have := hbnd
        rw [hvl] at this
        exact this.imp Nat.ne_of_lt
      · rw [hmb m]
        constructor
        · rintro ⟨r, hr, hrg⟩
          refine ⟨⟨r, hr⟩, fun kv2 hkv2 => ?_⟩
          rcases List.mem_cons.mp hkv2 with rfl | hkv2
          · exact ⟨r, hr, hrg⟩
          · exact absurd hkv2 (List.not_mem_nil kv2)
        · rintro ⟨_, hmat⟩
          exact hmat (f, v) (List.mem_cons_self _ _)
  | (f, v) :: kv2 :: rest, hw =>
    obtain ⟨hfpk, hvnn⟩ := hw (f, v) (List.mem_cons_self _ _)
    obtain ⟨index, hidx, hknd, hbuck⟩ := hC.idx f hfpk
    obtain ⟨hbnd, hbmem⟩ := hbuck v hvnn
    have hnn : jsLen ((f, v) :: kv2 :: rest) ≠ 1 := by
      simp [jsLen]
    cases hvl : vlGet index (toKey v) with
    | none =>
      have hstep : selectLoop d (jsLen ((f, v) :: kv2 :: rest))
          ((f, v) :: kv2 :: rest) none = some [] := by
        simp only [selectLoop, hidx, hvl]
      refine ⟨[], hstep, List.nodup_nil, fun m => ?_⟩
      simp only [List.not_mem_nil, false_iff]
      rintro ⟨_, hmat⟩
      obtain ⟨r, hr, hrg⟩ := hmat (f, v) (List.mem_cons_self _ _)
      have : m ∈ (vlGet index (toKey v)).getD [] := (hbmem m).mpr ⟨r, hr, hrg⟩
      rw [hvl] at this
      exact absurd this (List.not_mem_nil m)
    | some b =>
      have hstep : selectLoop d (jsLen ((f, v) :: kv2 :: rest))
          ((f, v) :: kv2 :: rest) none =
          selectLoop d (jsLen ((f, v) :: kv2 :: rest)) (kv2 :: rest)
            (some b) := by
        simp only [selectLoop, hidx, hvl, if_neg hnn]
      have hbnd' : b.Nodup := by
        have := hbnd
        rw [hvl] at this
        exact this.imp Nat.ne_of_lt
      have hmb : ∀ m, m ∈ b ↔ ∃ r, d.records.get? m = some (some r) ∧
          rget r f = some v := by
        intro m
        rw [← hbmem m, hvl]
        rfl
      obtain ⟨ms, hms, hmsnd, hmsm⟩ := selectLoop_go_spec d hC _ hnn
        (kv2 :: rest) b (fun kv3 h3 => hw kv3 (List.mem_cons_of_mem _ h3))
        hbnd'
      refine ⟨ms, hstep.trans hms, hmsnd, fun m => ?_⟩
      rw [hmsm m, hmb m]
      constructor
      · rintro ⟨⟨r, hr, hrg⟩, h3⟩
        refine ⟨⟨r, hr⟩, fun kv3 hkv3 => ?_⟩
        rcases List.mem_cons.mp hkv3 with rfl | hkv3
        · exact ⟨r, hr, hrg⟩
        · exact h3 kv3 hkv3
      · rintro ⟨_, hmat⟩
        exact ⟨hmat (f, v) (List.mem_cons_self _ _),
          fun kv3 hkv3 => hmat kv3 (List.mem_cons_of_mem _ hkv3)⟩

theorem select_unique (d : DbDocument) (hC : Clean d) (w : DbRecord)
    (hw : ∀ kv ∈ w, kv.1 ∈ d.primaryKeys ∧ kv.2 ≠ Val.vnull) (n₀ : Nat)
    (huniq : ∀ m, ((∃ r, d.records.get? m = some (some r)) ∧
      rowMatches d w m) ↔ m = n₀) :
    d.select w = some [n₀] := by
  obtain ⟨ms, hms, hnd, hmem⟩ := select_spec d hC w hw
  rw [hms]
  congr 1
  apply nodup_singleton_of_mem_iff ms n₀ hnd
  intro m
  rw [hmem m, huniq m]

theorem select_none (d : DbDocument) (hC : Clean d) (w : DbRecord)
    (hw : ∀ kv ∈ w, kv.1 ∈ d.primaryKeys ∧ kv.2 ≠ Val.vnull)
    (hno : ∀ m, ¬ ((∃ r, d.records.get? m = some (some r)) ∧
      rowMatches d w m)) :
    d.select w = some [] := by
  obtain ⟨ms, hms, hnd, hmem⟩ := select_spec d hC w hw
  rw [hms]
  congr 1
  cases hcase : ms with
  | nil => rfl
  | cons x xs =>
    have : x ∈ ms := hcase ▸ List.mem_cons_self _ _
    rw [hmem x] at this
    exact absurd this (hno x)

theorem applySetFields_cons (sdiff : StrDiff) (stringCols : List String)
    (before record : DbRecord) (field : String) (value : Val)
    (rest : List (String × Val)) :
    applySetFields sdiff stringCols before record ((field, value) :: rest) =
      (if value = .vnull then
        applySetFields sdiff stringCols before (rdel record field) rest
      else if stringCols.contains field then
        if isArrVal value then
          match (match rget before field with
            | some (.vstr s) => some s
            | some .vnull => some ""
            | none => some ""
            | some _ => none) with
          | none => none
          | some baseStr =>
            applySetFields sdiff stringCols before
              (rset record field (.vstr (sdiff.applyPatch value baseStr).1))
              rest
        else
          match value with
          | .vstr _ =>
            applySetFields sdiff stringCols before
              (rset record field value) rest
          | _ => none
      else
        match rget record field, value with
        | some (.vobj curM), .vobj chM =>
          applySetFields sdiff stringCols before
            (rset record field (.vobj (mergeSet curM chM))) rest
        | _, _ =>
          applySetFields sdiff stringCols before
            (rset record field value) rest) := rfl

theorem applySetFields_spec (sdiff : StrDiff) (sc : List String)
    (r₀ : DbRecord) :
    ∀ (l : List (String × Val)) (record : DbRecord),
      RecCanon record →
      (l.map Prod.fst).Nodup →
      (∀ f ∈ l.map Prod.fst, rget record f = rget r₀ f) →
      (∀ kv ∈ l, setFieldOutcome sdiff sc r₀ kv.1 kv.2 ≠ none) →
      ∃ r', applySetFields sdiff sc r₀ record l = some r' ∧
        RecCanon r' ∧
        (∀ f value, alGet l f = some value →
          rget r' f = (setFieldOutcome sdiff sc r₀ f value).getD none) ∧
        (∀ f, alGet l f = none → rget r' f = rget record f) := by
  intro l
  induction l with
  | nil =>
    intro record hrc _ _ _
    exact ⟨record, rfl, hrc, fun f value hv => Option.noConfusion hv,
      fun f _ => rfl⟩
  | cons kv rest ih =>
    obtain ⟨f, value⟩ := kv
    intro record hrc hnd hagree hok
    rw [List.map_cons, List.nodup_cons] at hnd
    have hfok := hok (f, value) (List.mem_cons_self _ _)
    -- one step: the record after processing (f, value), together with the
    -- branch equation and the recorded outcome
    have hmain : ∃ record', applySetFields sdiff sc r₀ record
        ((f, value) :: rest) = applySetFields sdiff sc r₀ record' rest ∧
        RecCanon record' ∧
        rget record' f = (setFieldOutcome sdiff sc r₀ f value).getD none ∧
        ∀ g, g ≠ f → rget record' g = rget record g := by
      by_cases hnull : value = Val.vnull
      · refine ⟨rdel record f, ?_, RecCanon_rdel record f hrc, ?_, ?_⟩
        · rw [applySetFields_cons, if_pos hnull]
        · rw [rget_rdel_self record f hrc, setFieldOutcome.eq_def, if_pos hnull]
          rfl
        · intro g hg
          exact rget_rdel_ne record f g hg
      · by_cases hsc : sc.contains f = true
        · by_cases harr : isArrVal value = true
          · cases hr₀ : rget r₀ f with
            | none =>
              refine ⟨rset record f (.vstr (sdiff.applyPatch value "").1),
                ?_, RecCanon_rset record f _ hrc, ?_, ?_⟩
              · rw [applySetFields_cons, if_neg hnull, if_pos hsc, if_pos harr,
                  hr₀]
              · rw [rget_rset_self, setFieldOutcome.eq_def, if_neg hnull,
                  if_pos hsc, if_pos harr, hr₀]
                rfl
              · intro g hg
                exact rget_rset_ne record f g _ hg
            | some v₀ =>
              cases v₀ with
              | vstr s =>
                refine ⟨rset record f (.vstr (sdiff.applyPatch value s).1),
                  ?_, RecCanon_rset record f _ hrc, ?_, ?_⟩
                · rw [applySetFields_cons, if_neg hnull, if_pos hsc, if_pos harr,
                    hr₀]
                · rw [rget_rset_self, setFieldOutcome.eq_def, if_neg hnull,
                    if_pos hsc, if_pos harr, hr₀]
                  rfl
                · intro g hg
                  exact rget_rset_ne record f g _ hg
              | vnull =>
                refine ⟨rset record f (.vstr (sdiff.applyPatch value "").1),
                  ?_, RecCanon_rset record f _ hrc, ?_, ?_⟩
                · rw [applySetFields_cons, if_neg hnull, if_pos hsc, if_pos harr,
                    hr₀]
                · rw [rget_rset_self, setFieldOutcome.eq_def, if_neg hnull,
                    if_pos hsc, if_pos harr, hr₀]
                  rfl
                · intro g hg
                  exact rget_rset_ne record f g _ hg
              | vbool b =>
                exact absurd (by rw [setFieldOutcome.eq_def, if_neg hnull,
                  if_pos hsc, if_pos harr, hr₀]) hfok
              | vnum n =>
                exact absurd (by rw [setFieldOutcome.eq_def, if_neg hnull,
                  if_pos hsc, if_pos harr, hr₀]) hfok
              | varr xs =>
                exact absurd (by rw [setFieldOutcome.eq_def, if_neg hnull,
                  if_pos hsc, if_pos harr, hr₀]) hfok
              | vobj m =>
                exact absurd (by rw [setFieldOutcome.eq_def, if_neg hnull,
                  if_pos hsc, if_pos harr, hr₀]) hfok
          · cases value with
            | vstr sv =>
              refine ⟨rset record f (.vstr sv), ?_,
                RecCanon_rset record f _ hrc, ?_, ?_⟩
              · rw [applySetFields_cons, if_neg hnull, if_pos hsc, if_neg harr]
              · rw [rget_rset_self, setFieldOutcome.eq_def, if_neg hnull,
                  if_pos hsc, if_neg harr]
                rfl
              · intro g hg
                exact rget_rset_ne record f g _ hg
            | vnull => exact absurd rfl hnull
            | vbool b =>
              exact absurd (by rw [setFieldOutcome.eq_def, if_neg hnull,
                if_pos hsc, if_neg harr]) hfok
            | vnum n =>
              exact absurd (by rw [setFieldOutcome.eq_def, if_neg hnull,
                if_pos hsc, if_neg harr]) hfok
            | varr xs => exact absurd (rfl : isArrVal (Val.varr xs) = true) harr
            | vobj m =>
              exact absurd (by rw [setFieldOutcome.eq_def, if_neg hnull,
                if_pos hsc, if_neg harr]) hfok
          -- a string is never an array value, so the vstr fall-through is
          -- the only admissible non-array string-column branch
        · have hag : rget record f = rget r₀ f :=
            hagree f (by rw [List.map_cons]; exact List.mem_cons_self _ _)
          cases hr₀ : rget r₀ f with
          | none =>
            refine ⟨rset record f value, ?_,
              RecCanon_rset record f _ hrc, ?_, ?_⟩
            · rw [applySetFields_cons, if_neg hnull, if_neg hsc, hag, hr₀]
            · rw [rget_rset_self, setFieldOutcome.eq_def, if_neg hnull,
                if_neg hsc, hr₀]
              cases value <;> rfl
            · intro g hg
              exact rget_rset_ne record f g _ hg
          | some v₀ =>
            by_cases hobj : (∃ curM, v₀ = Val.vobj curM) ∧
                ∃ chM, value = Val.vobj chM
            · obtain ⟨⟨curM, rfl⟩, ⟨chM, rfl⟩⟩ := hobj
              refine ⟨rset record f (.vobj (mergeSet curM chM)), ?_,
                RecCanon_rset record f _ hrc, ?_, ?_⟩
              · rw [applySetFields_cons, if_neg hnull, if_neg hsc, hag, hr₀]
              · rw [rget_rset_self, setFieldOutcome.eq_def, if_neg hnull,
                  if_neg hsc, hr₀]
                rfl
              · intro g hg
                exact rget_rset_ne record f g _ hg
            · refine ⟨rset record f value, ?_,
                RecCanon_rset record f _ hrc, ?_, ?_⟩
              · rw [applySetFields_cons, if_neg hnull, if_neg hsc, hag, hr₀]
                cases v₀ with
                | vobj curM =>
                  cases value with
                  | vobj chM => exact absurd ⟨⟨curM, rfl⟩, chM, rfl⟩ hobj
                  | vnull => rfl
                  | vbool b => rfl
                  | vnum n => rfl
                  | vstr sx => rfl
                  | varr xs => rfl
                | vnull => cases value <;> rfl
                | vbool b => cases value <;> rfl
                | vnum n => cases value <;> rfl
                | vstr sx => cases value <;> rfl
                | varr xs => cases value <;> rfl
              · rw [rget_rset_self, setFieldOutcome.eq_def, if_neg hnull,
                  if_neg hsc, hr₀]
                cases v₀ with
                | vobj curM =>
                  cases value with
                  | vobj chM => exact absurd ⟨⟨curM, rfl⟩, chM, rfl⟩ hobj
                  | vnull => rfl
                  | vbool b => rfl
                  | vnum n => rfl
                  | vstr sx => rfl
                  | varr xs => rfl
                | vnull => cases value <;> rfl
                | vbool b => cases value <;> rfl
                | vnum n => cases value <;> rfl
                | vstr sx => cases value <;> rfl
                | varr xs => cases value <;> rfl
              · intro g hg
                exact rget_rset_ne record f g _ hg
    obtain ⟨record', hstep, hrc', hfval, hother⟩ := hmain
    have hagree' : ∀ g ∈ rest.map Prod.fst, rget record' g = rget r₀ g := by
      intro g hg
      have hgf : g ≠ f := fun hh => hnd.1 (hh ▸ hg)
      rw [hother g hgf]
      exact hagree g (by rw [List.map_cons]; exact List.mem_cons_of_mem _ hg)
    obtain ⟨r', hrec, hr'c, hsome, hnone⟩ := ih record' hrc' hnd.2 hagree'
      (fun kv2 h2 => hok kv2 (List.mem_cons_of_mem _ h2))
    refine ⟨r', hstep.trans hrec, hr'c, ?_, ?_⟩
    · intro g gv hget
      simp only [alGet] at hget
      by_cases hgf : f = g
      · subst hgf
        rw [if_pos rfl] at hget
        have hgv : gv = value := (Option.some.inj hget).symm
        subst hgv
        have hrest : alGet rest f = none := by
          apply rget_none_of_not_mem
          exact hnd.1
        rw [hnone f hrest]
        exact hfval
      · rw [if_neg hgf] at hget
        exact hsome g gv hget
    · intro g hget
      simp only [alGet] at hget
      by_cases hgf : f = g
      · rw [if_pos hgf] at hget
        exact Option.noConfusion hget
      · rw [if_neg hgf] at hget
        rw [hnone g hget]
        exact hother g fun hh => hgf hh.symm

theorem cpoStep2_outcome (sdiff : StrDiff) (stringCols : List String)
    (fromR obj : DbRecord) (key : String) (v : Val) :
    cpoStep2 sdiff stringCols fromR obj (key, v) =
      match cpoOutcome sdiff stringCols fromR key v with
      | none => obj
      | some w => rset obj key w := by
  by_cases hde : deepEqualOpt (rget fromR key) (some v) = true
  · rw [cpoStep2, cpoOutcome.eq_def]
    simp only
    rw [if_pos hde, if_pos hde]
  · by_cases hguard : (stringCols.contains key &&
        (match rget fromR key with
         | some fv => decide (fv ≠ Val.vnull)
         | none => false) &&
        decide (v ≠ Val.vnull)) = true
    · rw [cpoStep2, cpoOutcome.eq_def]
      simp only
      rw [if_neg hde, if_neg hde, if_pos hguard, if_pos hguard]
      cases hfv : rget fromR key with
      | none => cases v <;> rfl
      | some fv =>
        cases fv <;> cases v <;> rfl
    · rw [cpoStep2, cpoOutcome.eq_def]
      simp only
      rw [if_neg hde, if_neg hde, if_neg hguard, if_neg hguard]
      cases hfv : rget fromR key with
      | none => cases v <;> rfl
      | some fv =>
        cases fv <;> cases v <;> rfl

theorem cpoLoop1_spec (toR : DbRecord) :
    ∀ (L : List (String × Val)) (c : DbRecord), RecCanon c →
      RecCanon (L.foldl (cpoStep1 toR) c) ∧
      ∀ g, rget (L.foldl (cpoStep1 toR) c) g =
        if g ∈ L.map Prod.fst ∧
            (rget toR g = none ∨ rget toR g = some .vnull) then
          some .vnull
        else rget c g := by
  intro L
  induction L with
  | nil =>
    intro c hc
    refine ⟨hc, fun g => ?_⟩
    rw [if_neg]
    · rfl
    · rintro ⟨hg, _⟩
      simp at hg
  | cons kv rest ih =>
    obtain ⟨key, v⟩ := kv
    intro c hc
    rw [List.foldl_cons]
    have hstep : cpoStep1 toR c (key, v) =
        if rget toR key = none ∨ rget toR key = some .vnull then
          rset c key .vnull
        else c := by
      cases hg : rget toR key with
      | none => rw [cpoStep1, hg, if_pos (Or.inl rfl)]
      | some w =>
        cases w with
        | vnull => rw [cpoStep1, hg, if_pos (Or.inr rfl)]
        | vbool b =>
          rw [cpoStep1, hg, if_neg]
          rintro (h | h)
          · exact Option.noConfusion h
          · exact Val.noConfusion (Option.some.inj h)
        | vnum n =>
          rw [cpoStep1, hg, if_neg]
          rintro (h | h)
          · exact Option.noConfusion h
          · exact Val.noConfusion (Option.some.inj h)
        | vstr sx =>
          rw [cpoStep1, hg, if_neg]
          rintro (h | h)
          · exact Option.noConfusion h
          · exact Val.noConfusion (Option.some.inj h)
        | varr xs =>
          rw [cpoStep1, hg, if_neg]
          rintro (h | h)
          · exact Option.noConfusion h
          · exact Val.noConfusion (Option.some.inj h)
        | vobj m =>
          rw [cpoStep1, hg, if_neg]
          rintro (h | h)
          · exact Option.noConfusion h
          · exact Val.noConfusion (Option.some.inj h)
    have hc' : RecCanon (cpoStep1 toR c (key, v)) := by
      rw [hstep]
      by_cases hcond : rget toR key = none ∨ rget toR key = some Val.vnull
      · rw [if_pos hcond]; exact RecCanon_rset c key _ hc
      · rw [if_neg hcond]; exact hc
    obtain ⟨hcan, hget⟩ := ih (cpoStep1 toR c (key, v)) hc'
    refine ⟨hcan, fun g => ?_⟩
    rw [hget g]
    by_cases hmem : g ∈ rest.map Prod.fst ∧
        (rget toR g = none ∨ rget toR g = some Val.vnull)
    · rw [if_pos hmem, if_pos ⟨by
        rw [List.map_cons]
        exact List.mem_cons_of_mem _ hmem.1, hmem.2⟩]
    · rw [if_neg hmem]
      by_cases hgk : g = key
      · subst hgk
        by_cases hcond : rget toR g = none ∨ rget toR g = some Val.vnull
        · rw [hstep, if_pos hcond, rget_rset_self, if_pos ⟨by
            rw [List.map_cons]
            exact List.mem_cons_self _ _, hcond⟩]
        · rw [hstep, if_neg hcond, if_neg]
          rintro ⟨_, hc2⟩
          exact hcond hc2
      · have hx : rget (cpoStep1 toR c (key, v)) g = rget c g := by
          rw [hstep]
          by_cases hcond : rget toR key = none ∨ rget toR key = some Val.vnull
          · rw [if_pos hcond]
            exact rget_rset_ne c key g _ hgk
          · rw [if_neg hcond]
        rw [hx, if_neg]
        rintro ⟨hin, hc2⟩
        rw [List.map_cons] at hin
        rcases List.mem_cons.mp hin with rfl | hin'
        · exact hgk rfl
        · exact hmem ⟨hin', hc2⟩

theorem cpoLoop2_spec (sdiff : StrDiff) (stringCols : List String)
    (fromR : DbRecord) :
    ∀ (L : List (String × Val)) (c : DbRecord), RecCanon c →
      (L.map Prod.fst).Nodup →
      RecCanon (L.foldl (cpoStep2 sdiff stringCols fromR) c) ∧
      (∀ g v w, alGet L g = some v →
        cpoOutcome sdiff stringCols fromR g v = some w →
        rget (L.foldl (cpoStep2 sdiff stringCols fromR) c) g = some w) ∧
      (∀ g v, alGet L g = some v →
        cpoOutcome sdiff stringCols fromR g v = none →
        rget (L.foldl (cpoStep2 sdiff stringCols fromR) c) g = rget c g) ∧
      (∀ g, alGet L g = none →
        rget (L.foldl (cpoStep2 sdiff stringCols fromR) c) g = rget c g) := by
  intro L
  induction L with
  | nil =>
    intro c hc _
    exact ⟨hc, fun g v w hv _ => Option.noConfusion hv,
      fun g v hv _ => Option.noConfusion hv, fun g _ => rfl⟩
  | cons kv rest ih =>
    obtain ⟨key, v⟩ := kv
    intro c hc hnd
    rw [List.map_cons, List.nodup_cons] at hnd
    rw [List.foldl_cons]
    have hck : ∀ w, cpoOutcome sdiff stringCols fromR key v = some w →
        rget (cpoStep2 sdiff stringCols fromR c (key, v)) key = some w := by
      intro w how
      rw [cpoStep2_outcome, how, rget_rset_self]
    have hcn : cpoOutcome sdiff stringCols fromR key v = none →
        rget (cpoStep2 sdiff stringCols fromR c (key, v)) key =
          rget c key := by
      intro how
      rw [cpoStep2_outcome, how]
    have hcg : ∀ g, g ≠ key →
        rget (cpoStep2 sdiff stringCols fromR c (key, v)) g = rget c g := by
      intro g hg
      rw [cpoStep2_outcome]
      cases ho : cpoOutcome sdiff stringCols fromR key v with
      | none => rfl
      | some w => exact rget_rset_ne c key g w hg
    have hc' : RecCanon (cpoStep2 sdiff stringCols fromR c (key, v)) := by
      rw [cpoStep2_outcome]
      cases cpoOutcome sdiff stringCols fromR key v with
      | none => exact hc
      | some w => exact RecCanon_rset c key w hc
    obtain ⟨hcan, ih1, ih2, ih3⟩ := ih
      (cpoStep2 sdiff stringCols fromR c (key, v)) hc' hnd.2
    have hrest : alGet rest key = none :=
      rget_none_of_not_mem rest key hnd.1
    refine ⟨hcan, ?_, ?_, ?_⟩
    · intro g v2 w hv2 how
      simp only [alGet] at hv2
      by_cases hkg : key = g
      · subst hkg
        rw [if_pos rfl] at hv2
        have : v2 = v := (Option.some.inj hv2).symm
        subst this
        rw [ih3 key hrest]
        exact hck w how
      · rw [if_neg hkg] at hv2
        exact ih1 g v2 w hv2 how
    · intro g v2 hv2 how
      simp only [alGet] at hv2
      by_cases hkg : key = g
      · subst hkg
        rw [if_pos rfl] at hv2
        have : v2 = v := (Option.some.inj hv2).symm
        subst this
        rw [ih3 key hrest]
        exact hcn how
      · rw [if_neg hkg] at hv2
        rw [ih2 g v2 hv2 how]
        exact hcg g fun hh => hkg hh.symm
    · intro g hg
      simp only [alGet] at hg
      by_cases hkg : key = g
      · rw [if_pos hkg] at hg
        exact Option.noConfusion hg
      · rw [if_neg hkg] at hg
        rw [ih3 g hg]
        exact hcg g fun hh => hkg hh.symm

theorem changedPatchObj_eq (sdiff : StrDiff) (a b : DbDocument)
    (k : DbRecord) (fromR toR : DbRecord)
    (ha : a.getOne (primaryKeyPart a.primaryKeys k) = some (some fromR))
    (hb : b.getOne (primaryKeyPart a.primaryKeys k) = some (some toR)) :
    changedPatchObj sdiff a b k = some (some
      (toR.foldl (cpoStep2 sdiff a.stringCols fromR)
        (fromR.foldl (cpoStep1 toR) k))) := by
  simp only [changedPatchObj, ha, hb]
  rfl

/-! ### Incremental index maintenance -/

theorem toKey_id (v : Val) : toKey v = v := rfl

theorem initIndexes_eq (pks : List String)
    (records : List (Option DbRecord)) :
    initIndexes pks records =
      (List.range records.length).foldl (fun idxs n =>
        match (records.get? n).getD none with
        | none => idxs
        | some record => pks.foldl (idxAddStep record n) idxs)
        (pks.map fun f => (f, [])) := rfl

theorem pkFold_unchanged (r : DbRecord) (n : Nat) :
    ∀ (L : List String) (idxs : DbIndexes) (f : String), f ∉ L →
      alGet (L.foldl (idxAddStep r n) idxs) f = alGet idxs f := by
  intro L
  induction L with
  | nil => intro idxs f _; rfl
  | cons f0 rest ih =>
    intro idxs f hf
    rw [List.foldl_cons]
    have hne : f0 ≠ f := fun hh => hf (hh ▸ List.mem_cons_self _ _)
    have hstep : alGet (idxAddStep r n idxs f0) f = alGet idxs f := by
      cases hg : rget r f0 with
      | none => simp only [idxAddStep, hg]
      | some v =>
        by_cases hv : v = Val.vnull
        · simp only [idxAddStep, hg, if_pos hv]
        · simp only [idxAddStep, hg, if_neg hv]
          exact alGet_alSet_ne _ f0 f _ fun hh => hne hh.symm
    rw [ih (idxAddStep r n idxs f0) f
      fun hh => hf (List.mem_cons_of_mem _ hh), hstep]

theorem pkFold_set (r : DbRecord) (n : Nat) :
    ∀ (L : List String) (idxs : DbIndexes), L.Nodup →
      ∀ f v, f ∈ L → rget r f = some v → v ≠ .vnull →
        alGet (L.foldl (idxAddStep r n) idxs) f =
          some (vlSet ((alGet idxs f).getD []) (toKey v)
            (insertSortedNat n
              ((vlGet ((alGet idxs f).getD []) (toKey v)).getD []))) := by
  intro L
  induction L with
  | nil => intro idxs _ f v hf; exact absurd hf (List.not_mem_nil f)
  | cons f0 rest ih =>
    intro idxs hnd f v hf hgv hvn
    rw [List.nodup_cons] at hnd
    rw [List.foldl_cons]
    rcases List.mem_cons.mp hf with rfl | hf'
    · have hstep : alGet (idxAddStep r n idxs f) f =
          some (vlSet ((alGet idxs f).getD []) (toKey v)
            (insertSortedNat n
              ((vlGet ((alGet idxs f).getD []) (toKey v)).getD []))) := by
        simp only [idxAddStep, hgv, if_neg hvn]
        exact alGet_alSet_self _ f _
      rw [pkFold_unchanged r n rest (idxAddStep r n idxs f) f hnd.1, hstep]
    · have hne : f ≠ f0 := fun hh => hnd.1 (hh ▸ hf')
      have hstep : alGet (idxAddStep r n idxs f0) f = alGet idxs f := by
        cases hg : rget r f0 with
        | none => simp only [idxAddStep, hg]
        | some w =>
          by_cases hw : w = Val.vnull
          · simp only [idxAddStep, hg, if_pos hw]
          · simp only [idxAddStep, hg, if_neg hw]
            exact alGet_alSet_ne _ f0 f _ hne
      rw [ih (idxAddStep r n idxs f0) hnd.2 f v hf' hgv hvn, hstep]

theorem clean_idxOK (d : DbDocument) (hC : Clean d) :
    IdxOK d.primaryKeys d.records d.indexes := hC.idx

theorem bucket_mem_lt {pks : List String} {rs : List (Option DbRecord)}
    {idxs : DbIndexes} (hok : IdxOK pks rs idxs) {f : String}
    (hf : f ∈ pks) {index : List (Val × List Nat)}
    (hidx : alGet idxs f = some index) {v : Val} (hv : v ≠ .vnull)
    {m : Nat} (hm : m ∈ (vlGet index (toKey v)).getD []) : m < rs.length := by
  obtain ⟨index', hidx', _, hbuck⟩ := hok f hf
  rw [hidx'] at hidx
  obtain rfl := Option.some.inj hidx
  obtain ⟨r, hr, _⟩ := ((hbuck v hv).2 m).mp hm
  exact (List.get?_eq_some.mp hr).1

theorem idxOK_add (pks : List String) (hnd : pks.Nodup)
    (rs : List (Option DbRecord)) (idxs : DbIndexes)
    (hok : IdxOK pks rs idxs) (rb : DbRecord)
    (hrb : ∀ f ∈ pks, ∃ v, rget rb f = some v ∧ v ≠ .vnull) :
    IdxOK pks (rs ++ [some rb]) (pks.foldl (idxAddStep rb rs.length) idxs) := by
  intro f hf
  obtain ⟨v, hgv, hvn⟩ := hrb f hf
  obtain ⟨index, hidx, hknd, hbuck⟩ := hok f hf
  have hset := pkFold_set rb rs.length pks idxs hnd f v hf hgv hvn
  rw [hidx] at hset
  simp only [Option.getD_some] at hset
  refine ⟨_, hset, VlKeysNodup_vlSet index (toKey v) _ hknd, ?_⟩
  intro w hwn
  by_cases hwv : w = v
  · subst hwv
    rw [vlGet_vlSet_self]
    simp only [Option.getD_some]
    obtain ⟨hpair, hmem⟩ := hbuck w hwn
    constructor
    · exact insertSortedNat_pairwise rs.length _ hpair
    · intro m
      rw [mem_insertSortedNat]
      constructor
      · rintro (rfl | hm)
        · exact ⟨rb, by rw [List.get?_concat_length], hgv⟩
        · obtain ⟨r, hr, hrg⟩ := (hmem m).mp hm
          have hlt : m < rs.length := (List.get?_eq_some.mp hr).1
          exact ⟨r, by rw [List.get?_append hlt]; exact hr, hrg⟩
      · rintro ⟨r, hr, hrg⟩
        by_cases hlt : m < rs.length
        · rw [List.get?_append hlt] at hr
          exact Or.inr ((hmem m).mpr ⟨r, hr, hrg⟩)
        · have hmlen : m = rs.length := by
            have := (List.get?_eq_some.mp hr).1
            rw [List.length_append, List.length_singleton] at this
            omega
          exact Or.inl hmlen
  · have hne : toKey w ≠ toKey v := by
      rw [toKey_id, toKey_id]
      exact hwv
    rw [vlGet_vlSet_ne index (toKey v) (toKey w) _ hne]
    obtain ⟨hpair, hmem⟩ := hbuck w hwn
    refine ⟨hpair, fun m => ?_⟩
    rw [hmem m]
    constructor
    · rintro ⟨r, hr, hrg⟩
      have hlt : m < rs.length := (List.get?_eq_some.mp hr).1
      exact ⟨r, by rw [List.get?_append hlt]; exact hr, hrg⟩
    · rintro ⟨r, hr, hrg⟩
      by_cases hlt : m < rs.length
      · rw [List.get?_append hlt] at hr
        exact ⟨r, hr, hrg⟩
      · have hmlen : m = rs.length := by
          have := (List.get?_eq_some.mp hr).1
          rw [List.length_append, List.length_singleton] at this
          omega
        subst hmlen
        rw [List.get?_concat_length] at hr
        obtain rfl := Option.some.inj (Option.some.inj hr)
        rw [hgv] at hrg
        exact absurd (Option.some.inj hrg).symm hwv

/-- A record update that keeps every primary-key column intact keeps the
indexes consistent. -/
theorem idxOK_set_same_pk (pks : List String)
    (rs : List (Option DbRecord)) (idxs : DbIndexes)
    (hok : IdxOK pks rs idxs) (n₀ : Nat) (ra rb : DbRecord)
    (hslot : rs.get? n₀ = some (some ra))
    (hsame : ∀ f ∈ pks, rget ra f = rget rb f) :
    IdxOK pks (rs.set n₀ (some rb)) idxs := by
  intro f hf
  obtain ⟨index, hidx, hknd, hbuck⟩ := hok f hf
  refine ⟨index, hidx, hknd, ?_⟩
  intro v hvn
  obtain ⟨hpair, hmem⟩ := hbuck v hvn
  refine ⟨hpair, fun m => ?_⟩
  rw [hmem m]
  by_cases hmn : m = n₀
  · subst hmn
    constructor
    · rintro ⟨r, hr, hrg⟩
      rw [hslot] at hr
      obtain rfl := Option.some.inj (Option.some.inj hr)
      refine ⟨rb, ?_, by rw [← hsame f hf]; exact hrg⟩
      have hlt : m < rs.length := (List.get?_eq_some.mp hslot).1
      rw [List.get?_set_eq, hslot]
      rfl
    · rintro ⟨r, hr, hrg⟩
      rw [List.get?_set_eq, hslot] at hr
      obtain rfl := Option.some.inj (Option.some.inj hr)
      exact ⟨ra, hslot, by rw [hsame f hf]; exact hrg⟩
  · constructor
    · rintro ⟨r, hr, hrg⟩
      exact ⟨r, by rw [List.get?_set_ne _ _ fun hh => hmn hh.symm]; exact hr,
        hrg⟩
    · rintro ⟨r, hr, hrg⟩
      rw [List.get?_set_ne _ _ fun hh => hmn hh.symm] at hr
      exact ⟨r, hr, hrg⟩

/-! ### `getOne` on unique matches -/

theorem getOne_unique (d : DbDocument) (hC : Clean d) (w : DbRecord)
    (hw : ∀ kv ∈ w, kv.1 ∈ d.primaryKeys ∧ kv.2 ≠ Val.vnull) (n₀ : Nat)
    (ra : DbRecord) (hslot : d.records.get? n₀ = some (some ra))
    (huniq : ∀ m, ((∃ r, d.records.get? m = some (some r)) ∧
      rowMatches d w m) ↔ m = n₀) :
    d.getOne w = some (some ra) := by
  rw [DbDocument.getOne, select_unique d hC w hw n₀ huniq]
  simp only [natSetMin_singleton]
  rw [hslot]
  rfl

theorem mem_initEverything_lt (rs : List (Option DbRecord)) (n : Nat)
    (h : n ∈ initEverything rs) : n < rs.length := by
  rw [mem_initEverything] at h
  by_contra hge
  rw [List.get?_eq_none.mpr (by omega)] at h
  simp at h

/-- `set` on a clean record whose primary-key projection is absent from a
clean document appends the record as-is at a fresh slot. -/
theorem dbSetObj_insert (sdiff : StrDiff) (d : DbDocument) (hC : Clean d)
    (rb : DbRecord) (hcrb : CleanRec d.primaryKeys d.stringCols rb)
    (hfresh : ∀ m r, d.records.get? m = some (some r) →
      primaryKeyCols d.primaryKeys r ≠ primaryKeyCols d.primaryKeys rb) :
    ∃ d', dbSetObj sdiff d rb = some d' ∧ Clean d' ∧
      d'.primaryKeys = d.primaryKeys ∧ d'.stringCols = d.stringCols ∧
      d'.records = d.records ++ [some rb] := by
  have hcanrb := hcrb.canon
  have hnnrb : ∀ f v, rget rb f = some v → v ≠ Val.vnull :=
    fun f v h => (hcrb.vals f v h).1
  have hp := parse_clean d rb hcanrb hnnrb
  have hw : ∀ kv ∈ primaryKeyCols d.primaryKeys rb,
      kv.1 ∈ d.primaryKeys ∧ kv.2 ≠ Val.vnull := by
    intro kv hkv
    rw [primaryKeyCols, List.mem_filter] at hkv
    refine ⟨List.elem_iff.mp hkv.2, ?_⟩
    exact hnnrb kv.1 kv.2
      (rget_of_mem_canon rb hcanrb kv.1 kv.2 (by
        obtain ⟨k, v⟩ := kv
        exact hkv.1))
  have hno : ∀ m, ¬ ((∃ r, d.records.get? m = some (some r)) ∧
      rowMatches d (primaryKeyCols d.primaryKeys rb) m) := by
    rintro m ⟨⟨r, hr⟩, hmat⟩
    have hcr := hC.recs_clean r (List.get?_mem hr)
    have heq : primaryKeyCols d.primaryKeys r =
        primaryKeyCols d.primaryKeys rb := by
      rw [pkcols_eq_iff _ _ _ hcr.canon hcanrb]
      intro f hf
      obtain ⟨vf, hvf⟩ := hcrb.pks f hf
      have hmem : (f, vf) ∈ primaryKeyCols d.primaryKeys rb := by
        rw [primaryKeyCols, List.mem_filter]
        exact ⟨mem_of_rget rb f vf hvf, List.elem_iff.mpr hf⟩
      obtain ⟨r', hr', hrg⟩ := hmat (f, vf) hmem
      rw [hr] at hr'
      obtain rfl := Option.some.inj (Option.some.inj hr')
      rw [hrg, hvf]
    exact hfresh m r hr heq
  have hsel : d.select (primaryKeyCols d.primaryKeys rb) = some [] :=
    select_none d hC _ hw hno
  have hins_stripped : d.stringCols.foldl (fun o field =>
      match rget o field with
      | some v => if isArrVal v then copyWithout o field else o
      | none => o) rb = rb := by
    suffices h : ∀ L : List String, (∀ f ∈ L, f ∈ d.stringCols) →
        L.foldl (fun o field =>
          match rget o field with
          | some v => if isArrVal v then copyWithout o field else o
          | none => o) rb = rb by
      exact h d.stringCols fun f hf => hf
    intro L
    induction L with
    | nil => intro _; rfl
    | cons f0 rest ih =>
      intro hsub
      rw [List.foldl_cons]
      have hstep : (match rget rb f0 with
          | some v => if isArrVal v then copyWithout rb f0 else rb
          | none => rb) = rb := by
        cases hg : rget rb f0 with
        | none => rfl
        | some v =>
          obtain ⟨s, rfl⟩ := (hcrb.vals f0 v hg).2.1
            (List.elem_iff.mpr (hsub f0 (List.mem_cons_self _ _)))
          rfl
      rw [hstep]
      exact ih fun f hf => hsub f (List.mem_cons_of_mem _ hf)
  have hnn : nonnullCols rb = rb := by
    rw [nonnullCols]
    apply List.filter_eq_self.mpr
    intro kv hkv
    have := hnnrb kv.1 kv.2 (rget_of_mem_canon rb hcanrb kv.1 kv.2 (by
      obtain ⟨k, v⟩ := kv
      exact hkv))
    simp [this]
  have hstep : dbSetObj sdiff d rb = some
      ⟨d.primaryKeys, d.stringCols, d.records ++ [some rb],
        insertSortedNat d.records.length d.everything,
        d.primaryKeys.foldl (idxAddStep rb d.records.length) d.indexes⟩ := by
    have hlen : (d.records ++ [some (nonnullCols rb)]).length - 1 =
        d.records.length := by
      simp
    simp only [dbSetObj, hp, hsel, natSetMin]
    rw [hins_stripped, hnn]
    simp only [List.length_append, List.length_singleton,
      Nat.add_sub_cancel]
    rfl
  refine ⟨_, hstep, ?_, rfl, rfl, rfl⟩
  constructor
  · exact hC.pk_ne
  · exact hC.pk_nodup
  · intro r hr
    rcases List.mem_append.mp hr with hr | hr
    · exact hC.recs_clean r hr
    · obtain rfl := Option.some.inj (List.mem_singleton.mp hr)
      exact hcrb
  · intro m n rm rn hm hn hpk
    have hcase : ∀ (j : Nat) (rj : DbRecord),
        (d.records ++ [some rb]).get? j = some (some rj) →
        d.records.get? j = some (some rj) ∨
          (j = d.records.length ∧ rj = rb) := by
      intro j rj hj
      by_cases hlt : j < d.records.length
      · rw [List.get?_append hlt] at hj
        exact Or.inl hj
      · have hjlen : j = d.records.length := by
          have := (List.get?_eq_some.mp hj).1
          rw [List.length_append, List.length_singleton] at this
          omega
        subst hjlen
        rw [List.get?_concat_length] at hj
        exact Or.inr ⟨rfl, (Option.some.inj (Option.some.inj hj)).symm⟩
    rcases hcase m rm hm with hm' | ⟨rfl, rfl⟩
    · rcases hcase n rn hn with hn' | ⟨rfl, rfl⟩
      · exact hC.pk_distinct m n rm rn hm' hn' hpk
      · exact absurd hpk (hfresh m rm hm')
    · rcases hcase n rn hn with hn' | ⟨rfl, rfl⟩
      · exact absurd hpk.symm (hfresh n rn hn')
      · rfl
  · show insertSortedNat d.records.length d.everything =
      initEverything (d.records ++ [some rb])
    rw [initEverything_snoc]
    simp only [Option.isSome_some, if_pos]
    rw [hC.ev]
    apply insertSortedNat_append
    intro m hm
    exact mem_initEverything_lt d.records m hm
  · exact idxOK_add d.primaryKeys hC.pk_nodup d.records d.indexes
      (clean_idxOK d hC) rb (fun f hf => by
        obtain ⟨v, hv⟩ := hcrb.pks f hf
        exact ⟨v, hv, hnnrb f v hv⟩)

theorem updateObj_nonpk_cases (sdiff : StrDiff) (pks sc : List String)
    (ra rb : DbRecord) (hrt : RoundTrips sdiff)
    (hca : CleanRec pks sc ra) (hcb : CleanRec pks sc rb)
    (uo : DbRecord)
    (huo : uo = rb.foldl (cpoStep2 sdiff sc ra)
      (ra.foldl (cpoStep1 rb) (primaryKeyCols pks rb)))
    (g : String) (hg : pks.contains g = false) :
    (rget ra g = rget rb g ∧ rget uo g = none) ∨
    ∃ value, rget uo g = some value ∧
      setFieldOutcome sdiff sc ra g value ≠ none ∧
      (setFieldOutcome sdiff sc ra g value).getD none = rget rb g := by
  have hpcan : RecCanon (primaryKeyCols pks rb) :=
    RecCanon_primaryKeyCols pks rb hcb.canon
  have hPnon : rget (primaryKeyCols pks rb) g = none := by
    rw [rget_primaryKeyCols pks rb hcb.canon g]
    cases rget rb g with
    | none => rfl
    | some v =>
      simp only [Option.some_bind]
      rw [if_neg (by rw [hg]; exact Bool.false_ne_true)]
  obtain ⟨hc1, hg1⟩ := cpoLoop1_spec rb ra (primaryKeyCols pks rb) hpcan
  have hrbnodup : (rb.map Prod.fst).Nodup := hcb.canon.imp ltStr_ne
  obtain ⟨hc2, ih1, ih2, ih3⟩ := cpoLoop2_spec sdiff sc ra rb
    (ra.foldl (cpoStep1 rb) (primaryKeyCols pks rb)) hc1 hrbnodup
  -- obj1's value at g
  have hO1 : rget (ra.foldl (cpoStep1 rb) (primaryKeyCols pks rb)) g =
      if g ∈ ra.map Prod.fst ∧ rget rb g = none then some .vnull
      else rget (primaryKeyCols pks rb) g := by
    rw [hg1 g]
    by_cases hmem : g ∈ ra.map Prod.fst ∧
        (rget rb g = none ∨ rget rb g = some Val.vnull)
    · rcases hmem.2 with hbn | hbn
      · rw [if_pos hmem, if_pos ⟨hmem.1, hbn⟩]
      · exact absurd rfl (hcb.vals g Val.vnull hbn).1
    · rw [if_neg hmem, if_neg]
      rintro ⟨h1, h2⟩
      exact hmem ⟨h1, Or.inl h2⟩
  cases hb : rget rb g with
  | none =>
    have huog : rget uo g =
        rget (ra.foldl (cpoStep1 rb) (primaryKeyCols pks rb)) g := by
      rw [huo]
      exact ih3 g hb
    cases ha : rget ra g with
    | none =>
      left
      refine ⟨rfl, ?_⟩
      rw [huog, hO1, if_neg, hPnon]
      rintro ⟨hmem, _⟩
      obtain ⟨v, hv⟩ := rget_isSome_of_mem ra g hmem
      rw [ha] at hv
      exact Option.noConfusion hv
    | some va =>
      right
      have hso : setFieldOutcome sdiff sc ra g Val.vnull = some none := by
        rw [setFieldOutcome.eq_def, if_pos rfl]
      refine ⟨.vnull, ?_, ?_, ?_⟩
      · rw [huog, hO1, if_pos ⟨List.mem_map.mpr
          ⟨(g, va), mem_of_rget ra g va ha, rfl⟩, hb⟩]
      · rw [hso]
        exact fun hh => Option.noConfusion hh
      · rw [hso]
        rfl
  | some v =>
    have hvnn : v ≠ Val.vnull := (hcb.vals g v hb).1
    by_cases hde : rget ra g = some v
    · left
      have hden : cpoOutcome sdiff sc ra g v = none := by
        rw [cpoOutcome.eq_def]
        rw [if_pos (by rw [hde]; exact (deepEqualOpt_iff _ _).mpr rfl)]
      have huog : rget uo g =
          rget (ra.foldl (cpoStep1 rb) (primaryKeyCols pks rb)) g := by
        rw [huo]
        exact ih2 g v hb hden
      refine ⟨hde, ?_⟩
      rw [huog, hO1, if_neg, hPnon]
      rintro ⟨_, hbn⟩
      rw [hb] at hbn
      exact Option.noConfusion hbn
    · have hdef : deepEqualOpt (rget ra g) (some v) = false := by
        by_contra hc
        rw [Bool.not_eq_false] at hc
        exact hde ((deepEqualOpt_iff _ _).mp hc)
      right
      by_cases hsc : sc.contains g = true
      · -- string column: both sides are strings when present
        obtain ⟨s1, rfl⟩ := (hcb.vals g v hb).2.1 hsc
        cases ha : rget ra g with
        | none =>
          have hout : cpoOutcome sdiff sc ra g (.vstr s1) =
              some (.vstr s1) := by
            rw [cpoOutcome.eq_def]
            rw [if_neg (by rw [hdef]; exact Bool.false_ne_true), ha]
            rw [if_neg (by simp)]
          refine ⟨.vstr s1, by rw [huo]; exact ih1 g _ _ hb hout, ?_, ?_⟩
          · rw [setFieldOutcome.eq_def, if_neg (by exact fun hh => Val.noConfusion hh),
              if_pos hsc]
            rw [if_neg (by exact fun hh => Bool.noConfusion hh)]
            exact fun hh => Option.noConfusion hh
          · rw [setFieldOutcome.eq_def,
              if_neg (by exact fun hh => Val.noConfusion hh), if_pos hsc]
            rw [if_neg (by exact fun hh => Bool.noConfusion hh)]
            rfl
        | some fv =>
          have hfvnn : fv ≠ Val.vnull := (hca.vals g fv ha).1
          obtain ⟨s0, rfl⟩ := (hca.vals g fv ha).2.1 hsc
          have hguard : (sc.contains g &&
              (match rget ra g with
               | some fv => decide (fv ≠ Val.vnull)
               | none => false) &&
              decide (Val.vstr s1 ≠ Val.vnull)) = true := by
            rw [ha, hsc]
            simp
          have hout : cpoOutcome sdiff sc ra g (.vstr s1) =
              some (sdiff.makePatch s0 s1) := by
            rw [cpoOutcome.eq_def]
            rw [if_neg (by rw [hdef]; exact Bool.false_ne_true)]
            rw [if_pos hguard, ha]
          obtain ⟨hap, harr⟩ := hrt s0 s1
          have hwnn : sdiff.makePatch s0 s1 ≠ Val.vnull := by
            intro hh
            rw [hh] at harr
            exact Bool.noConfusion harr
          refine ⟨sdiff.makePatch s0 s1,
            by rw [huo]; exact ih1 g _ _ hb hout, ?_, ?_⟩
          · rw [setFieldOutcome.eq_def, if_neg hwnn, if_pos hsc, if_pos harr, ha]
            exact fun hh => Option.noConfusion hh
          · rw [setFieldOutcome.eq_def, if_neg hwnn, if_pos hsc, if_pos harr,
              ha]
            show some (Val.vstr (sdiff.applyPatch (sdiff.makePatch s0 s1)
              s0).1) = some (Val.vstr s1)
            rw [hap]
      · -- plain column: merge maps, otherwise overwrite
        have hscf : sc.contains g = false := by
          rw [Bool.not_eq_true] at hsc
          exact hsc
        have hguardf : ∀ w : Val, (sc.contains g &&
            (match rget ra g with
             | some fv => decide (fv ≠ Val.vnull)
             | none => false) &&
            decide (w ≠ Val.vnull)) = false := by
          intro w
          rw [hscf]
          simp
        by_cases hobj : (∃ m0, rget ra g = some (.vobj m0)) ∧
            ∃ m1, v = .vobj m1
        · obtain ⟨⟨m0, ha⟩, ⟨m1, rfl⟩⟩ := hobj
          have hout : cpoOutcome sdiff sc ra g (.vobj m1) =
              some (.vobj (mapMergePatch m0 m1)) := by
            rw [cpoOutcome.eq_def]
            rw [if_neg (by rw [hdef]; exact Bool.false_ne_true)]
            rw [if_neg (by rw [hguardf]; exact Bool.false_ne_true), ha]
          obtain ⟨hm0c, hm0n⟩ := (hca.vals g _ ha).2.2 m0 rfl
          obtain ⟨hm1c, hm1n⟩ := (hcb.vals g _ hb).2.2 m1 rfl
          refine ⟨.vobj (mapMergePatch m0 m1),
            by rw [huo]; exact ih1 g _ _ hb hout, ?_, ?_⟩
          · rw [setFieldOutcome.eq_def, if_neg (fun hh => Val.noConfusion hh),
              if_neg (by rw [hscf]; exact Bool.false_ne_true), ha]
            exact fun hh => Option.noConfusion hh
          · rw [setFieldOutcome.eq_def, if_neg (fun hh => Val.noConfusion hh),
              if_neg (by rw [hscf]; exact Bool.false_ne_true), ha]
            simp only [Option.getD_some]
            rw [mergeSet_mapMergePatch m0 m1 hm0c hm1c hm0n hm1n]
        · have hout : cpoOutcome sdiff sc ra g v = some v := by
            rw [cpoOutcome.eq_def]
            rw [if_neg (by rw [hdef]; exact Bool.false_ne_true)]
            rw [if_neg (by rw [hguardf]; exact Bool.false_ne_true)]
            cases ha : rget ra g with
            | none => cases v <;> rfl
            | some fv =>
              cases fv with
              | vobj m0 =>
                cases v with
                | vobj m1 => exact absurd ⟨⟨m0, ha⟩, m1, rfl⟩ hobj
                | vnull => rfl
                | vbool b => rfl
                | vnum n => rfl
                | vstr sx => rfl
                | varr xs => rfl
              | vnull => cases v <;> rfl
              | vbool b => cases v <;> rfl
              | vnum n => cases v <;> rfl
              | vstr sx => cases v <;> rfl
              | varr xs => cases v <;> rfl
          refine ⟨v, by rw [huo]; exact ih1 g _ _ hb hout, ?_, ?_⟩
          · rw [setFieldOutcome.eq_def, if_neg hvnn,
              if_neg (by rw [hscf]; exact Bool.false_ne_true)]
            cases ha : rget ra g with
            | none =>
              cases v <;> exact fun hh => Option.noConfusion hh
            | some fv =>
              cases fv with
              | vobj m0 =>
                cases v with
                | vobj m1 => exact absurd ⟨⟨m0, ha⟩, m1, rfl⟩ hobj
                | vnull => exact fun hh => Option.noConfusion hh
                | vbool b => exact fun hh => Option.noConfusion hh
                | vnum n => exact fun hh => Option.noConfusion hh
                | vstr sx => exact fun hh => Option.noConfusion hh
                | varr xs => exact fun hh => Option.noConfusion hh
              | vnull => cases v <;> exact fun hh => Option.noConfusion hh
              | vbool b => cases v <;> exact fun hh => Option.noConfusion hh
              | vnum n => cases v <;> exact fun hh => Option.noConfusion hh
              | vstr sx => cases v <;> exact fun hh => Option.noConfusion hh
              | varr xs => cases v <;> exact fun hh => Option.noConfusion hh
          · rw [setFieldOutcome.eq_def, if_neg hvnn,
              if_neg (by rw [hscf]; exact Bool.false_ne_true)]
            cases ha : rget ra g with
            | none =>
              cases v <;> rfl
            | some fv =>
              cases fv with
              | vobj m0 =>
                cases v with
                | vobj m1 => exact absurd ⟨⟨m0, ha⟩, m1, rfl⟩ hobj
                | vnull => rfl
                | vbool b => rfl
                | vnum n => rfl
                | vstr sx => rfl
                | varr xs => rfl
              | vnull => cases v <;> rfl
              | vbool b => cases v <;> rfl
              | vnum n => cases v <;> rfl
              | vstr sx => cases v <;> rfl
              | varr xs => cases v <;> rfl

theorem updateObj_spec (sdiff : StrDiff) (pks sc : List String)
    (ra rb : DbRecord) (hrt : RoundTrips sdiff)
    (hca : CleanRec pks sc ra) (hcb : CleanRec pks sc rb)
    (hpkeq : primaryKeyCols pks ra = primaryKeyCols pks rb)
    (uo : DbRecord)
    (huo : uo = rb.foldl (cpoStep2 sdiff sc ra)
      (ra.foldl (cpoStep1 rb) (primaryKeyCols pks rb))) :
    RecCanon uo ∧
    uo.filter (fun kv => pks.contains kv.1 ∧ kv.2 ≠ .vnull) =
      primaryKeyCols pks rb ∧
    (∀ kv ∈ uo.filter (fun kv => ¬ pks.contains kv.1),
      setFieldOutcome sdiff sc ra kv.1 kv.2 ≠ none) ∧
    (∀ g value,
      alGet (uo.filter (fun kv => ¬ pks.contains kv.1)) g = some value →
      (setFieldOutcome sdiff sc ra g value).getD none = rget rb g) ∧
    (∀ g, alGet (uo.filter (fun kv => ¬ pks.contains kv.1)) g = none →
      rget ra g = rget rb g) := by
  have hpcan : RecCanon (primaryKeyCols pks rb) :=
    RecCanon_primaryKeyCols pks rb hcb.canon
  obtain ⟨hc1, hg1⟩ := cpoLoop1_spec rb ra (primaryKeyCols pks rb) hpcan
  have hrbnodup : (rb.map Prod.fst).Nodup := hcb.canon.imp ltStr_ne
  obtain ⟨hc2, ih1, ih2, ih3⟩ := cpoLoop2_spec sdiff sc ra rb
    (ra.foldl (cpoStep1 rb) (primaryKeyCols pks rb)) hc1 hrbnodup
  have hcanuo : RecCanon uo := by rw [huo]; exact hc2
  have hpk' : ∀ f, pks.contains f = true → rget ra f = rget rb f := by
    intro f hf
    exact (pkcols_eq_iff pks ra rb hca.canon hcb.canon).mp hpkeq f
      (List.elem_iff.mp hf)
  have hdecT : ∀ (b : Bool), b = false → (decide (¬ b = true)) = true := by
    intro b hb; subst hb; decide
  have hdecF : ∀ (b : Bool), b = true → (decide (¬ b = true)) = false := by
    intro b hb; subst hb; decide
  have hUpk : ∀ g, pks.contains g = true → rget uo g = rget rb g := by
    intro g hg
    obtain ⟨v, hv⟩ := hcb.pks g (List.elem_iff.mp hg)
    have hra : rget ra g = some v := by rw [hpk' g hg, hv]
    have hout : cpoOutcome sdiff sc ra g v = none := by
      rw [cpoOutcome.eq_def]
      rw [if_pos (by rw [hra]; exact (deepEqualOpt_iff _ _).mpr rfl)]
    have hU : rget uo g =
        rget (ra.foldl (cpoStep1 rb) (primaryKeyCols pks rb)) g := by
      rw [huo]
      exact ih2 g v hv hout
    rw [hU, hg1 g, if_neg, rget_primaryKeyCols pks rb hcb.canon g, hv]
    · simp only [Option.some_bind]
      rw [if_pos hg]
    · rintro ⟨_, hbn | hbn⟩
      · rw [hv] at hbn; exact Option.noConfusion hbn
      · rw [hv] at hbn
        exact (hcb.vals g v hv).1 (Option.some.inj hbn)
  have hwhere : uo.filter (fun kv => pks.contains kv.1 ∧ kv.2 ≠ .vnull) =
      primaryKeyCols pks rb := by
    apply rec_ext _ _ (RecCanon_filter uo _ hcanuo) hpcan
    intro g
    rw [rget_filter _ uo hcanuo g, rget_primaryKeyCols pks rb hcb.canon g]
    by_cases hg : pks.contains g = true
    · obtain ⟨v, hv⟩ := hcb.pks g (List.elem_iff.mp hg)
      have hnn : v ≠ Val.vnull := (hcb.vals g v hv).1
      rw [hUpk g hg, hv]
      simp only [Option.some_bind]
      rw [if_pos (by rw [decide_eq_true_eq]; exact ⟨hg, hnn⟩), if_pos hg]
    · rw [Bool.not_eq_true] at hg
      have h1 : ∀ u : Val,
          (if (decide (pks.contains g = true ∧ u ≠ Val.vnull)) = true then
            some u else none) = none := by
        intro u
        rw [if_neg]
        rw [decide_eq_true_eq]
        rintro ⟨hc, _⟩
        rw [hg] at hc
        exact Bool.noConfusion hc
      cases hu : rget uo g with
      | none =>
        cases hb2 : rget rb g with
        | none => rfl
        | some w =>
          simp only [Option.some_bind, Option.none_bind]
          rw [if_neg (by rw [hg]; exact Bool.false_ne_true)]
      | some u =>
        simp only [Option.some_bind]
        rw [h1 u]
        cases hb2 : rget rb g with
        | none => rfl
        | some w =>
          simp only [Option.some_bind]
          rw [if_neg (by rw [hg]; exact Bool.false_ne_true)]
  have hsetget : ∀ g, rget (uo.filter fun kv => ¬ pks.contains kv.1) g =
      (rget uo g).bind fun v =>
        if (decide (¬ pks.contains g = true)) = true then some v
        else none := by
    intro g
    exact rget_filter _ uo hcanuo g
  refine ⟨hcanuo, hwhere, ?_, ?_, ?_⟩
  · intro kv hkv
    obtain ⟨g, value⟩ := kv
    have hget : rget (uo.filter fun kv => ¬ pks.contains kv.1) g =
        some value :=
      rget_of_mem_canon _ (RecCanon_filter uo _ hcanuo) g value hkv
    rw [hsetget g] at hget
    by_cases hcg : pks.contains g = true
    · rw [hdecF _ hcg] at hget
      cases hu : rget uo g with
      | none => rw [hu] at hget; exact Option.noConfusion hget
      | some u =>
        rw [hu] at hget
        simp only [Option.some_bind] at hget
        rw [if_neg (fun hh => Bool.noConfusion hh)] at hget
        exact Option.noConfusion hget
    · rw [Bool.not_eq_true] at hcg
      have hU : rget uo g = some value := by
        cases hu : rget uo g with
        | none => rw [hu] at hget; exact Option.noConfusion hget
        | some u =>
          rw [hu] at hget
          simp only [Option.some_bind] at hget
          rw [if_pos (hdecT _ hcg)] at hget
          exact hget
      rcases updateObj_nonpk_cases sdiff pks sc ra rb hrt hca hcb uo huo g
        hcg with ⟨_, hnone⟩ | ⟨value', hval', hne', hgd'⟩
      · rw [hU] at hnone; exact Option.noConfusion hnone
      · rw [hU] at hval'
        obtain rfl := Option.some.inj hval'
        exact hne'
  · intro g value hget
    have hget' : rget (uo.filter fun kv => ¬ pks.contains kv.1) g =
        some value := hget
    rw [hsetget g] at hget'
    by_cases hcg : pks.contains g = true
    · rw [hdecF _ hcg] at hget'
      cases hu : rget uo g with
      | none => rw [hu] at hget'; exact Option.noConfusion hget'
      | some u =>
        rw [hu] at hget'
        simp only [Option.some_bind] at hget'
        rw [if_neg (fun hh => Bool.noConfusion hh)] at hget'
        exact Option.noConfusion hget'
    · rw [Bool.not_eq_true] at hcg
      have hU : rget uo g = some value := by
        cases hu : rget uo g with
        | none => rw [hu] at hget'; exact Option.noConfusion hget'
        | some u =>
          rw [hu] at hget'
          simp only [Option.some_bind] at hget'
          rw [if_pos (hdecT _ hcg)] at hget'
          exact hget'
      rcases updateObj_nonpk_cases sdiff pks sc ra rb hrt hca hcb uo huo g
        hcg with ⟨_, hnone⟩ | ⟨value', hval', hne', hgd'⟩
      · rw [hU] at hnone; exact Option.noConfusion hnone
      · rw [hU] at hval'
        obtain rfl := Option.some.inj hval'
        exact hgd'
  · intro g hget
    have hget2 : rget (uo.filter fun kv => ¬ pks.contains kv.1) g = none :=
      hget
    rw [hsetget g] at hget2
    by_cases hcg : pks.contains g = true
    · exact hpk' g hcg
    · rw [Bool.not_eq_true] at hcg
      have hU : rget uo g = none := by
        cases hu : rget uo g with
        | none => rfl
        | some u =>
          rw [hu] at hget2
          simp only [Option.some_bind] at hget2
          rw [if_pos (hdecT _ hcg)] at hget2
          exact Option.noConfusion hget2
      rcases updateObj_nonpk_cases sdiff pks sc ra rb hrt hca hcb uo huo g
        hcg with ⟨hab, _⟩ | ⟨value', hval', _, _⟩
      · exact hab
      · rw [hU] at hval'; exact Option.noConfusion hval'

/-- `set` on the update object emitted for a changed primary key replaces
exactly the matched slot's record with the target record. -/
theorem dbSetObj_update (sdiff : StrDiff) (d : DbDocument) (hC : Clean d)
    (hrt : RoundTrips sdiff) (n₀ : Nat) (ra rb : DbRecord)
    (hslot : d.records.get? n₀ = some (some ra))
    (hcrb : CleanRec d.primaryKeys d.stringCols rb)
    (hpkeq : primaryKeyCols d.primaryKeys ra =
      primaryKeyCols d.primaryKeys rb)
    (hne : ra ≠ rb) (uo : DbRecord)
    (huo : uo = rb.foldl (cpoStep2 sdiff d.stringCols ra)
      (ra.foldl (cpoStep1 rb) (primaryKeyCols d.primaryKeys rb))) :
    ∃ d', dbSetObj sdiff d uo = some d' ∧ Clean d' ∧
      d'.primaryKeys = d.primaryKeys ∧ d'.stringCols = d.stringCols ∧
      d'.records = d.records.set n₀ (some rb) := by
  have hca : CleanRec d.primaryKeys d.stringCols ra :=
    hC.recs_clean ra (List.get?_mem hslot)
  obtain ⟨hcanuo, hwhere, hok, hvals, hnonef⟩ :=
    updateObj_spec sdiff d.primaryKeys d.stringCols ra rb hrt hca hcrb
      hpkeq uo huo
  have hp1 : (d.parse uo).1 = primaryKeyCols d.primaryKeys rb := hwhere
  have hw : ∀ kv ∈ primaryKeyCols d.primaryKeys rb,
      kv.1 ∈ d.primaryKeys ∧ kv.2 ≠ Val.vnull := by
    intro kv hkv
    rw [primaryKeyCols, List.mem_filter] at hkv
    refine ⟨List.elem_iff.mp hkv.2, ?_⟩
    refine (hcrb.vals kv.1 kv.2 ?_).1
    refine rget_of_mem_canon rb hcrb.canon kv.1 kv.2 ?_
    obtain ⟨k, v⟩ := kv
    exact hkv.1
  have hsame : ∀ f ∈ d.primaryKeys, rget ra f = rget rb f :=
    (pkcols_eq_iff _ _ _ hca.canon hcrb.canon).mp hpkeq
  have huniq : ∀ m, ((∃ r, d.records.get? m = some (some r)) ∧
      rowMatches d (primaryKeyCols d.primaryKeys rb) m) ↔ m = n₀ := by
    intro m
    constructor
    · rintro ⟨⟨r, hr⟩, hmat⟩
      have hcr := hC.recs_clean r (List.get?_mem hr)
      have heq : primaryKeyCols d.primaryKeys r =
          primaryKeyCols d.primaryKeys ra := by
        rw [pkcols_eq_iff _ _ _ hcr.canon hca.canon]
        intro f hf
        obtain ⟨vf, hvf⟩ := hcrb.pks f hf
        have hmem : (f, vf) ∈ primaryKeyCols d.primaryKeys rb := by
          rw [primaryKeyCols, List.mem_filter]
          exact ⟨mem_of_rget rb f vf hvf, List.elem_iff.mpr hf⟩
        obtain ⟨r', hr', hrg⟩ := hmat (f, vf) hmem
        rw [hr] at hr'
        obtain rfl := Option.some.inj (Option.some.inj hr')
        rw [hrg, hsame f hf, hvf]
      exact hC.pk_distinct m n₀ r ra hr hslot heq
    · rintro rfl
      refine ⟨⟨ra, hslot⟩, fun kv hkv => ?_⟩
      rw [primaryKeyCols, List.mem_filter] at hkv
      refine ⟨ra, hslot, ?_⟩
      rw [hsame kv.1 (List.elem_iff.mp hkv.2)]
      refine rget_of_mem_canon rb hcrb.canon kv.1 kv.2 ?_
      obtain ⟨k, v⟩ := kv
      exact hkv.1
  have hsel : d.select (primaryKeyCols d.primaryKeys rb) = some [n₀] :=
    select_unique d hC _ hw n₀ huniq
  have hlnodup : ((uo.filter fun kv => ¬ d.primaryKeys.contains kv.1).map
      Prod.fst).Nodup :=
    (RecCanon_filter uo _ hcanuo).imp ltStr_ne
  obtain ⟨r', happ, hr'c, hsome, hnone⟩ :=
    applySetFields_spec sdiff d.stringCols ra
      (uo.filter fun kv => ¬ d.primaryKeys.contains kv.1) ra hca.canon
      hlnodup (fun f _ => rfl) hok
  have hr'rb : r' = rb := by
    apply rec_ext r' rb hr'c hcrb.canon
    intro g
    cases halg : alGet (uo.filter fun kv =>
        ¬ d.primaryKeys.contains kv.1) g with
    | some value =>
      rw [hsome g value halg]
      exact hvals g value halg
    | none =>
      rw [hnone g halg]
      exact hnonef g halg
  rw [hr'rb] at happ
  have happ' : applySetFields sdiff d.stringCols ra ra (d.parse uo).2 =
      some rb := happ
  have hstep : dbSetObj sdiff d uo = some
      { d with records := d.records.set n₀ (some rb) } := by
    simp only [dbSetObj, hp1, hsel, natSetMin_singleton, hslot,
      Option.getD_some, happ']
    rw [if_neg hne]
  refine ⟨_, hstep, ?_, rfl, rfl, rfl⟩
  constructor
  · exact hC.pk_ne
  · exact hC.pk_nodup
  · intro r hr
    obtain ⟨m, hm⟩ := List.mem_iff_get?.mp hr
    by_cases hmn : m = n₀
    · subst hmn
      rw [List.get?_set_eq, hslot] at hm
      obtain rfl := Option.some.inj (Option.some.inj hm)
      exact hcrb
    · rw [List.get?_set_ne _ _ fun hh => hmn hh.symm] at hm
      exact hC.recs_clean r (List.get?_mem hm)
  · intro m n rm rn hm hn hpk
    have hget : ∀ (j : Nat) (rj : DbRecord),
        (d.records.set n₀ (some rb)).get? j = some (some rj) →
        (j = n₀ ∧ rj = rb) ∨
          (j ≠ n₀ ∧ d.records.get? j = some (some rj)) := by
      intro j rj hj
      by_cases hjn : j = n₀
      · subst hjn
        rw [List.get?_set_eq, hslot] at hj
        exact Or.inl ⟨rfl, (Option.some.inj (Option.some.inj hj)).symm⟩
      · rw [List.get?_set_ne _ _ fun hh => hjn hh.symm] at hj
        exact Or.inr ⟨hjn, hj⟩
    rcases hget m rm hm with ⟨hm0, hrm⟩ | ⟨hmne, hm'⟩
    · rcases hget n rn hn with ⟨hn0, hrn⟩ | ⟨hnne, hn'⟩
      · rw [hm0, hn0]
      · subst hrm
        rw [hm0]
        exact (hC.pk_distinct n n₀ rn ra hn' hslot
          (hpk.symm.trans hpkeq.symm)).symm
    · rcases hget n rn hn with ⟨hn0, hrn⟩ | ⟨hnne, hn'⟩
      · subst hrn
        rw [hn0]
        exact hC.pk_distinct m n₀ rm ra hm' hslot (hpk.trans hpkeq.symm)
      · exact hC.pk_distinct m n rm rn hm' hn' hpk
  · show d.everything = initEverything (d.records.set n₀ (some rb))
    rw [initEverything_set_some d.records n₀ rb (by rw [hslot]; rfl)]
    exact hC.ev
  · exact idxOK_set_same_pk d.primaryKeys d.records d.indexes
      (clean_idxOK d hC) n₀ ra rb hslot hsame

theorem delFold_unchanged (rs : List (Option DbRecord)) (remove : List Nat) :
    ∀ (L : List String) (idxs : DbIndexes) (f : String), f ∉ L →
      alGet (L.foldl (idxDelStep rs remove) idxs) f = alGet idxs f := by
  intro L
  induction L with
  | nil => intro idxs f _; rfl
  | cons f0 rest ih =>
    intro idxs f hf
    rw [List.foldl_cons]
    have hne : f0 ≠ f := fun hh => hf (hh ▸ List.mem_cons_self _ _)
    have hstep : alGet (idxDelStep rs remove idxs f0) f = alGet idxs f := by
      cases hg : alGet idxs f0 with
      | none => simp only [idxDelStep, hg]
      | some index =>
        simp only [idxDelStep, hg]
        exact alGet_alSet_ne _ f0 f _ fun hh => hne hh.symm
    rw [ih (idxDelStep rs remove idxs f0) f
      fun hh => hf (List.mem_cons_of_mem _ hh), hstep]

theorem delFold_set (rs : List (Option DbRecord)) (remove : List Nat) :
    ∀ (L : List String) (idxs : DbIndexes), L.Nodup →
      ∀ f index, f ∈ L → alGet idxs f = some index →
        alGet (L.foldl (idxDelStep rs remove) idxs) f =
          some (remove.foldl (fun ix n =>
            match (rs.get? n).getD none with
            | none => ix
            | some record =>
              match rget record f with
              | none => ix
              | some v =>
                if v = .vnull then ix
                else
                  match vlGet ix (toKey v) with
                  | none => ix
                  | some bucket =>
                    if removeNat n bucket = [] then vlDel ix (toKey v)
                    else vlSet ix (toKey v) (removeNat n bucket)) index) := by
  intro L
  induction L with
  | nil => intro idxs _ f index hf; exact absurd hf (List.not_mem_nil f)
  | cons f0 rest ih =>
    intro idxs hnd f index hf hidx
    rw [List.nodup_cons] at hnd
    rw [List.foldl_cons]
    rcases List.mem_cons.mp hf with rfl | hf'
    · have hstep : alGet (idxDelStep rs remove idxs f) f =
          some (remove.foldl (fun ix n =>
            match (rs.get? n).getD none with
            | none => ix
            | some record =>
              match rget record f with
              | none => ix
              | some v =>
                if v = .vnull then ix
                else
                  match vlGet ix (toKey v) with
                  | none => ix
                  | some bucket =>
                    if removeNat n bucket = [] then vlDel ix (toKey v)
                    else vlSet ix (toKey v) (removeNat n bucket)) index) := by
        simp only [idxDelStep, hidx]
        exact alGet_alSet_self _ f _
      rw [delFold_unchanged rs remove rest (idxDelStep rs remove idxs f) f
        hnd.1, hstep]
    · have hne : f ≠ f0 := fun hh => hnd.1 (hh ▸ hf')
      have hstep : alGet (idxDelStep rs remove idxs f0) f = alGet idxs f := by
        cases hg : alGet idxs f0 with
        | none => simp only [idxDelStep, hg]
        | some index0 =>
          simp only [idxDelStep, hg]
          exact alGet_alSet_ne _ f0 f _ hne
      rw [ih (idxDelStep rs remove idxs f0) hnd.2 f index hf'
        (by rw [hstep]; exact hidx)]

theorem idxOK_del_single (pks : List String) (hnd : pks.Nodup)
    (rs : List (Option DbRecord)) (idxs : DbIndexes)
    (hok : IdxOK pks rs idxs) (n₀ : Nat) (ra : DbRecord)
    (hslot : rs.get? n₀ = some (some ra))
    (hra : ∀ f ∈ pks, ∃ v, rget ra f = some v ∧ v ≠ .vnull) :
    IdxOK pks (rs.set n₀ none) (pks.foldl (idxDelStep rs [n₀]) idxs) := by
  intro f hf
  obtain ⟨v, hgv, hvn⟩ := hra f hf
  obtain ⟨index, hidx, hknd, hbuck⟩ := hok f hf
  obtain ⟨hpairv, hmemv⟩ := hbuck v hvn
  have hn₀mem : n₀ ∈ (vlGet index (toKey v)).getD [] :=
    (hmemv n₀).mpr ⟨ra, hslot, hgv⟩
  cases hvl : vlGet index (toKey v) with
  | none =>
    rw [hvl] at hn₀mem
    exact absurd hn₀mem (List.not_mem_nil n₀)
  | some bucket =>
    rw [hvl] at hn₀mem hpairv hmemv
    simp only [Option.getD_some] at hn₀mem hpairv hmemv
    have hfold := delFold_set rs [n₀] pks idxs hnd f index hf hidx
    have hone : ([n₀].foldl (fun ix n =>
        match (rs.get? n).getD none with
        | none => ix
        | some record =>
          match rget record f with
          | none => ix
          | some v =>
            if v = .vnull then ix
            else
              match vlGet ix (toKey v) with
              | none => ix
              | some bucket =>
                if removeNat n bucket = [] then vlDel ix (toKey v)
                else vlSet ix (toKey v) (removeNat n bucket)) index) =
        (if removeNat n₀ bucket = [] then vlDel index (toKey v)
         else vlSet index (toKey v) (removeNat n₀ bucket)) := by
      simp only [List.foldl_cons, List.foldl_nil, hslot, Option.getD_some,
        hgv, if_neg hvn, hvl]
    rw [hone] at hfold
    -- the new records drop slot n₀
    have hrecchar : ∀ (w : Val) (m : Nat),
        (∃ r, (rs.set n₀ none).get? m = some (some r) ∧ rget r f = some w) ↔
        ((∃ r, rs.get? m = some (some r) ∧ rget r f = some w) ∧ m ≠ n₀) := by
      intro w m
      by_cases hmn : m = n₀
      · subst hmn
        constructor
        · rintro ⟨r, hr, _⟩
          rw [List.get?_set_eq] at hr
          cases hg : rs.get? m with
          | none => rw [hg] at hr; exact Option.noConfusion hr
          | some x =>
            rw [hg] at hr
            exact Option.noConfusion (Option.some.inj hr)
        · rintro ⟨_, hmm⟩
          exact absurd rfl hmm
      · rw [List.get?_set_ne _ _ fun hh => hmn hh.symm]
        exact ⟨fun h => ⟨h, hmn⟩, fun h => h.1⟩
    by_cases hempty : removeNat n₀ bucket = []
    · rw [if_pos hempty] at hfold
      refine ⟨_, hfold, VlKeysNodup_vlDel index (toKey v) hknd, ?_⟩
      intro w hwn
      by_cases hwv : w = v
      · subst hwv
        rw [vlGet_vlDel_self index (toKey w) hknd]
        simp only [Option.getD_none]
        refine ⟨List.Pairwise.nil, fun m => ?_⟩
        simp only [List.not_mem_nil, false_iff]
        rw [hrecchar w m]
        rintro ⟨hold, hmn⟩
        have : m ∈ removeNat n₀ bucket :=
          (mem_removeNat n₀ m bucket).mpr ⟨(hmemv m).mpr hold, hmn⟩
        rw [hempty] at this
        exact absurd this (List.not_mem_nil m)
      · have hne : toKey w ≠ toKey v := by
          rw [toKey_id, toKey_id]; exact hwv
        rw [vlGet_vlDel_ne index (toKey v) (toKey w) hne]
        obtain ⟨hpw, hmw⟩ := hbuck w hwn
        refine ⟨hpw, fun m => ?_⟩
        rw [hmw m, hrecchar w m]
        constructor
        · intro hold
          refine ⟨hold, fun hmn => ?_⟩
          subst hmn
          obtain ⟨r, hr, hrg⟩ := hold
          rw [hslot] at hr
          obtain rfl := Option.some.inj (Option.some.inj hr)
          rw [hgv] at hrg
          exact hwv (Option.some.inj hrg).symm
        · exact fun h => h.1
    · rw [if_neg hempty] at hfold
      refine ⟨_, hfold, VlKeysNodup_vlSet index (toKey v) _ hknd, ?_⟩
      intro w hwn
      by_cases hwv : w = v
      · subst hwv
        rw [vlGet_vlSet_self]
        simp only [Option.getD_some]
        refine ⟨removeNat_pairwise n₀ bucket hpairv, fun m => ?_⟩
        rw [mem_removeNat, hrecchar w m]
        rw [hmemv m]
      · have hne : toKey w ≠ toKey v := by
          rw [toKey_id, toKey_id]; exact hwv
        rw [vlGet_vlSet_ne index (toKey v) (toKey w) _ hne]
        obtain ⟨hpw, hmw⟩ := hbuck w hwn
        refine ⟨hpw, fun m => ?_⟩
        rw [hmw m, hrecchar w m]
        constructor
        · intro hold
          refine ⟨hold, fun hmn => ?_⟩
          subst hmn
          obtain ⟨r, hr, hrg⟩ := hold
          rw [hslot] at hr
          obtain rfl := Option.some.inj (Option.some.inj hr)
          rw [hgv] at hrg
          exact hwv (Option.some.inj hrg).symm
        · exact fun h => h.1

/-! ### `delete` on clean documents -/

theorem select_nil (d : DbDocument) : d.select [] = some d.everything := rfl

theorem alGet_base (pks : List String) (f : String) (hf : f ∈ pks) :
    alGet (pks.map fun g => ((g, []) : String × List (Val × List Nat))) f =
      some [] := by
  induction pks with
  | nil => exact absurd hf (List.not_mem_nil f)
  | cons p0 rest ih =>
    simp only [List.map_cons, alGet]
    by_cases hp : p0 = f
    · rw [if_pos hp]
    · rw [if_neg hp]
      rcases List.mem_cons.mp hf with rfl | hf'
      · exact absurd rfl hp
      · exact ih hf'

theorem clean_empty (pks sc : List String) (hne : pks ≠ [])
    (hnd : pks.Nodup) : Clean (mkDbDocument pks sc []) := by
  constructor
  · exact hne
  · exact hnd
  · intro r hr
    exact absurd hr (List.not_mem_nil _)
  · intro m n rm rn hm _ _
    exact Option.noConfusion hm
  · rfl
  · intro f hf
    refine ⟨[], ?_, List.nodup_nil, ?_⟩
    · show alGet (initIndexes pks []) f = some []
      rw [initIndexes_eq]
      exact alGet_base pks f hf
    · intro v _
      refine ⟨List.Pairwise.nil, fun n => ?_⟩
      simp only [vlGet, Option.getD_none, List.not_mem_nil, false_iff]
      rintro ⟨r, hr, _⟩
      exact Option.noConfusion hr

theorem recsOf_eq_everything_filterMap (rs : List (Option DbRecord)) :
    rs.filterMap id =
      (initEverything rs).filterMap fun n => (rs.get? n).getD none := by
  induction rs using List.reverseRecOn with
  | nil => rfl
  | append_singleton rs x ih =>
    rw [List.filterMap_append, initEverything_snoc, List.filterMap_append]
    congr 1
    · rw [ih]
      apply List.filterMap_congr
      intro n hn
      have hlt : n < rs.length := mem_initEverything_lt rs n hn
      rw [List.get?_append hlt]
    · cases x with
      | none => rfl
      | some r =>
        simp only [Option.isSome_some, if_pos, List.filterMap_cons,
          List.filterMap_nil]
        rw [List.get?_concat_length]
        rfl

theorem nodup_filterMap_of_inj {α β : Type _} (f : α → Option β) :
    ∀ (l : List α), l.Nodup →
      (∀ m n r, m ∈ l → n ∈ l → f m = some r → f n = some r → m = n) →
      (l.filterMap f).Nodup := by
  intro l
  induction l with
  | nil => intro _ _; exact List.nodup_nil
  | cons x xs ih =>
    intro hnd hinj
    rw [List.nodup_cons] at hnd
    rw [List.filterMap_cons]
    cases hfx : f x with
    | none =>
      exact ih hnd.2 fun m n r hm hn h1 h2 =>
        hinj m n r (List.mem_cons_of_mem _ hm) (List.mem_cons_of_mem _ hn)
          h1 h2
    | some r =>
      rw [List.nodup_cons]
      refine ⟨?_, ih hnd.2 fun m n r2 hm hn h1 h2 =>
        hinj m n r2 (List.mem_cons_of_mem _ hm) (List.mem_cons_of_mem _ hn)
          h1 h2⟩
      intro hmem
      obtain ⟨y, hy, hfy⟩ := List.mem_filterMap.mp hmem
      have : x = y := hinj x y r (List.mem_cons_self _ _)
        (List.mem_cons_of_mem _ hy) hfx hfy
      rw [this] at hnd
      exact hnd.1 hy

theorem recsOf_nodup (d : DbDocument) (hC : Clean d) :
    (recsOf d).Nodup := by
  rw [recsOf, recsOf_eq_everything_filterMap, ← hC.ev]
  apply nodup_filterMap_of_inj _ d.everything (everything_nodup d hC)
  intro m n r hm hn hfm hfn
  have hm' : d.records.get? m = some (some r) := by
    cases hg : d.records.get? m with
    | none => rw [hg] at hfm; exact Option.noConfusion hfm
    | some x => rw [hg] at hfm; rw [Option.getD_some] at hfm; rw [hfm]
  have hn' : d.records.get? n = some (some r) := by
    cases hg : d.records.get? n with
    | none => rw [hg] at hfn; exact Option.noConfusion hfn
    | some x => rw [hg] at hfn; rw [Option.getD_some] at hfn; rw [hfn]
  exact hC.pk_distinct m n r r hm' hn' rfl

theorem dbDeleteWhere_all (d : DbDocument) (hC : Clean d)
    (wOpt : Option DbRecord) (hwo : wOpt.getD [] = []) :
    ∃ d', dbDeleteWhere d wOpt = some d' ∧ Clean d' ∧
      d'.primaryKeys = d.primaryKeys ∧ d'.stringCols = d.stringCols ∧
      recsOf d' = [] := by
  by_cases hemp : d.everything = []
  · refine ⟨d, ?_, hC, rfl, rfl, ?_⟩
    · simp only [dbDeleteWhere, if_pos hemp]
    · rw [recsOf]
      have hlen : (d.records.filterMap id).length = 0 := by
        rw [← initEverything_length, ← hC.ev, hemp]
        rfl
      exact List.length_eq_zero.mp hlen
  · have hstep : dbDeleteWhere d wOpt =
        some (mkDbDocument d.primaryKeys d.stringCols []) := by
      simp only [dbDeleteWhere, if_neg hemp, hwo, select_nil]
      rw [if_pos trivial]
    exact ⟨_, hstep, clean_empty _ _ hC.pk_ne hC.pk_nodup, rfl, rfl, rfl⟩

theorem dbDeleteWhere_single (d : DbDocument) (hC : Clean d) (w : DbRecord)
    (hw : ∀ kv ∈ w, kv.1 ∈ d.primaryKeys ∧ kv.2 ≠ Val.vnull) (n₀ : Nat)
    (ra : DbRecord) (hslot : d.records.get? n₀ = some (some ra))
    (huniq : ∀ m, ((∃ r, d.records.get? m = some (some r)) ∧
      rowMatches d w m) ↔ m = n₀) :
    ∃ d', dbDeleteWhere d (some w) = some d' ∧ Clean d' ∧
      d'.primaryKeys = d.primaryKeys ∧ d'.stringCols = d.stringCols ∧
      ∀ r : DbRecord, some r ∈ d'.records ↔ some r ∈ d.records ∧ r ≠ ra := by
  have hsel : d.select w = some [n₀] := select_unique d hC w hw n₀ huniq
  have hemp : d.everything ≠ [] := by
    intro hh
    have : n₀ ∈ d.everything := (mem_everything_iff d hC n₀).mpr ⟨ra, hslot⟩
    rw [hh] at this
    exact absurd this (List.not_mem_nil n₀)
  have hca : CleanRec d.primaryKeys d.stringCols ra :=
    hC.recs_clean ra (List.get?_mem hslot)
  have hra : ∀ f ∈ d.primaryKeys, ∃ v, rget ra f = some v ∧ v ≠ .vnull := by
    intro f hf
    obtain ⟨v, hv⟩ := hca.pks f hf
    exact ⟨v, hv, (hca.vals f v hv).1⟩
  by_cases hlen : ([n₀] : List Nat).length = d.everything.length
  · have heq1 : d.everything = [n₀] := by
      apply nodup_singleton_of_mem_iff _ _ (everything_nodup d hC)
      intro x
      constructor
      · intro hx
        cases hcase : d.everything with
        | nil => rw [hcase] at hx; exact absurd hx (List.not_mem_nil x)
        | cons y ys =>
          have hys : ys = [] := by
            rw [hcase, List.length_singleton, List.length_cons] at hlen
            cases ys with
            | nil => rfl
            | cons z zs => simp at hlen
          subst hys
          rw [hcase] at hx
          have hy : y = n₀ := by
            have hn₀ : n₀ ∈ d.everything :=
              (mem_everything_iff d hC n₀).mpr ⟨ra, hslot⟩
            rw [hcase] at hn₀
            exact (List.mem_singleton.mp hn₀).symm
          rw [hy] at hx
          exact List.mem_singleton.mp hx
      · intro hx
        rw [hx]
        exact (mem_everything_iff d hC n₀).mpr ⟨ra, hslot⟩
    have hstep : dbDeleteWhere d (some w) =
        some (mkDbDocument d.primaryKeys d.stringCols []) := by
      simp only [dbDeleteWhere, if_neg hemp, Option.getD_some, hsel]
      rw [if_pos hlen]
    refine ⟨_, hstep, clean_empty _ _ hC.pk_ne hC.pk_nodup, rfl, rfl, ?_⟩
    intro r
    constructor
    · intro hr
      exact absurd hr (List.not_mem_nil _)
    · rintro ⟨hr, hne⟩
      obtain ⟨m, hm⟩ := List.mem_iff_get?.mp hr
      have : m ∈ d.everything := (mem_everything_iff d hC m).mpr ⟨r, hm⟩
      rw [heq1] at this
      obtain rfl := List.mem_singleton.mp this
      rw [hslot] at hm
      exact (hne (Option.some.inj (Option.some.inj hm)).symm).elim
  · have hn₀lt : n₀ < d.records.length := (List.get?_eq_some.mp hslot).1
    have hrecfold : ([n₀] : List Nat).foldl (fun rs n =>
        match (rs.get? n).getD none with
        | none => rs
        | some _ => rs.set n none) d.records = d.records.set n₀ none := by
      simp only [List.foldl_cons, List.foldl_nil, hslot, Option.getD_some]
    have hstep : dbDeleteWhere d (some w) = some
        ⟨d.primaryKeys, d.stringCols, d.records.set n₀ none,
          d.everything.filter fun n => ¬ ([n₀] : List Nat).contains n,
          d.primaryKeys.foldl (idxDelStep d.records [n₀]) d.indexes⟩ := by
      simp only [dbDeleteWhere, if_neg hemp, Option.getD_some, hsel,
        if_neg hlen]
      rw [hrecfold]
      rfl
    refine ⟨_, hstep, ?_, rfl, rfl, ?_⟩
    · constructor
      · exact hC.pk_ne
      · exact hC.pk_nodup
      · intro r hr
        obtain ⟨m, hm⟩ := List.mem_iff_get?.mp hr
        by_cases hmn : m = n₀
        · subst hmn
          rw [List.get?_set_eq] at hm
          rw [hslot] at hm
          exact Option.noConfusion (Option.some.inj hm)
        · rw [List.get?_set_ne _ _ fun hh => hmn hh.symm] at hm
          exact hC.recs_clean r (List.get?_mem hm)
      · intro m n rm rn hm hn hpk
        have hmne : m ≠ n₀ := by
          intro hh
          subst hh
          rw [List.get?_set_eq, hslot] at hm
          exact Option.noConfusion (Option.some.inj hm)
        have hnne : n ≠ n₀ := by
          intro hh
          subst hh
          rw [List.get?_set_eq, hslot] at hn
          exact Option.noConfusion (Option.some.inj hn)
        rw [List.get?_set_ne _ _ fun hh => hmne hh.symm] at hm
        rw [List.get?_set_ne _ _ fun hh => hnne hh.symm] at hn
        exact hC.pk_distinct m n rm rn hm hn hpk
      · show d.everything.filter (fun n => ¬ ([n₀] : List Nat).contains n) =
          initEverything (d.records.set n₀ none)
        rw [initEverything_set_none d.records n₀ hn₀lt, hC.ev]
        apply List.filter_congr
        intro n _
        by_cases hn : n = n₀
        · subst hn
          simp
        · simp [hn]
      · exact idxOK_del_single d.primaryKeys hC.pk_nodup d.records
          d.indexes (clean_idxOK d hC) n₀ ra hslot hra
    · intro r
      constructor
      · intro hr
        obtain ⟨m, hm⟩ := List.mem_iff_get?.mp hr
        have hmne : m ≠ n₀ := by
          intro hh
          subst hh
          rw [List.get?_set_eq, hslot] at hm
          exact Option.noConfusion (Option.some.inj hm)
        rw [List.get?_set_ne _ _ fun hh => hmne hh.symm] at hm
        refine ⟨List.get?_mem hm, fun hne => ?_⟩
        subst hne
        exact hmne (hC.pk_distinct m n₀ r r hm hslot rfl)
      · rintro ⟨hr, hne⟩
        obtain ⟨m, hm⟩ := List.mem_iff_get?.mp hr
        have hmne : m ≠ n₀ := by
          intro hh
          subst hh
          rw [hslot] at hm
          exact hne (Option.some.inj (Option.some.inj hm)).symm
        apply List.mem_iff_get?.mpr
        exact ⟨m, by
          rw [List.get?_set_ne _ _ fun hh => hmne hh.symm]
          exact hm⟩

/-! ### Glue facts for the round trip -/

theorem clean_size (d : DbDocument) (hC : Clean d) :
    d.size = (recsOf d).length := by
  rw [DbDocument.size, hC.ev, initEverything_length, recsOf]

theorem mem_pk_unique (d : DbDocument) (hC : Clean d) (r r' : DbRecord)
    (hr : some r ∈ d.records) (hr' : some r' ∈ d.records)
    (hpk : primaryKeyCols d.primaryKeys r =
      primaryKeyCols d.primaryKeys r') : r = r' := by
  obtain ⟨m, hm⟩ := List.mem_iff_get?.mp hr
  obtain ⟨n, hn⟩ := List.mem_iff_get?.mp hr'
  have := hC.pk_distinct m n r r' hm hn hpk
  subst this
  rw [hm] at hn
  exact Option.some.inj (Option.some.inj hn)

theorem isEqual_true_of (a b : DbDocument) (hsz : a.size = b.size)
    (hab : ∀ r : DbRecord, some r ∈ a.records → some r ∈ b.records)
    (hba : ∀ r : DbRecord, some r ∈ b.records → some r ∈ a.records) :
    a.isEqual b = true := by
  rw [DbDocument.isEqual]
  by_cases hrec : a.records = b.records
  · rw [if_pos hrec]
  · rw [if_neg hrec, if_neg (by
      intro hne
      exact hne hsz)]
    rw [listSetEq_iff]
    constructor
    · intro x hx
      rcases List.mem_cons.mp hx with rfl | hx'
      · exact List.mem_cons_self _ _
      · cases x with
        | none => exact List.mem_cons_self _ _
        | some r => exact List.mem_cons_of_mem _ (hab r hx')
    · intro x hx
      rcases List.mem_cons.mp hx with rfl | hx'
      · exact List.mem_cons_self _ _
      · cases x with
        | none => exact List.mem_cons_self _ _
        | some r => exact List.mem_cons_of_mem _ (hba r hx')

theorem mem_filterMap_id {α : Type _} (l : List (Option α)) (x : α) :
    x ∈ l.filterMap id ↔ some x ∈ l := by
  rw [List.mem_filterMap]
  constructor
  · rintro ⟨y, hy, hid⟩
    cases y with
    | none => exact Option.noConfusion hid
    | some z => rw [Option.some.inj hid] at hy; exact hy
  · intro h
    exact ⟨some x, h, rfl⟩

theorem primaryKeyPart_eq (pks : List String) (r : DbRecord) :
    primaryKeyPart pks r = primaryKeyCols pks r := rfl

theorem dbSetList_append (sdiff : StrDiff) :
    ∀ (xs ys : List DbRecord) (d : DbDocument),
      dbSetList sdiff d (xs ++ ys) =
        match dbSetList sdiff d xs with
        | none => none
        | some d' => dbSetList sdiff d' ys := by
  intro xs
  induction xs with
  | nil => intro ys d; rfl
  | cons x xs' ih =>
    intro ys d
    rw [List.cons_append, dbSetList, dbSetList]
    cases dbSetObj sdiff d x with
    | none => rfl
    | some d1 => exact ih ys d1

theorem pushInsertRecords_spec (b : DbDocument)
    (Q : DbRecord → DbRecord → Prop) :
    ∀ (ks acc : List DbRecord),
      (∀ p ∈ ks, ∃ rp, b.getOne p = some (some rp) ∧ Q p rp) →
      ∃ prs : List (DbRecord × DbRecord), prs.map Prod.fst = ks ∧
        pushInsertRecords b ks acc = some (acc ++ prs.map Prod.snd) ∧
        ∀ x ∈ prs, Q x.1 x.2 := by
  intro ks
  induction ks with
  | nil =>
    intro acc _
    exact ⟨[], rfl, by simp [pushInsertRecords],
      fun x hx => absurd hx (List.not_mem_nil x)⟩
  | cons p rest ih =>
    intro acc hks
    obtain ⟨rp, hget, hQ⟩ := hks p (List.mem_cons_self _ _)
    obtain ⟨prs, hfst, hrun, hall⟩ := ih (acc ++ [rp])
      (fun q hq => hks q (List.mem_cons_of_mem _ hq))
    refine ⟨(p, rp) :: prs, ?_, ?_, ?_⟩
    · rw [List.map_cons, hfst]
    · simp only [pushInsertRecords, hget]
      rw [hrun]
      simp
    · intro x hx
      rcases List.mem_cons.mp hx with rfl | hx'
      · exact hQ
      · exact hall x hx'

theorem changedLoop_spec (sdiff : StrDiff) (a b : DbDocument)
    (Q : DbRecord → DbRecord → Prop) :
    ∀ (ks acc : List DbRecord),
      (∀ p ∈ ks, ∃ o, changedPatchObj sdiff a b p = some (some o) ∧ Q p o) →
      ∃ prs : List (DbRecord × DbRecord), prs.map Prod.fst = ks ∧
        changedLoop sdiff a b ks acc = some (acc ++ prs.map Prod.snd) ∧
        ∀ x ∈ prs, Q x.1 x.2 := by
  intro ks
  induction ks with
  | nil =>
    intro acc _
    exact ⟨[], rfl, by simp [changedLoop],
      fun x hx => absurd hx (List.not_mem_nil x)⟩
  | cons p rest ih =>
    intro acc hks
    obtain ⟨o, hobj, hQ⟩ := hks p (List.mem_cons_self _ _)
    obtain ⟨prs, hfst, hrun, hall⟩ := ih (acc ++ [o])
      (fun q hq => hks q (List.mem_cons_of_mem _ hq))
    refine ⟨(p, o) :: prs, ?_, ?_, ?_⟩
    · rw [List.map_cons, hfst]
    · simp only [changedLoop, hobj]
      rw [hrun]
      simp
    · intro x hx
      rcases List.mem_cons.mp hx with rfl | hx'
      · exact hQ
      · exact hall x hx'

/-! ### The three phases of applying a table patch -/

theorem dbDeleteList_spec (pks sc : List String) :
    ∀ (ws : List DbRecord) (d : DbDocument),
      Clean d → d.primaryKeys = pks → d.stringCols = sc →
      ws.Nodup →
      (∀ p ∈ ws, RecCanon p ∧ (∀ kv ∈ p, kv.1 ∈ pks ∧ kv.2 ≠ Val.vnull) ∧
        ∀ f ∈ pks, ∃ v, rget p f = some v) →
      (∀ p ∈ ws, ∃ r, some r ∈ d.records ∧ primaryKeyCols pks r = p) →
      ∃ d', dbDeleteList d ws = some d' ∧ Clean d' ∧
        d'.primaryKeys = pks ∧ d'.stringCols = sc ∧
        ∀ r : DbRecord, some r ∈ d'.records ↔
          (some r ∈ d.records ∧ primaryKeyCols pks r ∉ ws) := by
  intro ws
  induction ws with
  | nil =>
    intro d hC hdp hds _ _ _
    refine ⟨d, rfl, hC, hdp, hds, fun r => ?_⟩
    simp
  | cons p rest ih =>
    intro d hC hdp hds hnd hshape hpresent
    rw [List.nodup_cons] at hnd
    obtain ⟨hpcan, hpfields, hpfull⟩ := hshape p (List.mem_cons_self _ _)
    obtain ⟨ra, hmem, hpk⟩ := hpresent p (List.mem_cons_self _ _)
    obtain ⟨n₀, hslot⟩ := List.mem_iff_get?.mp hmem
    have hrclean : ∀ r, some r ∈ d.records →
        CleanRec pks sc r := by
      intro r hr
      have := hC.recs_clean r hr
      rw [hdp, hds] at this
      exact this
    have hw : ∀ kv ∈ p, kv.1 ∈ d.primaryKeys ∧ kv.2 ≠ Val.vnull := by
      intro kv hkv
      rw [hdp]
      exact hpfields kv hkv
    have hpkeys : ∀ f, f ∉ pks → rget p f = none := by
      intro f hf
      apply rget_none_of_not_mem
      intro hmemf
      obtain ⟨kv, hkv, hfst⟩ := List.mem_map.mp hmemf
      exact hf (hfst ▸ (hpfields kv hkv).1)
    have hpk_of_matches : ∀ (r : DbRecord), RecCanon r →
        (∀ kv ∈ p, rget r kv.1 = some kv.2) →
        primaryKeyCols pks r = p := by
      intro r hrc hmat
      apply rec_ext _ _ (RecCanon_primaryKeyCols pks r hrc) hpcan
      intro f
      rw [rget_primaryKeyCols pks r hrc f]
      by_cases hf : pks.contains f = true
      · obtain ⟨vf, hvf⟩ := hpfull f (List.elem_iff.mp hf)
        rw [hmat (f, vf) (mem_of_rget p f vf hvf), hvf]
        simp only [Option.some_bind]
        rw [if_pos hf]
      · rw [hpkeys f fun hmemf => hf (List.elem_iff.mpr hmemf)]
        cases hg : rget r f with
        | none => rfl
        | some u =>
          simp only [Option.some_bind]
          rw [if_neg hf]
    have hmatches_of_pk : ∀ kv ∈ p, rget ra kv.1 = some kv.2 := by
      intro kv hkv
      have h1 : rget (primaryKeyCols pks ra) kv.1 = some kv.2 := by
        rw [hpk]
        exact rget_of_mem_canon p hpcan kv.1 kv.2 hkv
      rw [rget_primaryKeyCols pks ra (hrclean ra hmem).canon kv.1] at h1
      cases hg : rget ra kv.1 with
      | none =>
        rw [hg] at h1
        simp at h1
      | some u =>
        rw [hg] at h1
        simp only [Option.some_bind] at h1
        rw [if_pos (List.elem_iff.mpr (hpfields kv hkv).1)] at h1
        exact h1
    have huniq : ∀ m, ((∃ r, d.records.get? m = some (some r)) ∧
        rowMatches d p m) ↔ m = n₀ := by
      intro m
      constructor
      · rintro ⟨⟨r, hr⟩, hmat⟩
        have hmat' : ∀ kv ∈ p, rget r kv.1 = some kv.2 := by
          intro kv hkv
          obtain ⟨r', hr', hrg⟩ := hmat kv hkv
          rw [hr] at hr'
          obtain rfl := Option.some.inj (Option.some.inj hr')
          exact hrg
        have heq := hpk_of_matches r (hrclean r (List.get?_mem hr)).canon
          hmat'
        have heq2 : primaryKeyCols d.primaryKeys r =
            primaryKeyCols d.primaryKeys ra := by
          rw [hdp, heq, hpk]
        exact hC.pk_distinct m n₀ r ra hr hslot heq2
      · rintro rfl
        exact ⟨⟨ra, hslot⟩, fun kv hkv => ⟨ra, hslot, hmatches_of_pk kv hkv⟩⟩
    obtain ⟨d₁, hdel, hC₁, hp₁, hs₁, hmem₁⟩ :=
      dbDeleteWhere_single d hC p hw n₀ ra hslot huniq
    obtain ⟨d₂, hrun, hC₂, hp₂, hs₂, hmem₂⟩ := ih d₁ hC₁ (hp₁.trans hdp)
      (hs₁.trans hds) hnd.2
      (fun q hq => hshape q (List.mem_cons_of_mem _ hq))
      (by
        intro q hq
        obtain ⟨rq, hrq, hpkq⟩ := hpresent q (List.mem_cons_of_mem _ hq)
        refine ⟨rq, (hmem₁ rq).mpr ⟨hrq, fun hh => ?_⟩, hpkq⟩
        subst hh
        rw [hpkq] at hpk
        exact hnd.1 (hpk ▸ hq))
    refine ⟨d₂, ?_, hC₂, hp₂, hs₂, fun r => ?_⟩
    · simp only [dbDeleteList, hdel]
      exact hrun
    · rw [hmem₂ r]
      constructor
      · rintro ⟨hr1, hnin⟩
        obtain ⟨hrd, hne⟩ := (hmem₁ r).mp hr1
        refine ⟨hrd, fun hin => ?_⟩
        rcases List.mem_cons.mp hin with heq | hin'
        · apply hne
          apply mem_pk_unique d hC r ra hrd hmem
          rw [hdp, heq, hpk]
        · exact hnin hin'
      · rintro ⟨hrd, hnin⟩
        refine ⟨(hmem₁ r).mpr ⟨hrd, fun hh => ?_⟩, fun hin =>
          hnin (List.mem_cons_of_mem _ hin)⟩
        subst hh
        exact hnin (hpk ▸ List.mem_cons_self _ _)

theorem dbSetList_insert_spec (sdiff : StrDiff) (pks sc : List String) :
    ∀ (os : List DbRecord) (d : DbDocument),
      Clean d → d.primaryKeys = pks → d.stringCols = sc →
      (∀ o ∈ os, CleanRec pks sc o) →
      ((os.map (primaryKeyCols pks)).Nodup) →
      (∀ o ∈ os, ∀ r, some r ∈ d.records →
        primaryKeyCols pks r ≠ primaryKeyCols pks o) →
      ∃ d', dbSetList sdiff d os = some d' ∧ Clean d' ∧
        d'.primaryKeys = pks ∧ d'.stringCols = sc ∧
        ∀ r : DbRecord, some r ∈ d'.records ↔
          (some r ∈ d.records ∨ r ∈ os) := by
  intro os
  induction os with
  | nil =>
    intro d hC hdp hds _ _ _
    refine ⟨d, rfl, hC, hdp, hds, fun r => ?_⟩
    simp
  | cons o rest ih =>
    intro d hC hdp hds hclean hnd hfresh
    rw [List.map_cons, List.nodup_cons] at hnd
    have hco : CleanRec d.primaryKeys d.stringCols o := by
      rw [hdp, hds]
      exact hclean o (List.mem_cons_self _ _)
    obtain ⟨d₁, hins, hC₁, hp₁, hs₁, hrec₁⟩ := dbSetObj_insert sdiff d hC o
      hco (by
        intro m r hr heq
        have := hfresh o (List.mem_cons_self _ _) r (List.get?_mem hr)
        rw [hdp] at heq
        exact this heq)
    have hmem₁ : ∀ r : DbRecord, some r ∈ d₁.records ↔
        (some r ∈ d.records ∨ r = o) := by
      intro r
      rw [hrec₁, List.mem_append, List.mem_singleton]
      constructor
      · rintro (h | h)
        · exact Or.inl h
        · exact Or.inr (Option.some.inj h)
      · rintro (h | rfl)
        · exact Or.inl h
        · exact Or.inr rfl
    obtain ⟨d₂, hrun, hC₂, hp₂, hs₂, hmem₂⟩ := ih d₁ hC₁ (hp₁.trans hdp)
      (hs₁.trans hds) (fun o' ho' => hclean o' (List.mem_cons_of_mem _ ho'))
      hnd.2
      (by
        intro o' ho' r hr heq
        rcases (hmem₁ r).mp hr with hrd | rfl
        · exact hfresh o' (List.mem_cons_of_mem _ ho') r hrd heq
        · exact hnd.1 (heq ▸ List.mem_map.mpr ⟨o', ho', rfl⟩))
    refine ⟨d₂, ?_, hC₂, hp₂, hs₂, fun r => ?_⟩
    · rw [dbSetList, hins]
      exact hrun
    · rw [hmem₂ r, hmem₁ r]
      constructor
      · rintro ((h | rfl) | h)
        · exact Or.inl h
        · exact Or.inr (List.mem_cons_self _ _)
        · exact Or.inr (List.mem_cons_of_mem _ h)
      · rintro (h | hin)
        · exact Or.inl (Or.inl h)
        · rcases List.mem_cons.mp hin with rfl | hin'
          · exact Or.inl (Or.inr rfl)
          · exact Or.inr hin'

theorem dbSetList_update_spec (sdiff : StrDiff) (pks sc : List String)
    (hrt : RoundTrips sdiff) :
    ∀ (ts : List (DbRecord × DbRecord × DbRecord)) (d : DbDocument),
      Clean d → d.primaryKeys = pks → d.stringCols = sc →
      (∀ t ∈ ts, CleanRec pks sc t.2.1 ∧ CleanRec pks sc t.2.2 ∧
        t.2.1 ≠ t.2.2 ∧
        primaryKeyCols pks t.2.1 = primaryKeyCols pks t.2.2 ∧
        t.1 = t.2.2.foldl (cpoStep2 sdiff sc t.2.1)
          (t.2.1.foldl (cpoStep1 t.2.2) (primaryKeyCols pks t.2.2)) ∧
        some t.2.1 ∈ d.records) →
      ((ts.map fun t => primaryKeyCols pks t.2.1).Nodup) →
      ∃ d', dbSetList sdiff d (ts.map Prod.fst) = some d' ∧ Clean d' ∧
        d'.primaryKeys = pks ∧ d'.stringCols = sc ∧
        ∀ r : DbRecord, some r ∈ d'.records ↔
          ((some r ∈ d.records ∧ ∀ t ∈ ts, r ≠ t.2.1) ∨
            ∃ t ∈ ts, r = t.2.2) := by
  intro ts
  induction ts with
  | nil =>
    intro d hC hdp hds _ _
    refine ⟨d, rfl, hC, hdp, hds, fun r => ?_⟩
    simp
  | cons t rest ih =>
    intro d hC hdp hds hfacts hnd
    rw [List.map_cons, List.nodup_cons] at hnd
    obtain ⟨hcra, hcrb, hne, hpkeq, huo, hmem⟩ :=
      hfacts t (List.mem_cons_self _ _)
    obtain ⟨uo, ra, rb⟩ := t
    obtain ⟨n₀, hslot⟩ := List.mem_iff_get?.mp hmem
    obtain ⟨d₁, hupd, hC₁, hp₁, hs₁, hrec₁⟩ := dbSetObj_update sdiff d hC
      hrt n₀ ra rb hslot (by rw [hdp, hds]; exact hcrb)
      (by rw [hdp]; exact hpkeq) hne uo (by rw [hdp, hds]; exact huo)
    have hmem₁ : ∀ r : DbRecord, some r ∈ d₁.records ↔
        ((some r ∈ d.records ∧ r ≠ ra) ∨ r = rb) := by
      intro r
      rw [hrec₁]
      constructor
      · intro hr
        obtain ⟨m, hm⟩ := List.mem_iff_get?.mp hr
        by_cases hmn : m = n₀
        · subst hmn
          rw [List.get?_set_eq, hslot] at hm
          exact Or.inr (Option.some.inj (Option.some.inj hm)).symm
        · rw [List.get?_set_ne _ _ fun hh => hmn hh.symm] at hm
          refine Or.inl ⟨List.get?_mem hm, fun hh => ?_⟩
          subst hh
          exact hmn (hC.pk_distinct m n₀ r r hm hslot rfl)
      · rintro (⟨hrd, hra⟩ | rfl)
        · obtain ⟨m, hm⟩ := List.mem_iff_get?.mp hrd
          have hmn : m ≠ n₀ := by
            intro hh
            subst hh
            rw [hslot] at hm
            exact hra (Option.some.inj (Option.some.inj hm)).symm
          exact List.mem_iff_get?.mpr ⟨m, by
            rw [List.get?_set_ne _ _ fun hh => hmn hh.symm]
            exact hm⟩
        · exact List.mem_iff_get?.mpr ⟨n₀, by
            rw [List.get?_set_eq, hslot]
            rfl⟩
    obtain ⟨d₂, hrun, hC₂, hp₂, hs₂, hmem₂⟩ := ih d₁ hC₁ (hp₁.trans hdp)
      (hs₁.trans hds)
      (by
        intro t' ht'
        obtain ⟨h1, h2, h3, h4, h5, h6⟩ :=
          hfacts t' (List.mem_cons_of_mem _ ht')
        refine ⟨h1, h2, h3, h4, h5, (hmem₁ t'.2.1).mpr (Or.inl ⟨h6, ?_⟩)⟩
        intro hh
        apply hnd.1
        rw [← hh]
        exact List.mem_map.mpr ⟨t', ht', rfl⟩)
      hnd.2
    refine ⟨d₂, ?_, hC₂, hp₂, hs₂, fun r => ?_⟩
    · rw [List.map_cons, dbSetList, hupd]
      exact hrun
    · rw [hmem₂ r]
      have hrbne : ∀ t' ∈ rest, rb ≠ t'.2.1 := by
        intro t' ht' hh
        apply hnd.1
        have hpk' : primaryKeyCols pks t'.2.1 = primaryKeyCols pks ra := by
          rw [← hh, ← hpkeq]
        rw [← hpk']
        exact List.mem_map.mpr ⟨t', ht', rfl⟩
      constructor
      · rintro (⟨hr1, hall⟩ | ⟨t', ht', hrb⟩)
        · rcases (hmem₁ r).mp hr1 with ⟨hrd, hra⟩ | hrb
          · refine Or.inl ⟨hrd, fun t' ht' => ?_⟩
            rcases List.mem_cons.mp ht' with heq | ht''
            · rw [heq]; exact hra
            · exact hall t' ht''
          · exact Or.inr ⟨(uo, ra, rb), List.mem_cons_self _ _, hrb⟩
        · exact Or.inr ⟨t', List.mem_cons_of_mem _ ht', hrb⟩
      · rintro (⟨hrd, hall⟩ | ⟨t', ht', hrb⟩)
        · refine Or.inl ⟨(hmem₁ r).mpr (Or.inl ⟨hrd,
            hall (uo, ra, rb) (List.mem_cons_self _ _)⟩), fun t' ht' =>
            hall t' (List.mem_cons_of_mem _ ht')⟩
        · rcases List.mem_cons.mp ht' with heq | ht''
          · refine Or.inl ⟨(hmem₁ r).mpr (Or.inr ?_), fun t'' ht'' => ?_⟩
            · rw [hrb, heq]
            · rw [hrb, heq]
              exact hrbne t'' ht''
          · exact Or.inr ⟨t', ht'', hrb⟩

theorem makePatch_eq (sdiff : StrDiff) (a b : DbDocument) :
    DbDocument.makePatch sdiff a b =
      if b.size = 0 then some [.op (-1), .objs [[]]]
      else if mpT0 a b = [] then some [.op 1, .objs (mpT1 a b)]
      else if mpT1 a b = [] then
        some [.op (-1), .objs ((mpT0 a b).map (primaryKeyPart a.primaryKeys))]
      else
        match pushInsertRecords b (mpInserts a b) [] with
        | none => none
        | some addIns =>
          match changedLoop sdiff a b (mpChanged a b) addIns with
          | none => none
          | some add =>
            some ((if mpDeletes a b ≠ [] then [.op (-1), .objs (mpDeletes a b)]
                else []) ++
              (if add ≠ [] then [.op 1, .objs add] else [])) := rfl

theorem mem_mpT0 (a b : DbDocument) (r : DbRecord) :
    r ∈ mpT0 a b ↔ some r ∈ a.records ∧ ¬ some r ∈ b.records := by
  rw [mpT0, mem_filterMap_id, List.mem_filter, mem_dedupKeepFirst]
  simp only [decide_eq_true_eq]
  constructor
  · rintro ⟨h1, h2⟩
    refine ⟨h1, fun hb => h2 (Or.inl ?_)⟩
    exact List.elem_iff.mpr ((mem_dedupKeepFirst _ _).mpr hb)
  · rintro ⟨h1, h2⟩
    refine ⟨h1, ?_⟩
    rintro (hc | hn)
    · exact h2 ((mem_dedupKeepFirst _ _).mp (List.elem_iff.mp hc))
    · exact Option.noConfusion hn

theorem mem_mpT1 (a b : DbDocument) (r : DbRecord) :
    r ∈ mpT1 a b ↔ some r ∈ b.records ∧ ¬ some r ∈ a.records := by
  rw [mpT1, mem_filterMap_id, List.mem_filter, mem_dedupKeepFirst]
  simp only [decide_eq_true_eq]
  constructor
  · rintro ⟨h1, h2⟩
    refine ⟨h1, fun ha => h2 (Or.inl ?_)⟩
    exact List.elem_iff.mpr ((mem_dedupKeepFirst _ _).mpr ha)
  · rintro ⟨h1, h2⟩
    refine ⟨h1, ?_⟩
    rintro (hc | hn)
    · exact h2 ((mem_dedupKeepFirst _ _).mp (List.elem_iff.mp hc))
    · exact Option.noConfusion hn

theorem nodup_mpT0 (a b : DbDocument) : (mpT0 a b).Nodup := by
  rw [mpT0]
  apply nodup_filterMap_of_inj
  · exact (dedupKeepFirst_nodup _).filter _
  · intro m n r _ _ h1 h2
    exact h1.trans h2.symm

theorem nodup_mpT1 (a b : DbDocument) : (mpT1 a b).Nodup := by
  rw [mpT1]
  apply nodup_filterMap_of_inj
  · exact (dedupKeepFirst_nodup _).filter _
  · intro m n r _ _ h1 h2
    exact h1.trans h2.symm

theorem mem_mpK0 (a b : DbDocument) (k : DbRecord) :
    k ∈ mpK0 a b ↔ ∃ r, some r ∈ a.records ∧ ¬ some r ∈ b.records ∧
      primaryKeyCols a.primaryKeys r = k := by
  rw [mpK0, mem_dedupKeepFirst, List.mem_map]
  constructor
  · rintro ⟨r, hr, hk⟩
    obtain ⟨h1, h2⟩ := (mem_mpT0 a b r).mp hr
    exact ⟨r, h1, h2, hk⟩
  · rintro ⟨r, h1, h2, hk⟩
    exact ⟨r, (mem_mpT0 a b r).mpr ⟨h1, h2⟩, hk⟩

theorem mem_mpK1 (a b : DbDocument) (hpk : b.primaryKeys = a.primaryKeys)
    (k : DbRecord) :
    k ∈ mpK1 a b ↔ ∃ r, some r ∈ b.records ∧ ¬ some r ∈ a.records ∧
      primaryKeyCols a.primaryKeys r = k := by
  rw [mpK1, mem_dedupKeepFirst, List.mem_map]
  constructor
  · rintro ⟨r, hr, hk⟩
    rw [hpk] at hk
    obtain ⟨h1, h2⟩ := (mem_mpT1 a b r).mp hr
    exact ⟨r, h1, h2, hk⟩
  · rintro ⟨r, h1, h2, hk⟩
    refine ⟨r, (mem_mpT1 a b r).mpr ⟨h1, h2⟩, ?_⟩
    rw [hpk]
    exact hk

theorem nodup_mpK0 (a b : DbDocument) : (mpK0 a b).Nodup :=
  dedupKeepFirst_nodup _

theorem nodup_mpK1 (a b : DbDocument) : (mpK1 a b).Nodup :=
  dedupKeepFirst_nodup _

theorem mem_mpDeletes (a b : DbDocument) (hca : Clean a) (hcb : Clean b)
    (hpk : b.primaryKeys = a.primaryKeys) (k : DbRecord) :
    k ∈ mpDeletes a b ↔
      (∃ ra, some ra ∈ a.records ∧ primaryKeyCols a.primaryKeys ra = k) ∧
      ∀ rb, some rb ∈ b.records → primaryKeyCols a.primaryKeys rb ≠ k := by
  rw [mpDeletes, List.mem_filter]
  simp only [decide_eq_true_eq]
  constructor
  · rintro ⟨hk0, hk1⟩
    obtain ⟨ra, hA, hnB, hpka⟩ := (mem_mpK0 a b k).mp hk0
    refine ⟨⟨ra, hA, hpka⟩, fun rb hB hpkb => ?_⟩
    by_cases hrbA : some rb ∈ a.records
    · have heq : ra = rb :=
        mem_pk_unique a hca ra rb hA hrbA (hpka.trans hpkb.symm)
      exact hnB (heq ▸ hB)
    · apply hk1
      apply List.elem_iff.mpr
      exact (mem_mpK1 a b hpk k).mpr ⟨rb, hB, hrbA, hpkb⟩
  · rintro ⟨⟨ra, hA, hpka⟩, hnoB⟩
    have hnB : ¬ some ra ∈ b.records := fun hB => hnoB ra hB hpka
    refine ⟨(mem_mpK0 a b k).mpr ⟨ra, hA, hnB, hpka⟩, fun hc => ?_⟩
    obtain ⟨rb, hB, _, hpkb⟩ :=
      (mem_mpK1 a b hpk k).mp (List.elem_iff.mp hc)
    exact hnoB rb hB hpkb

theorem mem_mpInserts (a b : DbDocument) (hca : Clean a) (hcb : Clean b)
    (hpk : b.primaryKeys = a.primaryKeys) (k : DbRecord) :
    k ∈ mpInserts a b ↔
      (∃ rb, some rb ∈ b.records ∧ primaryKeyCols a.primaryKeys rb = k) ∧
      ∀ ra, some ra ∈ a.records → primaryKeyCols a.primaryKeys ra ≠ k := by
  rw [mpInserts, List.mem_filter]
  simp only [decide_eq_true_eq]
  constructor
  · rintro ⟨hk1, hk0⟩
    obtain ⟨rb, hB, hnA, hpkb⟩ := (mem_mpK1 a b hpk k).mp hk1
    refine ⟨⟨rb, hB, hpkb⟩, fun ra hA hpka => ?_⟩
    by_cases hraB : some ra ∈ b.records
    · have heq : ra = rb := mem_pk_unique b hcb ra rb hraB hB (by
        rw [hpk]
        exact hpka.trans hpkb.symm)
      exact hnA (heq ▸ hA)
    · apply hk0
      apply List.elem_iff.mpr
      exact (mem_mpK0 a b k).mpr ⟨ra, hA, hraB, hpka⟩
  · rintro ⟨⟨rb, hB, hpkb⟩, hnoA⟩
    have hnA : ¬ some rb ∈ a.records := fun hA => hnoA rb hA hpkb
    refine ⟨(mem_mpK1 a b hpk k).mpr ⟨rb, hB, hnA, hpkb⟩, fun hc => ?_⟩
    obtain ⟨ra, hA, _, hpka⟩ := (mem_mpK0 a b k).mp (List.elem_iff.mp hc)
    exact hnoA ra hA hpka

theorem mem_mpChanged (a b : DbDocument) (hca : Clean a) (hcb : Clean b)
    (hpk : b.primaryKeys = a.primaryKeys) (k : DbRecord) :
    k ∈ mpChanged a b ↔
      ∃ ra rb, some ra ∈ a.records ∧ some rb ∈ b.records ∧
        primaryKeyCols a.primaryKeys ra = k ∧
        primaryKeyCols a.primaryKeys rb = k ∧ ra ≠ rb := by
  rw [mpChanged, List.mem_filter]
  constructor
  · rintro ⟨hk1, hk0⟩
    obtain ⟨rb, hB, hnA, hpkb⟩ := (mem_mpK1 a b hpk k).mp hk1
    obtain ⟨ra, hA, hnB, hpka⟩ :=
      (mem_mpK0 a b k).mp (List.elem_iff.mp hk0)
    refine ⟨ra, rb, hA, hB, hpka, hpkb, fun heq => ?_⟩
    exact hnB (heq ▸ hB)
  · rintro ⟨ra, rb, hA, hB, hpka, hpkb, hne⟩
    have hnB : ¬ some ra ∈ b.records := by
      intro hraB
      exact hne (mem_pk_unique b hcb ra rb hraB hB (by
        rw [hpk]
        exact hpka.trans hpkb.symm))
    have hnA : ¬ some rb ∈ a.records := by
      intro hrbA
      exact hne (mem_pk_unique a hca ra rb hA hrbA
        (hpka.trans hpkb.symm))
    refine ⟨(mem_mpK1 a b hpk k).mpr ⟨rb, hB, hnA, hpkb⟩, ?_⟩
    exact List.elem_iff.mpr ((mem_mpK0 a b k).mpr ⟨ra, hA, hnB, hpka⟩)

theorem mpT0_nil_iff (a b : DbDocument) :
    mpT0 a b = [] ↔
      ∀ r : DbRecord, some r ∈ a.records → some r ∈ b.records := by
  rw [List.eq_nil_iff_forall_not_mem]
  constructor
  · intro h r hA
    by_contra hB
    exact h r ((mem_mpT0 a b r).mpr ⟨hA, hB⟩)
  · intro h r hr
    obtain ⟨hA, hB⟩ := (mem_mpT0 a b r).mp hr
    exact hB (h r hA)

theorem mpT1_nil_iff (a b : DbDocument) :
    mpT1 a b = [] ↔
      ∀ r : DbRecord, some r ∈ b.records → some r ∈ a.records := by
  rw [List.eq_nil_iff_forall_not_mem]
  constructor
  · intro h r hB
    by_contra hA
    exact h r ((mem_mpT1 a b r).mpr ⟨hB, hA⟩)
  · intro h r hr
    obtain ⟨hB, hA⟩ := (mem_mpT1 a b r).mp hr
    exact hA (h r hB)

theorem pkcols_shape (pks sc : List String) (r : DbRecord)
    (hcr : CleanRec pks sc r) :
    RecCanon (primaryKeyCols pks r) ∧
    (∀ kv ∈ primaryKeyCols pks r, kv.1 ∈ pks ∧ kv.2 ≠ Val.vnull) ∧
    ∀ f ∈ pks, ∃ v, rget (primaryKeyCols pks r) f = some v := by
  refine ⟨RecCanon_primaryKeyCols pks r hcr.canon, ?_, ?_⟩
  · rintro ⟨k, v⟩ hkv
    rw [primaryKeyCols, List.mem_filter] at hkv
    refine ⟨List.elem_iff.mp hkv.2, ?_⟩
    exact (hcr.vals k v (rget_of_mem_canon r hcr.canon k v hkv.1)).1
  · intro f hf
    obtain ⟨v, hv⟩ := hcr.pks f hf
    refine ⟨v, ?_⟩
    rw [rget_primaryKeyCols pks r hcr.canon f, hv]
    simp only [Option.some_bind]
    rw [if_pos (List.elem_iff.mpr hf)]

theorem pkcols_idem (pks : List String) (r : DbRecord) :
    primaryKeyCols pks (primaryKeyCols pks r) = primaryKeyCols pks r := by
  apply List.filter_eq_self.mpr
  intro kv hkv
  exact (List.mem_filter.mp hkv).2

theorem getOne_pk (d : DbDocument) (hC : Clean d) (ra : DbRecord)
    (hmem : some ra ∈ d.records) :
    d.getOne (primaryKeyCols d.primaryKeys ra) = some (some ra) := by
  obtain ⟨n₀, hslot⟩ := List.mem_iff_get?.mp hmem
  have hcra : CleanRec d.primaryKeys d.stringCols ra := hC.recs_clean ra hmem
  obtain ⟨hpcan, hpfields, hpfull⟩ :=
    pkcols_shape d.primaryKeys d.stringCols ra hcra
  apply getOne_unique d hC _ hpfields n₀ ra hslot
  intro m
  constructor
  · rintro ⟨⟨r, hr⟩, hmat⟩
    have hcr : CleanRec d.primaryKeys d.stringCols r :=
      hC.recs_clean r (List.get?_mem hr)
    have hmat' : ∀ kv ∈ primaryKeyCols d.primaryKeys ra,
        rget r kv.1 = some kv.2 := by
      intro kv hkv
      obtain ⟨r', hr', hrg⟩ := hmat kv hkv
      rw [hr] at hr'
      obtain rfl := Option.some.inj (Option.some.inj hr')
      exact hrg
    have heq : primaryKeyCols d.primaryKeys r =
        primaryKeyCols d.primaryKeys ra := by
      apply rec_ext _ _ (RecCanon_primaryKeyCols _ r hcr.canon) hpcan
      intro f
      rw [rget_primaryKeyCols _ r hcr.canon f]
      by_cases hf : d.primaryKeys.contains f = true
      · obtain ⟨vf, hvf⟩ := hpfull f (List.elem_iff.mp hf)
        rw [hmat' (f, vf) (mem_of_rget _ f vf hvf), hvf]
        simp only [Option.some_bind]
        rw [if_pos hf]
      · have hnone : rget (primaryKeyCols d.primaryKeys ra) f = none := by
          apply rget_none_of_not_mem
          intro hmemf
          obtain ⟨kv, hkv, hfst⟩ := List.mem_map.mp hmemf
          exact hf (List.elem_iff.mpr (hfst ▸ (hpfields kv hkv).1))
        rw [hnone]
        cases rget r f with
        | none => rfl
        | some u =>
          simp only [Option.some_bind]
          rw [if_neg hf]
    exact hC.pk_distinct m n₀ r ra hr hslot heq
  · rintro rfl
    refine ⟨⟨ra, hslot⟩, fun kv hkv => ⟨ra, hslot, ?_⟩⟩
    rw [primaryKeyCols, List.mem_filter] at hkv
    exact rget_of_mem_canon ra hcra.canon kv.1 kv.2 hkv.1

theorem isEqual_of_mem_iff (d b : DbDocument) (hCd : Clean d)
    (hCb : Clean b)
    (h : ∀ r : DbRecord, some r ∈ d.records ↔ some r ∈ b.records) :
    d.isEqual b = true := by
  have hperm : (recsOf d).Perm (recsOf b) := by
    rw [List.perm_ext_iff_of_nodup (recsOf_nodup d hCd) (recsOf_nodup b hCb)]
    intro r
    rw [mem_recsOf, mem_recsOf]
    exact h r
  apply isEqual_true_of
  · rw [clean_size d hCd, clean_size b hCb]
    exact hperm.length_eq
  · exact fun r hr => (h r).mp hr
  · exact fun r hr => (h r).mpr hr

theorem exists_triples {α β γ : Type _} (P : α → β × γ → Prop) :
    ∀ l : List α, (∀ x ∈ l, ∃ yz : β × γ, P x yz) →
      ∃ ts : List (α × β × γ), ts.map Prod.fst = l ∧
        ∀ t ∈ ts, P t.1 t.2 := by
  intro l
  induction l with
  | nil =>
    intro _
    exact ⟨[], rfl, fun t ht => absurd ht (List.not_mem_nil t)⟩
  | cons x xs ih =>
    intro h
    obtain ⟨yz, hyz⟩ := h x (List.mem_cons_self _ _)
    obtain ⟨ts, hfst, hall⟩ := ih fun y hy => h y (List.mem_cons_of_mem _ hy)
    refine ⟨(x, yz) :: ts, ?_, ?_⟩
    · rw [List.map_cons, hfst]
    · intro t ht
      rcases List.mem_cons.mp ht with rfl | ht'
      · exact hyz
      · exact hall t ht'

theorem clean_single (pks sc : List String) (r : DbRecord)
    (hne : pks ≠ []) (hnd : pks.Nodup) (hcr : CleanRec pks sc r) :
    Clean (mkDbDocument pks sc [some r]) := by
  have hok0 : IdxOK pks []
      (pks.map fun f => ((f, []) : String × List (Val × List Nat))) :=
    clean_idxOK (mkDbDocument pks sc []) (clean_empty pks sc hne hnd)
  have hrb : ∀ f ∈ pks, ∃ v, rget r f = some v ∧ v ≠ .vnull := by
    intro f hf
    obtain ⟨v, hv⟩ := hcr.pks f hf
    exact ⟨v, hv, (hcr.vals f v hv).1⟩
  have hok : IdxOK pks [some r] (initIndexes pks [some r]) :=
    idxOK_add pks hnd []
      (pks.map fun f => ((f, []) : String × List (Val × List Nat)))
      hok0 r hrb
  constructor
  · exact hne
  · exact hnd
  · intro r' hr'
    obtain heq := List.mem_singleton.mp hr'
    obtain rfl := Option.some.inj heq
    exact hcr
  · intro m n rm rn hm hn _
    cases m with
    | zero =>
      cases n with
      | zero => rfl
      | succ k =>
        exact Option.noConfusion
          (show (none : Option (Option DbRecord)) = some (some rn) from hn)
    | succ k =>
      exact Option.noConfusion
        (show (none : Option (Option DbRecord)) = some (some rm) from hm)
  · rfl
  · exact hok

theorem cleanRec_idx (xv : Int) :
    CleanRec ["id"] [] [("id", Val.vnum 1), ("x", Val.vnum xv)] := by
  constructor
  · show List.Pairwise (fun a b => ltStr a b = true) ["id", "x"]
    decide
  · intro f v h
    simp only [rget, alGet] at h
    by_cases h1 : "id" = f
    · rw [if_pos h1] at h
      obtain rfl := Option.some.inj h
      exact ⟨fun hh => Val.noConfusion hh,
        fun hcon => Bool.noConfusion hcon,
        fun m hm => Val.noConfusion hm⟩
    · rw [if_neg h1] at h
      by_cases h2 : "x" = f
      · rw [if_pos h2] at h
        obtain rfl := Option.some.inj h
        exact ⟨fun hh => Val.noConfusion hh,
          fun hcon => Bool.noConfusion hcon,
          fun m hm => Val.noConfusion hm⟩
      · rw [if_neg h2] at h
        exact Option.noConfusion h
  · intro f hf
    obtain rfl := List.mem_singleton.mp hf
    exact ⟨Val.vnum 1, rfl⟩

/-- Claim C5 (corrected): for a string-diff service satisfying the
round-trip contract and *clean* table documents sharing the primary-key
and string-column configuration, `applyPatch(a, makePatch(a, b))` succeeds
and the result is `isEqual` to `b`.  (As stated — for all table states,
with no cleanliness precondition — the claim is refuted by the null-field
counterexample.) -/
theorem table_roundtrip_clean_C5 (sdiff : StrDiff) (hrt : RoundTrips sdiff)
    (a b : DbDocument) (hca : Clean a) (hcb : Clean b)
    (hpk : b.primaryKeys = a.primaryKeys)
    (hsc : b.stringCols = a.stringCols) :
    ∃ p d', DbDocument.makePatch sdiff a b = some p ∧
      DbDocument.applyPatch sdiff a p = some d' ∧
      d'.isEqual b = true := by
  have hcrB : ∀ r, some r ∈ b.records →
      CleanRec a.primaryKeys a.stringCols r := by
    intro r hr
    have h := hcb.recs_clean r hr
    rw [hpk, hsc] at h
    exact h
  have hstep1 : ∀ (d : DbDocument) (ws : List DbRecord) (rest : DbPatch),
      applyElems sdiff d (.op (-1) :: .objs ws :: rest) =
        match dbDeleteList d ws with
        | none => none
        | some d' => applyElems sdiff d' rest := fun _ _ _ => rfl
  have hstep2 : ∀ (d : DbDocument) (os : List DbRecord) (rest : DbPatch),
      applyElems sdiff d (.op 1 :: .objs os :: rest) =
        match dbSetList sdiff d os with
        | none => none
        | some d' => applyElems sdiff d' rest := fun _ _ _ => rfl
  by_cases hsz : b.size = 0
  · -- delete-everything patch against an empty target
    obtain ⟨d₁, hdel, hC₁, hp₁, hs₁, hrec₁⟩ :=
      dbDeleteWhere_all a hca (some []) rfl
    refine ⟨[.op (-1), .objs [[]]], d₁, ?_, ?_, ?_⟩
    · rw [makePatch_eq, if_pos hsz]
    · rw [DbDocument.applyPatch, hstep1]
      simp only [dbDeleteList, hdel, applyElems]
    · apply isEqual_of_mem_iff d₁ b hC₁ hcb
      intro r
      constructor
      · intro hr
        exfalso
        have hmem : r ∈ recsOf d₁ := (mem_recsOf d₁ r).mpr hr
        rw [hrec₁] at hmem
        exact absurd hmem (List.not_mem_nil r)
      · intro hr
        exfalso
        have hlen : (recsOf b).length = 0 := by
          rw [← clean_size b hcb]
          exact hsz
        have hmem : r ∈ recsOf b := (mem_recsOf b r).mpr hr
        rw [List.length_eq_zero.mp hlen] at hmem
        exact absurd hmem (List.not_mem_nil r)
  by_cases ht0 : mpT0 a b = []
  · -- pure-insert fast path
    have hsub : ∀ r : DbRecord, some r ∈ a.records → some r ∈ b.records :=
      (mpT0_nil_iff a b).mp ht0
    have hnodupmap :
        ((mpT1 a b).map (primaryKeyCols a.primaryKeys)).Nodup := by
      refine List.Nodup.map_on ?_ (nodup_mpT1 a b)
      intro x hx y hy hxy
      exact mem_pk_unique b hcb x y ((mem_mpT1 a b x).mp hx).1
        ((mem_mpT1 a b y).mp hy).1 (by rw [hpk]; exact hxy)
    have hfresh : ∀ o ∈ mpT1 a b, ∀ r, some r ∈ a.records →
        primaryKeyCols a.primaryKeys r ≠ primaryKeyCols a.primaryKeys o := by
      intro o ho r hr heq
      obtain ⟨hoB, honA⟩ := (mem_mpT1 a b o).mp ho
      have heq2 : r = o := mem_pk_unique b hcb r o (hsub r hr) hoB
        (by rw [hpk]; exact heq)
      exact honA (heq2 ▸ hr)
    obtain ⟨d', hrun, hC', hp', hs', hmem'⟩ :=
      dbSetList_insert_spec sdiff a.primaryKeys a.stringCols (mpT1 a b) a
        hca rfl rfl (fun o ho => hcrB o ((mem_mpT1 a b o).mp ho).1)
        hnodupmap hfresh
    refine ⟨[.op 1, .objs (mpT1 a b)], d', ?_, ?_, ?_⟩
    · rw [makePatch_eq, if_neg hsz, if_pos ht0]
    · rw [DbDocument.applyPatch, hstep2]
      simp only [hrun, applyElems]
    · apply isEqual_of_mem_iff d' b hC' hcb
      intro r
      rw [hmem' r]
      constructor
      · rintro (hA | ht1)
        · exact hsub r hA
        · exact ((mem_mpT1 a b r).mp ht1).1
      · intro hB
        by_cases hA : some r ∈ a.records
        · exact Or.inl hA
        · exact Or.inr ((mem_mpT1 a b r).mpr ⟨hB, hA⟩)
  by_cases ht1 : mpT1 a b = []
  · -- pure-delete fast path
    have hsub : ∀ r : DbRecord, some r ∈ b.records → some r ∈ a.records :=
      (mpT1_nil_iff a b).mp ht1
    have hnodupws :
        ((mpT0 a b).map (primaryKeyCols a.primaryKeys)).Nodup := by
      refine List.Nodup.map_on ?_ (nodup_mpT0 a b)
      intro x hx y hy hxy
      exact mem_pk_unique a hca x y ((mem_mpT0 a b x).mp hx).1
        ((mem_mpT0 a b y).mp hy).1 hxy
    have hshape : ∀ p ∈ (mpT0 a b).map (primaryKeyCols a.primaryKeys),
        RecCanon p ∧
        (∀ kv ∈ p, kv.1 ∈ a.primaryKeys ∧ kv.2 ≠ Val.vnull) ∧
        ∀ f ∈ a.primaryKeys, ∃ v, rget p f = some v := by
      intro p hp
      obtain ⟨r, hr, rfl⟩ := List.mem_map.mp hp
      exact pkcols_shape _ _ r
        (hca.recs_clean r ((mem_mpT0 a b r).mp hr).1)
    have hpresent : ∀ p ∈ (mpT0 a b).map (primaryKeyCols a.primaryKeys),
        ∃ r, some r ∈ a.records ∧ primaryKeyCols a.primaryKeys r = p := by
      intro p hp
      obtain ⟨r, hr, rfl⟩ := List.mem_map.mp hp
      exact ⟨r, ((mem_mpT0 a b r).mp hr).1, rfl⟩
    obtain ⟨d', hrun, hC', hp', hs', hmem'⟩ :=
      dbDeleteList_spec a.primaryKeys a.stringCols
        ((mpT0 a b).map (primaryKeyCols a.primaryKeys)) a hca rfl rfl
        hnodupws hshape hpresent
    refine ⟨[.op (-1),
      .objs ((mpT0 a b).map (primaryKeyPart a.primaryKeys))], d', ?_, ?_, ?_⟩
    · rw [makePatch_eq, if_neg hsz, if_neg ht0, if_pos ht1]
    · rw [DbDocument.applyPatch, hstep1]
      have hmapeq : (mpT0 a b).map (primaryKeyPart a.primaryKeys) =
          (mpT0 a b).map (primaryKeyCols a.primaryKeys) := rfl
      rw [hmapeq]
      simp only [hrun, applyElems]
    · apply isEqual_of_mem_iff d' b hC' hcb
      intro r
      rw [hmem' r]
      constructor
      · rintro ⟨hA, hnin⟩
        by_contra hB
        apply hnin
        exact List.mem_map.mpr ⟨r, (mem_mpT0 a b r).mpr ⟨hA, hB⟩, rfl⟩
      · intro hB
        refine ⟨hsub r hB, fun hin => ?_⟩
        obtain ⟨r0, hr0, hpk0⟩ := List.mem_map.mp hin
        obtain ⟨hr0A, hr0nB⟩ := (mem_mpT0 a b r0).mp hr0
        have heq : r0 = r := mem_pk_unique a hca r0 r hr0A (hsub r hB) hpk0
        exact hr0nB (heq ▸ hB)
  -- general branch: deletes, inserts and per-field updates
  have hinsget : ∀ p ∈ mpInserts a b, ∃ rp,
      b.getOne p = some (some rp) ∧
      (some rp ∈ b.records ∧ primaryKeyCols a.primaryKeys rp = p) := by
    intro p hp
    obtain ⟨⟨rb, hB, hpkb⟩, _⟩ :=
      (mem_mpInserts a b hca hcb hpk p).mp hp
    refine ⟨rb, ?_, hB, hpkb⟩
    have hg := getOne_pk b hcb rb hB
    rw [hpk, hpkb] at hg
    exact hg
  obtain ⟨prsI, hprsIfst, hpushrun, hprsIQ⟩ :=
    pushInsertRecords_spec b
      (fun p rp => some rp ∈ b.records ∧
        primaryKeyCols a.primaryKeys rp = p)
      (mpInserts a b) [] hinsget
  rw [List.nil_append] at hpushrun
  have hchget : ∀ p ∈ mpChanged a b, ∃ o,
      changedPatchObj sdiff a b p = some (some o) ∧
      (∃ ra rb, some ra ∈ a.records ∧ some rb ∈ b.records ∧
        primaryKeyCols a.primaryKeys ra = p ∧
        primaryKeyCols a.primaryKeys rb = p ∧ ra ≠ rb ∧
        o = rb.foldl (cpoStep2 sdiff a.stringCols ra)
          (ra.foldl (cpoStep1 rb) (primaryKeyCols a.primaryKeys rb))) := by
    intro p hp
    obtain ⟨ra, rb, hA, hB, hpka, hpkb, hne⟩ :=
      (mem_mpChanged a b hca hcb hpk p).mp hp
    have hppk : primaryKeyPart a.primaryKeys p = p := by
      rw [primaryKeyPart_eq, ← hpka, pkcols_idem]
    have hga : a.getOne (primaryKeyPart a.primaryKeys p) =
        some (some ra) := by
      rw [hppk, ← hpka]
      exact getOne_pk a hca ra hA
    have hgb : b.getOne (primaryKeyPart a.primaryKeys p) =
        some (some rb) := by
      rw [hppk, ← hpkb]
      have hg := getOne_pk b hcb rb hB
      rw [hpk] at hg
      exact hg
    refine ⟨_, changedPatchObj_eq sdiff a b p ra rb hga hgb,
      ra, rb, hA, hB, hpka, hpkb, hne, ?_⟩
    rw [hpkb]
  obtain ⟨prsC, hprsCfst, hchrun, hprsCQ⟩ :=
    changedLoop_spec sdiff a b
      (fun p o => ∃ ra rb, some ra ∈ a.records ∧ some rb ∈ b.records ∧
        primaryKeyCols a.primaryKeys ra = p ∧
        primaryKeyCols a.primaryKeys rb = p ∧ ra ≠ rb ∧
        o = rb.foldl (cpoStep2 sdiff a.stringCols ra)
          (ra.foldl (cpoStep1 rb) (primaryKeyCols a.primaryKeys rb)))
      (mpChanged a b) (prsI.map Prod.snd) hchget
  -- delete phase
  have hnodupdel : (mpDeletes a b).Nodup := (nodup_mpK0 a b).filter _
  have hdelshape : ∀ p ∈ mpDeletes a b, RecCanon p ∧
      (∀ kv ∈ p, kv.1 ∈ a.primaryKeys ∧ kv.2 ≠ Val.vnull) ∧
      ∀ f ∈ a.primaryKeys, ∃ v, rget p f = some v := by
    intro p hp
    have hk0 : p ∈ mpK0 a b := (List.mem_filter.mp hp).1
    obtain ⟨ra, hA, _, rfl⟩ := (mem_mpK0 a b p).mp hk0
    exact pkcols_shape _ _ ra (hca.recs_clean ra hA)
  have hdelpresent : ∀ p ∈ mpDeletes a b, ∃ r,
      some r ∈ a.records ∧ primaryKeyCols a.primaryKeys r = p := by
    intro p hp
    obtain ⟨⟨ra, hA, hpka⟩, _⟩ :=
      (mem_mpDeletes a b hca hcb hpk p).mp hp
    exact ⟨ra, hA, hpka⟩
  obtain ⟨d₁, hdelrun, hC₁, hp₁, hs₁, hmem₁⟩ :=
    dbDeleteList_spec a.primaryKeys a.stringCols (mpDeletes a b) a hca
      rfl rfl hnodupdel hdelshape hdelpresent
  -- insert phase
  have hosclean : ∀ o ∈ prsI.map Prod.snd,
      CleanRec a.primaryKeys a.stringCols o := by
    intro o ho
    obtain ⟨x, hx, rfl⟩ := List.mem_map.mp ho
    exact hcrB x.2 (hprsIQ x hx).1
  have hosnodup :
      ((prsI.map Prod.snd).map (primaryKeyCols a.primaryKeys)).Nodup := by
    have hmm : (prsI.map Prod.snd).map (primaryKeyCols a.primaryKeys) =
        prsI.map Prod.fst := by
      rw [List.map_map]
      apply List.map_congr_left
      intro x hx
      exact (hprsIQ x hx).2
    rw [hmm, hprsIfst]
    exact (nodup_mpK1 a b).filter _
  have hosfresh : ∀ o ∈ prsI.map Prod.snd, ∀ r, some r ∈ d₁.records →
      primaryKeyCols a.primaryKeys r ≠ primaryKeyCols a.primaryKeys o := by
    intro o ho r hr heq
    obtain ⟨x, hx, rfl⟩ := List.mem_map.mp ho
    have hxI : x.1 ∈ mpInserts a b := by
      rw [← hprsIfst]
      exact List.mem_map.mpr ⟨x, hx, rfl⟩
    obtain ⟨_, hnoA⟩ := (mem_mpInserts a b hca hcb hpk x.1).mp hxI
    exact hnoA r ((hmem₁ r).mp hr).1 (heq.trans (hprsIQ x hx).2)
  obtain ⟨d₂, hinsrun, hC₂, hp₂, hs₂, hmem₂⟩ :=
    dbSetList_insert_spec sdiff a.primaryKeys a.stringCols
      (prsI.map Prod.snd) d₁ hC₁ hp₁ hs₁ hosclean hosnodup hosfresh
  -- update phase
  have hPex : ∀ x ∈ prsC, ∃ yz : DbRecord × DbRecord,
      some yz.1 ∈ a.records ∧ some yz.2 ∈ b.records ∧
      primaryKeyCols a.primaryKeys yz.1 = x.1 ∧
      primaryKeyCols a.primaryKeys yz.2 = x.1 ∧ yz.1 ≠ yz.2 ∧
      x.2 = yz.2.foldl (cpoStep2 sdiff a.stringCols yz.1)
        (yz.1.foldl (cpoStep1 yz.2)
          (primaryKeyCols a.primaryKeys yz.2)) := by
    intro x hx
    obtain ⟨ra, rb, h1, h2, h3, h4, h5, h6⟩ := hprsCQ x hx
    exact ⟨(ra, rb), h1, h2, h3, h4, h5, h6⟩
  obtain ⟨tsP, htsfst, htsall⟩ := exists_triples _ prsC hPex
  have hchobjs : (tsP.map fun t => (t.1.2, t.2.1, t.2.2)).map Prod.fst =
      prsC.map Prod.snd := by
    rw [List.map_map, ← htsfst, List.map_map]
    rfl
  have hfacts : ∀ t ∈ tsP.map fun t => (t.1.2, t.2.1, t.2.2),
      CleanRec a.primaryKeys a.stringCols t.2.1 ∧
      CleanRec a.primaryKeys a.stringCols t.2.2 ∧ t.2.1 ≠ t.2.2 ∧
      primaryKeyCols a.primaryKeys t.2.1 =
        primaryKeyCols a.primaryKeys t.2.2 ∧
      t.1 = t.2.2.foldl (cpoStep2 sdiff a.stringCols t.2.1)
        (t.2.1.foldl (cpoStep1 t.2.2)
          (primaryKeyCols a.primaryKeys t.2.2)) ∧
      some t.2.1 ∈ d₂.records := by
    intro t ht
    obtain ⟨t', ht', rfl⟩ := List.mem_map.mp ht
    obtain ⟨hA, hB, hpka, hpkb, hne, huo⟩ := htsall t' ht'
    refine ⟨hca.recs_clean _ hA, hcrB _ hB, hne,
      hpka.trans hpkb.symm, huo, ?_⟩
    apply (hmem₂ t'.2.1).mpr
    left
    apply (hmem₁ t'.2.1).mpr
    refine ⟨hA, fun hdel => ?_⟩
    have hch : t'.1.1 ∈ mpChanged a b := by
      rw [← hprsCfst]
      refine List.mem_map.mpr ⟨t'.1, ?_, rfl⟩
      rw [← htsfst]
      exact List.mem_map.mpr ⟨t', ht', rfl⟩
    have hk1 : t'.1.1 ∈ mpK1 a b := (List.mem_filter.mp hch).1
    have hdec := (List.mem_filter.mp hdel).2
    rw [hpka] at hdec
    simp only [decide_eq_true_eq] at hdec
    exact hdec (List.elem_iff.mpr hk1)
  have hnodupts : ((tsP.map fun t => (t.1.2, t.2.1, t.2.2)).map
      fun t => primaryKeyCols a.primaryKeys t.2.1).Nodup := by
    have hmm : (tsP.map fun t => (t.1.2, t.2.1, t.2.2)).map
        (fun t => primaryKeyCols a.primaryKeys t.2.1) =
          tsP.map fun t' => t'.1.1 := by
      rw [List.map_map]
      apply List.map_congr_left
      intro t' ht'
      exact (htsall t' ht').2.2.1
    have hmm2 : (tsP.map fun t' => t'.1.1) = prsC.map Prod.fst := by
      rw [← htsfst, List.map_map]
      rfl
    rw [hmm, hmm2, hprsCfst]
    exact (nodup_mpK1 a b).filter _
  obtain ⟨d₃, hupdrun, hC₃, hp₃, hs₃, hmem₃⟩ :=
    dbSetList_update_spec sdiff a.primaryKeys a.stringCols hrt
      (tsP.map fun t => (t.1.2, t.2.1, t.2.2)) d₂ hC₂ hp₂ hs₂
      hfacts hnodupts
  -- final membership: the result holds exactly the records of `b`
  have hfinal : ∀ r : DbRecord, some r ∈ d₃.records ↔
      some r ∈ b.records := by
    intro r
    rw [hmem₃ r]
    constructor
    · rintro (⟨h2, hall⟩ | ⟨t, ht, rfl⟩)
      · rcases (hmem₂ r).mp h2 with h1 | hIns
        · obtain ⟨hA, hndel⟩ := (hmem₁ r).mp h1
          by_contra hB
          have hk0 : primaryKeyCols a.primaryKeys r ∈ mpK0 a b :=
            (mem_mpK0 a b _).mpr ⟨r, hA, hB, rfl⟩
          by_cases hk1 :
              (mpK1 a b).contains (primaryKeyCols a.primaryKeys r) = true
          · have hch : primaryKeyCols a.primaryKeys r ∈ mpChanged a b := by
              rw [mpChanged, List.mem_filter]
              exact ⟨List.elem_iff.mp hk1, List.elem_iff.mpr hk0⟩
            rw [← hprsCfst] at hch
            obtain ⟨x, hx, hxeq⟩ := List.mem_map.mp hch
            rw [← htsfst] at hx
            obtain ⟨t', ht', rfl⟩ := List.mem_map.mp hx
            obtain ⟨hA', _, hpka', _, _, _⟩ := htsall t' ht'
            have heq : t'.2.1 = r := by
              apply mem_pk_unique a hca _ _ hA' hA
              rw [hpka', hxeq]
            exact hall (t'.1.2, t'.2.1, t'.2.2)
              (List.mem_map.mpr ⟨t', ht', rfl⟩) heq.symm
          · apply hndel
            rw [mpDeletes, List.mem_filter]
            refine ⟨hk0, ?_⟩
            simp only [decide_eq_true_eq]
            exact hk1
        · obtain ⟨x, hx, rfl⟩ := List.mem_map.mp hIns
          exact (hprsIQ x hx).1
      · obtain ⟨t', ht', rfl⟩ := List.mem_map.mp ht
        exact (htsall t' ht').2.1
    · intro hB
      by_cases hA : some r ∈ a.records
      · have hnotra : ∀ t' ∈ tsP, t'.2.1 ≠ r := by
          intro t' ht' heq
          obtain ⟨hA', hB', hpka', hpkb', hne', _⟩ := htsall t' ht'
          apply hne'
          rw [heq]
          apply mem_pk_unique b hcb r t'.2.2 hB hB'
          rw [hpk, ← heq, hpka', hpkb']
        refine Or.inl ⟨(hmem₂ r).mpr (Or.inl ((hmem₁ r).mpr
          ⟨hA, ?_⟩)), ?_⟩
        · intro hdel
          obtain ⟨_, hnoB⟩ := (mem_mpDeletes a b hca hcb hpk _).mp hdel
          exact hnoB r hB rfl
        · intro t ht heq
          obtain ⟨t', ht', rfl⟩ := List.mem_map.mp ht
          exact hnotra t' ht' heq.symm
      · have hk1 : primaryKeyCols a.primaryKeys r ∈ mpK1 a b :=
          (mem_mpK1 a b hpk _).mpr ⟨r, hB, hA, rfl⟩
        by_cases hk0 :
            (mpK0 a b).contains (primaryKeyCols a.primaryKeys r) = true
        · have hch : primaryKeyCols a.primaryKeys r ∈ mpChanged a b := by
            rw [mpChanged, List.mem_filter]
            exact ⟨hk1, hk0⟩
          rw [← hprsCfst] at hch
          obtain ⟨x, hx, hxeq⟩ := List.mem_map.mp hch
          rw [← htsfst] at hx
          obtain ⟨t', ht', rfl⟩ := List.mem_map.mp hx
          obtain ⟨_, hB', _, hpkb', _, _⟩ := htsall t' ht'
          have heq : t'.2.2 = r := by
            apply mem_pk_unique b hcb _ _ hB' hB
            rw [hpk, hpkb', hxeq]
          exact Or.inr ⟨(t'.1.2, t'.2.1, t'.2.2),
            List.mem_map.mpr ⟨t', ht', rfl⟩, heq.symm⟩
        · have hins : primaryKeyCols a.primaryKeys r ∈ mpInserts a b := by
            rw [mpInserts, List.mem_filter]
            refine ⟨hk1, ?_⟩
            simp only [decide_eq_true_eq]
            exact hk0
          rw [← hprsIfst] at hins
          obtain ⟨x, hx, hxeq⟩ := List.mem_map.mp hins
          obtain ⟨hxB, hxpk⟩ := hprsIQ x hx
          have heq : x.2 = r := by
            apply mem_pk_unique b hcb _ _ hxB hB
            rw [hpk, hxpk, hxeq]
          refine Or.inl ⟨(hmem₂ r).mpr (Or.inr ?_), ?_⟩
          · rw [← heq]
            exact List.mem_map.mpr ⟨x, hx, rfl⟩
          · intro t ht heqr
            obtain ⟨t', ht', rfl⟩ := List.mem_map.mp ht
            obtain ⟨hA', _, _, _, _, _⟩ := htsall t' ht'
            apply hA
            rw [heqr]
            exact hA'
  have hmp : DbDocument.makePatch sdiff a b = some
      ((if mpDeletes a b ≠ [] then [.op (-1), .objs (mpDeletes a b)]
        else []) ++
       (if (prsI.map Prod.snd ++ prsC.map Prod.snd) ≠ []
        then [.op 1, .objs (prsI.map Prod.snd ++ prsC.map Prod.snd)]
        else [])) := by
    rw [makePatch_eq, if_neg hsz, if_neg ht0, if_neg ht1]
    simp only [hpushrun, hchrun]
  by_cases hdeleq : mpDeletes a b = []
  · -- no deletions; the add payload cannot be empty as well
    by_cases haddeq : (prsI.map Prod.snd ++ prsC.map Prod.snd) = []
    · exfalso
      obtain ⟨hInil, hCnil⟩ := List.append_eq_nil.mp haddeq
      have hprsCnil : prsC = [] := List.map_eq_nil.mp hCnil
      obtain ⟨r0, hr0⟩ := List.exists_mem_of_ne_nil _ ht0
      obtain ⟨hA, hnB⟩ := (mem_mpT0 a b r0).mp hr0
      have hk0 : primaryKeyCols a.primaryKeys r0 ∈ mpK0 a b :=
        (mem_mpK0 a b _).mpr ⟨r0, hA, hnB, rfl⟩
      by_cases hk1 :
          (mpK1 a b).contains (primaryKeyCols a.primaryKeys r0) = true
      · have hch : primaryKeyCols a.primaryKeys r0 ∈ mpChanged a b := by
          rw [mpChanged, List.mem_filter]
          exact ⟨List.elem_iff.mp hk1, List.elem_iff.mpr hk0⟩
        rw [← hprsCfst, hprsCnil] at hch
        exact absurd hch (List.not_mem_nil _)
      · have hdel : primaryKeyCols a.primaryKeys r0 ∈ mpDeletes a b := by
          rw [mpDeletes, List.mem_filter]
          refine ⟨hk0, ?_⟩
          simp only [decide_eq_true_eq]
          exact hk1
        rw [hdeleq] at hdel
        exact absurd hdel (List.not_mem_nil _)
    · -- patch is the add payload only
      rw [hdeleq] at hdelrun
      have hd1 : a = d₁ := Option.some.inj hdelrun
      subst hd1
      have hsetrun : dbSetList sdiff a
          (prsI.map Prod.snd ++ prsC.map Prod.snd) = some d₃ := by
        rw [dbSetList_append]
        simp only [hinsrun]
        rw [← hchobjs]
        exact hupdrun
      refine ⟨[.op 1, .objs (prsI.map Prod.snd ++ prsC.map Prod.snd)],
        d₃, ?_, ?_, ?_⟩
      · rw [hmp, if_neg (fun hh => hh hdeleq), if_pos haddeq,
          List.nil_append]
      · rw [DbDocument.applyPatch, hstep2]
        simp only [hsetrun, applyElems]
      · exact isEqual_of_mem_iff d₃ b hC₃ hcb hfinal
  · by_cases haddeq : (prsI.map Prod.snd ++ prsC.map Prod.snd) = []
    · -- deletions only: both set phases are no-ops
      obtain ⟨hInil, hCnil⟩ := List.append_eq_nil.mp haddeq
      rw [hInil] at hinsrun
      have hd2 : d₁ = d₂ := Option.some.inj hinsrun
      subst hd2
      have htsnil : tsP = [] := by
        have h1 : tsP.map Prod.fst = [] := by
          rw [htsfst]
          exact List.map_eq_nil.mp hCnil
        exact List.map_eq_nil.mp h1
      rw [htsnil] at hupdrun
      have hd3 : d₁ = d₃ := Option.some.inj hupdrun
      subst hd3
      refine ⟨[.op (-1), .objs (mpDeletes a b)], d₁, ?_, ?_, ?_⟩
      · rw [hmp, if_pos hdeleq, if_neg (fun hh => hh haddeq),
          List.append_nil]
      · rw [DbDocument.applyPatch, hstep1]
        simp only [hdelrun, applyElems]
      · exact isEqual_of_mem_iff d₁ b hC₃ hcb hfinal
    · -- both payloads present
      have hsetrun : dbSetList sdiff d₁
          (prsI.map Prod.snd ++ prsC.map Prod.snd) = some d₃ := by
        rw [dbSetList_append]
        simp only [hinsrun]
        rw [← hchobjs]
        exact hupdrun
      refine ⟨[.op (-1), .objs (mpDeletes a b), .op 1,
        .objs (prsI.map Prod.snd ++ prsC.map Prod.snd)], d₃, ?_, ?_, ?_⟩
      · rw [hmp, if_pos hdeleq, if_pos haddeq]
        rfl
      · rw [DbDocument.applyPatch, hstep1]
        simp only [hdelrun]
        rw [hstep2]
        simp only [hsetrun, applyElems]
      · exact isEqual_of_mem_iff d₃ b hC₃ hcb hfinal

/-- Witness for the corrected round-trip claim: the replacement-based
string-diff service round-trips, the one-record documents `{id:1, x:2}`
and `{id:1, x:3}` are clean, and the round trip between them — which
exercises the general changed-record branch of `makePatch` — succeeds. -/
theorem table_roundtrip_clean_C5_witness :
    ∃ p d', DbDocument.makePatch trivDiff xDoc2 xDoc3 = some p ∧
      DbDocument.applyPatch trivDiff xDoc2 p = some d' ∧
      d'.isEqual xDoc3 = true :=
  table_roundtrip_clean_C5 trivDiff (fun _ _ => ⟨rfl, rfl⟩)
    xDoc2 xDoc3
    (clean_single ["id"] [] _ (by decide) (by decide) (cleanRec_idx 2))
    (clean_single ["id"] [] _ (by decide) (by decide) (cleanRec_idx 3))
    rfl rfl

end Patchflow
